import Mathlib

/-!
Shallow embedding of the CPU-scheduling simulator (sched_opt.c): the four
drivers FCFS, SJF, SRTF and Round-Robin, the segment coalescer, the
index min-heaps, the Round-Robin FIFO queue and the per-process metrics.
C int arrays are modelled as `List Int` with `getD`/`set`; the simulated
clock and all process fields are `Int` (valid inputs keep every value far
from C int overflow; where the source compares against `INT_MAX` the
literal 2147483647 is kept).  The unbounded `while` loops of the drivers
are modelled with explicit fuel; a driver returns `none` (resp. a distinct
error value for Round-Robin) when the fuel runs out, and the termination
theorems show the chosen fuel always suffices on valid input.
-/

set_option maxHeartbeats 1000000

namespace Sched

/-- A process: pid, arrival time, burst time (struct `Proc` in the source). -/
structure Proc where
  pid : Int
  arrival : Int
  burst : Int
deriving Repr, DecidableEq

/-- A Gantt segment; `pid = -1` denotes IDLE (struct `Seg` in the source;
the C field `end` is spelled `end_` because `end` is a Lean keyword). -/
structure Seg where
  pid : Int
  start : Int
  end_ : Int
deriving Repr, DecidableEq

/-- Read `pr[i]`; the drivers only index in range. -/
def getP (pr : List Proc) (i : Nat) : Proc := pr.getD i ⟨0, 0, 0⟩

/-- Read an `int` array cell (C `a[i]`). -/
def geti (l : List Int) (i : Nat) : Int := l.getD i 0

/-- Tail of `seg_coalesce`: `acc` holds the already-written prefix in reverse
(the write cursor `w` of the C loop is the head of `acc`). -/
def seg_coalesce_go : List Seg → List Seg → List Seg
  | acc, [] => acc.reverse
  | [], s :: rest => seg_coalesce_go [s] rest
  | w :: acc, s :: rest =>
    if s.pid = w.pid ∧ s.start = w.end_ then
      seg_coalesce_go ({ w with end_ := s.end_ } :: acc) rest
    else
      seg_coalesce_go (s :: w :: acc) rest

/-- `seg_coalesce`: merge adjacent segments with equal owner and touching
endpoints (source lines 28–38). -/
def seg_coalesce (v : List Seg) : List Seg := seg_coalesce_go [] v

/-- Boolean version of `cmp_arrival_pid_index` (arrival ascending, then pid
ascending), used to model the `qsort` of the index array. -/
def le_arrival_pid (pr : List Proc) (i j : Nat) : Bool :=
  decide ((getP pr i).arrival < (getP pr j).arrival ∨
    ((getP pr i).arrival = (getP pr j).arrival ∧ (getP pr i).pid ≤ (getP pr j).pid))

/-- Insert into a list sorted by `le` (model of the sorting step). -/
def insert_le (le : Nat → Nat → Bool) (x : Nat) : List Nat → List Nat
  | [] => [x]
  | y :: ys => if le x y then x :: y :: ys else y :: insert_le le x ys

/-- Insertion sort by `le`; deterministic model of the `qsort` call. -/
def sort_le (le : Nat → Nat → Bool) (l : List Nat) : List Nat :=
  l.foldr (insert_le le) []

/-- The sorted admission order `ord` built by every driver. -/
def make_ord (pr : List Proc) : List Nat :=
  sort_le (le_arrival_pid pr) (List.range pr.length)

/-- Exchange `h[i]` and `h[j]` (the three-line swap in the heap code). -/
def heap_swap (h : List Nat) (i j : Nat) : List Nat :=
  (h.set i (h.getD j 0)).set j (h.getD i 0)

/-- Structural engine of the sift-up loop (`fuel` bounds the index, which
strictly decreases; the loop itself is `siftUp`). -/
def siftUp_go : Nat → (Nat → Nat → Bool) → List Nat → Nat → List Nat
  | _, _, h, 0 => h
  | 0, _, h, _+1 => h
  | fuel+1, less, h, i+1 =>
    if less (h.getD (i+1) 0) (h.getD (i / 2) 0) then
      siftUp_go fuel less (heap_swap h (i+1) (i / 2)) (i / 2)
    else h

/-- Sift-up loop of `heap_push_sjf`/`heap_push_srtf`. -/
def siftUp (less : Nat → Nat → Bool) (h : List Nat) (i : Nat) : List Nat :=
  siftUp_go i less h i

theorem siftUp_go_zero (f : Nat) (less : Nat → Nat → Bool) (h : List Nat) :
    siftUp_go f less h 0 = h := by
  cases f
  · rfl
  · rfl

theorem siftUp_go_mono : ∀ (f1 f2 : Nat) (less : Nat → Nat → Bool) (h : List Nat) (i : Nat),
    i ≤ f1 → i ≤ f2 → siftUp_go f1 less h i = siftUp_go f2 less h i
  | f1, f2, less, h, 0, _, _ => by
    rw [siftUp_go_zero, siftUp_go_zero]
  | 0, _, _, _, i+1, h1, _ => absurd h1 (by omega)
  | _+1, 0, _, _, i+1, _, h2 => absurd h2 (by omega)
  | f1+1, f2+1, less, h, i+1, h1, h2 => by
    rw [siftUp_go, siftUp_go]
    split
    · exact siftUp_go_mono f1 f2 less _ (i / 2)
        (by have := Nat.div_le_self i 2; omega)
        (by have := Nat.div_le_self i 2; omega)
    · rfl

/-- The defining equation of the C sift-up loop. -/
theorem siftUp_unfold (less : Nat → Nat → Bool) (h : List Nat) (i : Nat) :
    siftUp less h i =
      (if i = 0 then h
      else if less (h.getD i 0) (h.getD ((i - 1) / 2) 0) then
        siftUp less (heap_swap h i ((i - 1) / 2)) ((i - 1) / 2)
      else h) := by
  match i with
  | 0 => rfl
  | i+1 =>
    rw [if_neg (Nat.succ_ne_zero i)]
    show siftUp_go (i+1) less h (i+1) = _
    rw [siftUp_go]
    have he : (i + 1 - 1) / 2 = i / 2 := rfl
    rw [he]
    split
    · exact siftUp_go_mono i (i / 2) less _ (i / 2)
        (Nat.div_le_self i 2) (le_refl _)
    · rfl

/-- First candidate (left child vs parent) of the sift-down step. -/
def sd_m1 (less : Nat → Nat → Bool) (h : List Nat) (i : Nat) : Nat :=
  if 2*i+1 < h.length ∧ less (h.getD (2*i+1) 0) (h.getD i 0) = true then 2*i+1 else i

/-- Index the sift-down step moves to (the `m` of the C loop body). -/
def sd_m (less : Nat → Nat → Bool) (h : List Nat) (i : Nat) : Nat :=
  if 2*i+2 < h.length ∧ less (h.getD (2*i+2) 0) (h.getD (sd_m1 less h i) 0) = true then 2*i+2
  else sd_m1 less h i

theorem sd_m1_spec (less : Nat → Nat → Bool) (h : List Nat) (i : Nat) :
    sd_m1 less h i = i ∨ (i < sd_m1 less h i ∧ sd_m1 less h i < h.length) := by
  unfold sd_m1
  split
  · next hc => right; omega
  · left; rfl

theorem sd_m_spec (less : Nat → Nat → Bool) (h : List Nat) (i : Nat) :
    sd_m less h i = i ∨ (i < sd_m less h i ∧ sd_m less h i < h.length) := by
  unfold sd_m
  split
  · next hc => right; omega
  · exact sd_m1_spec less h i

theorem heap_swap_length (h : List Nat) (i j : Nat) :
    (heap_swap h i j).length = h.length := by
  simp [heap_swap]

theorem sd_m_of_ge (less : Nat → Nat → Bool) (h : List Nat) (i : Nat)
    (hi : h.length ≤ i) : sd_m less h i = i := by
  have h1 : sd_m1 less h i = i := by
    unfold sd_m1
    rw [if_neg]
    intro hc
    omega
  unfold sd_m
  rw [h1, if_neg]
  intro hc
  omega

/-- Structural engine of the sift-down loop (`fuel` bounds the remaining
distance to the end of the array; the loop itself is `siftDown`). -/
def siftDown_go : Nat → (Nat → Nat → Bool) → List Nat → Nat → List Nat
  | 0, _, h, _ => h
  | fuel+1, less, h, i =>
    if sd_m less h i = i then h
    else siftDown_go fuel less (heap_swap h i (sd_m less h i)) (sd_m less h i)

/-- Sift-down loop of `heap_pop_sjf`/`heap_pop_srtf`. -/
def siftDown (less : Nat → Nat → Bool) (h : List Nat) (i : Nat) : List Nat :=
  siftDown_go (h.length - i) less h i

theorem siftDown_go_mono : ∀ (f1 f2 : Nat) (less : Nat → Nat → Bool) (h : List Nat) (i : Nat),
    h.length - i ≤ f1 → h.length - i ≤ f2 → siftDown_go f1 less h i = siftDown_go f2 less h i
  | 0, 0, _, _, _, _, _ => rfl
  | 0, f2+1, less, h, i, h1, _ => by
    rw [siftDown_go, siftDown_go, if_pos (sd_m_of_ge less h i (by omega))]
  | f1+1, 0, less, h, i, _, h2 => by
    rw [siftDown_go, siftDown_go, if_pos (sd_m_of_ge less h i (by omega))]
  | f1+1, f2+1, less, h, i, h1, h2 => by
    rw [siftDown_go, siftDown_go]
    split
    · rfl
    · next hne =>
      rcases sd_m_spec less h i with h0 | h0
      · exact absurd h0 hne
      · exact siftDown_go_mono f1 f2 less _ _ (by rw [heap_swap_length]; omega)
          (by rw [heap_swap_length]; omega)

/-- The defining equation of the C sift-down loop. -/
theorem siftDown_unfold (less : Nat → Nat → Bool) (h : List Nat) (i : Nat) :
    siftDown less h i =
      (if sd_m less h i = i then h
      else siftDown less (heap_swap h i (sd_m less h i)) (sd_m less h i)) := by
  unfold siftDown
  by_cases hm : sd_m less h i = i
  · rw [if_pos hm]
    rcases hf : h.length - i with _ | m
    · rfl
    · rw [siftDown_go, if_pos hm]
  · rw [if_neg hm]
    rcases sd_m_spec less h i with h0 | h0
    · exact absurd h0 hm
    · have hf : h.length - i = (h.length - i - 1) + 1 := by omega
      rw [hf, siftDown_go, if_neg hm]
      exact siftDown_go_mono (h.length - i - 1)
        ((heap_swap h i (sd_m less h i)).length - sd_m less h i) less _ _
        (by rw [heap_swap_length]; omega) (by omega)

/-- `heap_push_*`: append at the end, then sift up. -/
def heap_push (less : Nat → Nat → Bool) (h : List Nat) (idx : Nat) : List Nat :=
  siftUp less (h ++ [idx]) h.length

/-- `heap_pop_*`: return the root, move the last element to the root,
shrink, and sift down.  On an empty heap (never reached under the drivers'
guards) it returns a junk value. -/
def heap_pop (less : Nat → Nat → Bool) (h : List Nat) : Nat × List Nat :=
  match h with
  | [] => (0, [])
  | x :: rest =>
    (x, siftDown less (((x :: rest).set 0 ((x :: rest).getD rest.length 0)).take rest.length) 0)

/-- `less_sjf`: burst, then arrival, then pid. -/
def less_sjf (pr : List Proc) (i j : Nat) : Bool :=
  if (getP pr i).burst ≠ (getP pr j).burst then decide ((getP pr i).burst < (getP pr j).burst)
  else if (getP pr i).arrival ≠ (getP pr j).arrival then
    decide ((getP pr i).arrival < (getP pr j).arrival)
  else decide ((getP pr i).pid < (getP pr j).pid)

/-- `less_srtf`: remaining, then arrival, then pid. -/
def less_srtf (pr : List Proc) (rem : List Int) (i j : Nat) : Bool :=
  if geti rem i ≠ geti rem j then decide (geti rem i < geti rem j)
  else if (getP pr i).arrival ≠ (getP pr j).arrival then
    decide ((getP pr i).arrival < (getP pr j).arrival)
  else decide ((getP pr i).pid < (getP pr j).pid)

/-- Structural engine of the shared admission loop (`fuel` bounds the
not-yet-admitted count; the loop itself is `admit_heap`). -/
def admit_heap_go : Nat → (Nat → Nat → Bool) → List Proc → List Nat → Int → Nat →
    List Nat → Nat × List Nat
  | 0, _, _, _, _, k, hp => (k, hp)
  | fuel+1, less, pr, ord, t, k, hp =>
    if k < pr.length ∧ (getP pr (ord.getD k 0)).arrival ≤ t then
      admit_heap_go fuel less pr ord t (k+1) (heap_push less hp (ord.getD k 0))
    else (k, hp)

/-- The admission loop `while (k<n && pr[ord[k]].arrival <= t) push` shared
by the SJF and SRTF drivers. -/
def admit_heap (less : Nat → Nat → Bool) (pr : List Proc) (ord : List Nat) (t : Int)
    (k : Nat) (hp : List Nat) : Nat × List Nat :=
  admit_heap_go (pr.length - k) less pr ord t k hp

/-- The defining equation of the shared admission loop. -/
theorem admit_heap_unfold (less : Nat → Nat → Bool) (pr : List Proc) (ord : List Nat)
    (t : Int) (k : Nat) (hp : List Nat) :
    admit_heap less pr ord t k hp =
      (if k < pr.length ∧ (getP pr (ord.getD k 0)).arrival ≤ t then
        admit_heap less pr ord t (k+1) (heap_push less hp (ord.getD k 0))
      else (k, hp)) := by
  unfold admit_heap
  by_cases hg : k < pr.length ∧ (getP pr (ord.getD k 0)).arrival ≤ t
  · have hf : pr.length - k = (pr.length - (k+1)) + 1 := by omega
    rw [hf, admit_heap_go]
  · rcases hf : pr.length - k with _ | m
    · rw [if_neg hg]
      rfl
    · rw [admit_heap_go, if_neg hg, if_neg hg]

/-- The C macro value used by the SRTF driver for "no further arrival". -/
def INT_MAX : Int := 2147483647

/-- Result of a driver: coalesced segment list and the Start/End arrays. -/
structure AlgoRes where
  segs : List Seg
  start : List Int
  end_ : List Int
deriving Repr, DecidableEq

/-- Result of `run_fcfs`; `disp` is ghost instrumentation recording the
dispatch order (it influences nothing else). -/
structure FCFSRes where
  segs : List Seg
  start : List Int
  end_ : List Int
  disp : List Nat
deriving Repr, DecidableEq

/-- The body of the FCFS `for` loop over the sorted index array. -/
def fcfs_go (pr : List Proc) : List Nat → Int → List Seg → List Int → List Int →
    List Nat → FCFSRes
  | [], _, sv, start, end_, disp => ⟨seg_coalesce sv, start, end_, disp⟩
  | i :: rest, t, sv, start, end_, disp =>
    let sv₁ := if t < (getP pr i).arrival then sv ++ [⟨-1, t, (getP pr i).arrival⟩] else sv
    let t₁ := if t < (getP pr i).arrival then (getP pr i).arrival else t
    fcfs_go pr rest (t₁ + (getP pr i).burst) (sv₁ ++ [⟨(getP pr i).pid, t₁, t₁ + (getP pr i).burst⟩])
      (start.set i t₁) (end_.set i (t₁ + (getP pr i).burst)) (disp ++ [i])

/-- `run_fcfs` (source lines 232–262). -/
def run_fcfs (pr : List Proc) : FCFSRes :=
  fcfs_go pr (make_ord pr) 0 [] (List.replicate pr.length (-1)) (List.replicate pr.length (-1)) []

/-- Initial clock shared by SJF/SRTF/RR:
`if (n>0 && pr[ord[0]].arrival>t) t = pr[ord[0]].arrival` with `t = 0`. -/
def init_t (pr : List Proc) (ord : List Nat) : Int :=
  if 0 < pr.length ∧ 0 < (getP pr (ord.getD 0 0)).arrival then (getP pr (ord.getD 0 0)).arrival
  else 0

/-- The SJF `while (doneCnt < n)` loop, with fuel. -/
def sjf_go (pr : List Proc) (ord : List Nat) (fuel : Nat) (t : Int) (k doneCnt : Nat)
    (hp : List Nat) (sv : List Seg) (start end_ : List Int) : Option AlgoRes :=
  match fuel with
  | 0 => none
  | fuel + 1 =>
    if doneCnt < pr.length then
      let a := admit_heap (less_sjf pr) pr ord t k hp
      if a.2.length = 0 then
        if a.1 < pr.length then
          let nextA := (getP pr (ord.getD a.1 0)).arrival
          sjf_go pr ord fuel nextA a.1 doneCnt a.2
            (if t < nextA then sv ++ [⟨-1, t, nextA⟩] else sv) start end_
        else some ⟨seg_coalesce sv, start, end_⟩
      else
        let p := heap_pop (less_sjf pr) a.2
        let i := p.1
        sjf_go pr ord fuel (t + (getP pr i).burst) a.1 (doneCnt + 1) p.2
          (sv ++ [⟨(getP pr i).pid, t, t + (getP pr i).burst⟩])
          (start.set i t) (end_.set i (t + (getP pr i).burst))
    else some ⟨seg_coalesce sv, start, end_⟩

/-- Fuel that always suffices for the SJF driver on valid input. -/
def sjf_fuel (pr : List Proc) : Nat := 3 * pr.length + 3

/-- `run_sjf` (source lines 264–304).  The C leaves `start`/`end` arrays
uninitialized; they are modelled as initialized to `-1` (every cell is
written before the driver returns on valid input). -/
def run_sjf (pr : List Proc) : Option AlgoRes :=
  let ord := make_ord pr
  sjf_go pr ord (sjf_fuel pr) (init_t pr ord) 0 0 [] []
    (List.replicate pr.length (-1)) (List.replicate pr.length (-1))

/-- Close the open segment `(cur, seg_start)` at clock `t`
(`if (cur!=-2) seg_push(...)` after the SRTF/RR loops). -/
def close_seg (sv : List Seg) (cur seg_start t : Int) : List Seg :=
  if cur ≠ -2 then sv ++ [⟨cur, seg_start, t⟩] else sv

/-- The SRTF `while (completed < n)` loop, with fuel. -/
def srtf_go (pr : List Proc) (ord : List Nat) (fuel : Nat) (t : Int) (k doneCnt : Nat)
    (rem : List Int) (hp : List Nat) (cur seg_start : Int) (sv : List Seg)
    (start end_ : List Int) : Option AlgoRes :=
  match fuel with
  | 0 => none
  | fuel + 1 =>
    if doneCnt < pr.length then
      let a := admit_heap (less_srtf pr rem) pr ord t k hp
      if a.2.length = 0 then
        if a.1 < pr.length then
          let nextA := (getP pr (ord.getD a.1 0)).arrival
          let sv₁ := if cur ≠ -1 ∧ cur ≠ -2 then sv ++ [⟨cur, seg_start, t⟩] else sv
          srtf_go pr ord fuel nextA a.1 doneCnt rem a.2 (-2) nextA
            (sv₁ ++ [⟨-1, t, nextA⟩]) start end_
        else some ⟨seg_coalesce (close_seg sv cur seg_start t), start, end_⟩
      else
        let i := a.2.getD 0 0
        let start' := if geti start i = -1 then start.set i t else start
        let next_arrival := if a.1 < pr.length then (getP pr (ord.getD a.1 0)).arrival else INT_MAX
        let finish_time := t + geti rem i
        let sv' := if cur ≠ (getP pr i).pid ∧ cur ≠ -2 then sv ++ [⟨cur, seg_start, t⟩] else sv
        let seg_start' := if cur ≠ (getP pr i).pid then t else seg_start
        if finish_time ≤ next_arrival then
          let rem' := rem.set i 0
          srtf_go pr ord fuel finish_time a.1 (doneCnt + 1) rem'
            (heap_pop (less_srtf pr rem') a.2).2 (getP pr i).pid seg_start' sv'
            start' (end_.set i finish_time)
        else
          let run_len := next_arrival - t
          let rem' := rem.set i (geti rem i - run_len)
          srtf_go pr ord fuel next_arrival a.1 doneCnt rem'
            (heap_push (less_srtf pr rem') (heap_pop (less_srtf pr rem') a.2).2 i)
            (getP pr i).pid seg_start' sv' start' end_
    else some ⟨seg_coalesce (close_seg sv cur seg_start t), start, end_⟩

/-- Fuel that always suffices for the SRTF driver on bounded valid input. -/
def srtf_fuel (pr : List Proc) : Nat := 4 * pr.length + 4

/-- `run_srtf` (source lines 306–365). -/
def run_srtf (pr : List Proc) : Option AlgoRes :=
  let ord := make_ord pr
  let t0 := init_t pr ord
  srtf_go pr ord (srtf_fuel pr) t0 0 0 (pr.map Proc.burst) [] (-2) t0 []
    (List.replicate pr.length (-1)) (List.replicate pr.length (-1))

/-- Result of `run_rr`.  `disp`, `qmax` and `dup` are ghost instrumentation:
the dispatch order, the largest queue length ever reached, and whether a
push ever inserted an index already present in the queue. -/
structure RRRes where
  segs : List Seg
  start : List Int
  end_ : List Int
  disp : List Nat
  qmax : Nat
  dup : Bool
deriving Repr, DecidableEq

/-- Outcome of the RR driver: normal result, queue overflow (the
`Queue overflow`/`Queue underflow` exits of the source), or out of fuel. -/
inductive RROut where
  | ok : RRRes → RROut
  | qfail : RROut
  | nofuel : RROut
deriving Repr, DecidableEq

/-- `q_push` on the capacity-`cap` FIFO queue: `none` models the
`Queue overflow` exit. -/
def q_push (cap : Nat) (q : List Nat) (v : Nat) : Option (List Nat) :=
  if q.length = cap then none else some (q ++ [v])

/-- RR admission loop: push every not-yet-admitted process with
`arrival ≤ t`; when `checkInq` is set, skip indices already in the queue
(line 418 of the source; the other admission sites do not check).
Returns `(k, queue, inq, qmax, dup)` or `none` on queue overflow. -/
def rr_admit_go : Nat → List Proc → List Nat → Nat → Int → Bool → Nat → List Nat →
    List Bool → Nat → Bool → Option (Nat × List Nat × List Bool × Nat × Bool)
  | 0, _, _, _, _, _, k, q, inq, qmax, dup => some (k, q, inq, qmax, dup)
  | fuel+1, pr, ord, cap, t, checkInq, k, q, inq, qmax, dup =>
    if k < pr.length ∧ (getP pr (ord.getD k 0)).arrival ≤ t then
      if checkInq ∧ inq.getD (ord.getD k 0) false = true then
        rr_admit_go fuel pr ord cap t checkInq (k+1) q inq qmax dup
      else
        match q_push cap q (ord.getD k 0) with
        | none => none
        | some q' =>
          rr_admit_go fuel pr ord cap t checkInq (k+1) q' (inq.set (ord.getD k 0) true)
            (max qmax q'.length) (dup || q.contains (ord.getD k 0))
    else some (k, q, inq, qmax, dup)

def rr_admit (pr : List Proc) (ord : List Nat) (cap : Nat) (t : Int) (checkInq : Bool)
    (k : Nat) (q : List Nat) (inq : List Bool) (qmax : Nat) (dup : Bool) :
    Option (Nat × List Nat × List Bool × Nat × Bool) :=
  rr_admit_go (pr.length - k) pr ord cap t checkInq k q inq qmax dup

/-- The defining equation of the RR admission loop. -/
theorem rr_admit_unfold (pr : List Proc) (ord : List Nat) (cap : Nat) (t : Int)
    (checkInq : Bool) (k : Nat) (q : List Nat) (inq : List Bool) (qmax : Nat)
    (dup : Bool) :
    rr_admit pr ord cap t checkInq k q inq qmax dup =
      (if k < pr.length ∧ (getP pr (ord.getD k 0)).arrival ≤ t then
        if checkInq ∧ inq.getD (ord.getD k 0) false = true then
          rr_admit pr ord cap t checkInq (k+1) q inq qmax dup
        else
          match q_push cap q (ord.getD k 0) with
          | none => none
          | some q' =>
            rr_admit pr ord cap t checkInq (k+1) q' (inq.set (ord.getD k 0) true)
              (max qmax q'.length) (dup || q.contains (ord.getD k 0))
      else some (k, q, inq, qmax, dup)) := by
  unfold rr_admit
  by_cases hg : k < pr.length ∧ (getP pr (ord.getD k 0)).arrival ≤ t
  · have hf : pr.length - k = (pr.length - (k+1)) + 1 := by omega
    rw [hf, rr_admit_go]
  · rcases hf : pr.length - k with _ | m
    · rw [if_neg hg]
      rfl
    · rw [rr_admit_go, if_neg hg, if_neg hg]

/-- The RR `while (completed < n)` loop, with fuel. -/
def rr_go (pr : List Proc) (ord : List Nat) (quantum : Int) (fuel : Nat) (t : Int)
    (k doneCnt : Nat) (rem : List Int) (q : List Nat) (inq : List Bool)
    (cur_pid seg_start : Int) (sv : List Seg) (start end_ : List Int)
    (disp : List Nat) (qmax : Nat) (dup : Bool) : RROut :=
  match fuel with
  | 0 => RROut.nofuel
  | fuel + 1 =>
    if doneCnt < pr.length then
      match q with
      | [] =>
        if k < pr.length then
          let nextA := (getP pr (ord.getD k 0)).arrival
          let sv₁ := if cur_pid ≠ -1 ∧ cur_pid ≠ -2 then sv ++ [⟨cur_pid, seg_start, t⟩] else sv
          match rr_admit pr ord pr.length nextA false k [] inq qmax dup with
          | none => RROut.qfail
          | some (k', q', inq', qmax', dup') =>
            rr_go pr ord quantum fuel nextA k' doneCnt rem q' inq' (-2) nextA
              (sv₁ ++ [⟨-1, t, nextA⟩]) start end_ disp qmax' dup'
        else RROut.ok ⟨seg_coalesce (close_seg sv cur_pid seg_start t), start, end_, disp, qmax, dup⟩
      | i :: qrest =>
        let inq₁ := inq.set i false
        let start' := if geti start i = -1 then start.set i t else start
        let sv' := if cur_pid ≠ (getP pr i).pid ∧ cur_pid ≠ -2 then
            sv ++ [⟨cur_pid, seg_start, t⟩] else sv
        let seg_start' := if cur_pid ≠ (getP pr i).pid then t else seg_start
        let slice := if geti rem i < quantum then geti rem i else quantum
        let t' := t + slice
        let rem' := rem.set i (geti rem i - slice)
        match rr_admit pr ord pr.length t' true k qrest inq₁ qmax dup with
        | none => RROut.qfail
        | some (k', q', inq', qmax', dup') =>
          if geti rem' i = 0 then
            rr_go pr ord quantum fuel t' k' (doneCnt + 1) rem' q' inq' (getP pr i).pid seg_start'
              sv' start' (end_.set i t') (disp ++ [i]) qmax' dup'
          else
            match q_push pr.length q' i with
            | none => RROut.qfail
            | some q'' =>
              rr_go pr ord quantum fuel t' k' doneCnt rem' q'' (inq'.set i true)
                (getP pr i).pid seg_start' sv' start' end_ (disp ++ [i])
                (max qmax' q''.length) (dup' || q'.contains i)
    else RROut.ok ⟨seg_coalesce (close_seg sv cur_pid seg_start t), start, end_, disp, qmax, dup⟩

/-- Total burst of the input. -/
def sumBurst (pr : List Proc) : Int :=
  ∑ j ∈ Finset.range pr.length, (getP pr j).burst

/-- Fuel that always suffices for the RR driver on valid input: twice the
total work plus a margin for the idle jumps. -/
def rr_fuel (pr : List Proc) : Nat :=
  2 * (∑ j ∈ Finset.range pr.length, ((pr.map Proc.burst).getD j 0).toNat) +
    4 * pr.length + 4

/-- `run_rr` (source lines 375–433). -/
def run_rr (pr : List Proc) (quantum : Int) : RROut :=
  let ord := make_ord pr
  let t0 := init_t pr ord
  match rr_admit pr ord pr.length t0 false 0 [] (List.replicate pr.length false) 0 false with
  | none => RROut.qfail
  | some (k0, q0, inq0, qmax0, dup0) =>
    rr_go pr ord quantum (rr_fuel pr) t0 k0 0 (pr.map Proc.burst) q0 inq0 (-2) t0 []
      (List.replicate pr.length (-1)) (List.replicate pr.length (-1)) [] qmax0 dup0

/-- Per-process response time as computed in `csv_dump_algo`/`print_avgs`. -/
def resp_of (pr : List Proc) (start : List Int) (i : Nat) : Int :=
  geti start i - (getP pr i).arrival

/-- Per-process turnaround time as computed in `csv_dump_algo`/`print_avgs`. -/
def tat_of (pr : List Proc) (end_ : List Int) (i : Nat) : Int :=
  geti end_ i - (getP pr i).arrival

/-- Per-process waiting time as computed in `csv_dump_algo`/`print_avgs`. -/
def wait_of (pr : List Proc) (end_ : List Int) (i : Nat) : Int :=
  tat_of pr end_ i - (getP pr i).burst

/-- Validated input, as enforced by `main` before any driver runs. -/
def ValidInput (pr : List Proc) : Prop :=
  0 < pr.length ∧ ∀ p ∈ pr, 0 ≤ p.arrival ∧ 1 ≤ p.burst

/-- Largest arrival of the input (0 when empty). -/
def maxArrival (pr : List Proc) : Int := (pr.map Proc.arrival).foldr max 0

/-- No-overflow bound: the whole simulated timeline stays at or below
`INT_MAX`, which is what the C program needs to avoid signed overflow. -/
def Bounded (pr : List Proc) : Prop := maxArrival pr + sumBurst pr ≤ INT_MAX

/-- Checker for the segment-list invariant: positive-length segments,
contiguous, and no two adjacent segments with the same owner. -/
def segsOKb : List Seg → Bool
  | [] => true
  | [s] => decide (s.start < s.end_)
  | s :: s₂ :: rest =>
    decide (s.start < s.end_) && decide (s.end_ = s₂.start) && decide (s.pid ≠ s₂.pid) &&
      segsOKb (s₂ :: rest)

/-! ### Basic array-access lemmas -/

theorem geti_set_self (l : List Int) (i : Nat) (v : Int) (h : i < l.length) :
    geti (l.set i v) i = v := by
  rw [geti, List.getD_eq_getElem?_getD]
  simp [List.getElem?_set_self, h]

theorem geti_set_ne (l : List Int) (i j : Nat) (v : Int) (h : i ≠ j) :
    geti (l.set i v) j = geti l j := by
  simp [geti, List.getD_eq_getElem?_getD, List.getElem?_set_ne h]

theorem geti_replicate (n : Nat) (v : Int) (j : Nat) (h : j < n) :
    geti (List.replicate n v) j = v := by
  rw [geti, List.getD_eq_getElem?_getD]
  simp [List.getElem?_replicate, h]

theorem getD_set_self_any {α : Type} (l : List α) (i : Nat) (v d : α) (h : i < l.length) :
    (l.set i v).getD i d = v := by
  rw [List.getD_eq_getElem?_getD, List.getElem?_set_self h]
  rfl

theorem getD_set_ne_any {α : Type} (l : List α) (i j : Nat) (v d : α) (h : i ≠ j) :
    (l.set i v).getD j d = l.getD j d := by
  rw [List.getD_eq_getElem?_getD, List.getElem?_set_ne h, ← List.getD_eq_getElem?_getD]

theorem getP_mem (pr : List Proc) (i : Nat) (h : i < pr.length) : getP pr i ∈ pr := by
  rw [getP, List.getD_eq_getElem pr _ h]
  exact List.getElem_mem h

theorem valid_burst_pos (pr : List Proc) (hv : ValidInput pr) (i : Nat) (h : i < pr.length) :
    1 ≤ (getP pr i).burst := (hv.2 _ (getP_mem pr i h)).2

theorem valid_arrival_nonneg (pr : List Proc) (hv : ValidInput pr) (i : Nat)
    (h : i < pr.length) : 0 ≤ (getP pr i).arrival := (hv.2 _ (getP_mem pr i h)).1

/-! ### Heap permutation lemmas -/

theorem heap_swap_comm (h : List Nat) (i j : Nat) (hij : i ≠ j) :
    heap_swap h i j = heap_swap h j i := by
  unfold heap_swap
  exact List.set_comm _ _ _ hij

theorem heap_swap_perm_lt : ∀ (h : List Nat) (i j : Nat), i < j → j < h.length →
    List.Perm (heap_swap h i j) h
  | [], _, _, _, hj => by simp at hj
  | _ :: _, _+1, 0, hij, _ => by omega
  | x :: rest, 0, j+1, _, hj => by
    have hj' : j < rest.length := by simpa using hj
    have hswap : heap_swap (x :: rest) 0 (j+1) = rest.getD j 0 :: rest.set j x := by
      simp [heap_swap, List.getD_cons_succ, List.getD_cons_zero]
    rw [hswap, List.getD_eq_getElem rest 0 hj', List.set_eq_take_cons_drop x hj']
    have hrest : rest = rest.take j ++ rest[j] :: rest.drop (j+1) := by
      conv_lhs => rw [← List.take_append_drop j rest]
      rw [List.drop_eq_getElem_cons hj']
    have s1 : List.Perm (rest[j] :: (rest.take j ++ x :: rest.drop (j+1)))
        (rest[j] :: (x :: (rest.take j ++ rest.drop (j+1)))) := List.perm_middle.cons _
    have s2 : List.Perm (rest[j] :: (x :: (rest.take j ++ rest.drop (j+1))))
        (x :: (rest[j] :: (rest.take j ++ rest.drop (j+1)))) := List.Perm.swap _ _ _
    have s3 : List.Perm (x :: (rest[j] :: (rest.take j ++ rest.drop (j+1))))
        (x :: (rest.take j ++ rest[j] :: rest.drop (j+1))) := List.perm_middle.symm.cons _
    have s4 := (s1.trans s2).trans s3
    rw [← hrest] at s4
    exact s4
  | x :: rest, i+1, j+1, hij, hj => by
    have hstep : heap_swap (x :: rest) (i+1) (j+1) = x :: heap_swap rest i j := by
      simp [heap_swap, List.getD_cons_succ]
    rw [hstep]
    exact (heap_swap_perm_lt rest i j (by omega) (by simpa using hj)).cons x

theorem heap_swap_perm (h : List Nat) (i j : Nat) (hij : i ≠ j) (hi : i < h.length)
    (hj : j < h.length) : List.Perm (heap_swap h i j) h := by
  rcases Nat.lt_or_ge i j with hlt | hge
  · exact heap_swap_perm_lt h i j hlt hj
  · rw [heap_swap_comm h i j hij]
    exact heap_swap_perm_lt h j i (by omega) hi

theorem siftUp_perm (less : Nat → Nat → Bool) : ∀ (i : Nat) (h : List Nat), i < h.length →
    List.Perm (siftUp less h i) h
  | 0, h, _ => by rw [siftUp_unfold]; simp
  | i+1, h, hi => by
    rw [siftUp_unfold]
    simp only [Nat.succ_ne_zero, if_false]
    split
    · have hp : (i + 1 - 1) / 2 < i + 1 := by
        have := Nat.div_le_self (i + 1 - 1) 2
        omega
      have hswap := heap_swap_perm h (i+1) ((i+1-1)/2) (by omega) hi (by omega)
      have hrec := siftUp_perm less ((i+1-1)/2) (heap_swap h (i+1) ((i+1-1)/2))
        (by rw [heap_swap_length]; omega)
      exact hrec.trans hswap
    · exact List.Perm.refl h
termination_by i => i
decreasing_by
  have := Nat.div_le_self i 2
  omega

theorem siftDown_perm (less : Nat → Nat → Bool) : ∀ (h : List Nat) (i : Nat),
    List.Perm (siftDown less h i) h := by
  intro h i
  rw [siftDown_unfold]
  split
  · exact List.Perm.refl h
  · next hm =>
    rcases sd_m_spec less h i with h0 | h0
    · exact absurd h0 hm
    · have hswap := heap_swap_perm h i (sd_m less h i) (by omega) (by omega) h0.2
      have hrec := siftDown_perm less (heap_swap h i (sd_m less h i)) (sd_m less h i)
      exact hrec.trans hswap
termination_by h i => h.length - i
decreasing_by
  rcases sd_m_spec less h i with h0 | h0
  · exact absurd h0 (by assumption)
  · rw [heap_swap_length]
    omega

theorem heap_push_perm (less : Nat → Nat → Bool) (h : List Nat) (idx : Nat) :
    List.Perm (heap_push less h idx) (idx :: h) := by
  unfold heap_push
  have h1 := siftUp_perm less h.length (h ++ [idx]) (by simp)
  exact h1.trans (List.perm_append_singleton idx h)

theorem heap_push_length (less : Nat → Nat → Bool) (h : List Nat) (idx : Nat) :
    (heap_push less h idx).length = h.length + 1 := by
  have := (heap_push_perm less h idx).length_eq
  simpa using this

theorem heap_pop_fst (less : Nat → Nat → Bool) (x : Nat) (rest : List Nat) :
    (heap_pop less (x :: rest)).1 = x := rfl

/-- Moving the last element to the front of the remaining prefix is a
permutation of the whole list. -/
theorem last_cons_take_perm : ∀ (L : List Nat), L ≠ [] →
    List.Perm (L.getD (L.length - 1) 0 :: L.take (L.length - 1)) L
  | [], h => absurd rfl h
  | [a], _ => by simp
  | a :: b :: L, _ => by
    have h1 : (a :: b :: L).length - 1 = (b :: L).length := rfl
    rw [h1]
    have h2 : (a :: b :: L).getD (b :: L).length 0 =
        (b :: L).getD ((b :: L).length - 1) 0 := by
      have h3 : (b :: L).length = ((b :: L).length - 1) + 1 := by simp
      rw [h3, List.getD_cons_succ]
      simp
    have h4 : (a :: b :: L).take (b :: L).length =
        a :: (b :: L).take ((b :: L).length - 1) := by
      have h3 : (b :: L).length = ((b :: L).length - 1) + 1 := by simp
      rw [h3, List.take_succ_cons]
      simp
    rw [h2, h4]
    have hIH := last_cons_take_perm (b :: L) (by simp)
    exact (List.Perm.swap a _ _).trans (hIH.cons a)

theorem heap_pop_perm (less : Nat → Nat → Bool) (x : Nat) (rest : List Nat) :
    List.Perm (heap_pop less (x :: rest)).2 rest := by
  show List.Perm (siftDown less
    (((x :: rest).set 0 ((x :: rest).getD rest.length 0)).take rest.length) 0) rest
  refine (siftDown_perm less _ 0).trans ?_
  cases rest with
  | nil => simp
  | cons y rest' =>
    have hset : (x :: y :: rest').set 0 ((x :: y :: rest').getD (y :: rest').length 0) =
        ((x :: y :: rest').getD (y :: rest').length 0) :: y :: rest' := rfl
    rw [hset]
    have h2 : (x :: y :: rest').getD (y :: rest').length 0 =
        (y :: rest').getD ((y :: rest').length - 1) 0 := by
      have h3 : (y :: rest').length = ((y :: rest').length - 1) + 1 := by simp
      conv_lhs => rw [h3]
      rw [List.getD_cons_succ]
    have h4 : (((x :: y :: rest').getD (y :: rest').length 0) :: y :: rest').take
        (y :: rest').length =
        ((x :: y :: rest').getD (y :: rest').length 0) ::
          (y :: rest').take ((y :: rest').length - 1) := by
      have h3 : (y :: rest').length = ((y :: rest').length - 1) + 1 := by simp
      conv_lhs => rw [h3]
      rw [List.take_succ_cons, ← h3]
    rw [h4, h2]
    exact last_cons_take_perm (y :: rest') (by simp)

/-! ### Sorting lemmas -/

theorem insert_le_perm (le : Nat → Nat → Bool) (x : Nat) : ∀ l : List Nat,
    List.Perm (insert_le le x l) (x :: l)
  | [] => List.Perm.refl _
  | y :: ys => by
    unfold insert_le
    split
    · exact List.Perm.refl _
    · exact ((insert_le_perm le x ys).cons y).trans (List.Perm.swap x y ys)

theorem sort_le_perm (le : Nat → Nat → Bool) : ∀ l : List Nat,
    List.Perm (sort_le le l) l
  | [] => List.Perm.refl _
  | a :: l => by
    show List.Perm (insert_le le a (sort_le le l)) (a :: l)
    exact (insert_le_perm le a (sort_le le l)).trans ((sort_le_perm le l).cons a)

theorem insert_le_pairwise (le : Nat → Nat → Bool)
    (htot : ∀ a b, le a b = false → le b a = true)
    (htrans : ∀ a b c, le a b = true → le b c = true → le a c = true)
    (x : Nat) : ∀ l : List Nat, List.Pairwise (fun a b => le a b = true) l →
    List.Pairwise (fun a b => le a b = true) (insert_le le x l)
  | [], _ => by simp [insert_le]
  | y :: ys, hp => by
    unfold insert_le
    rcases List.pairwise_cons.mp hp with ⟨hy, hys⟩
    split
    · next hxy =>
      refine List.pairwise_cons.mpr ⟨?_, hp⟩
      intro z hz
      rcases List.mem_cons.mp hz with rfl | hz
      · exact hxy
      · exact htrans x y z hxy (hy z hz)
    · next hxy =>
      refine List.pairwise_cons.mpr ⟨?_, insert_le_pairwise le htot htrans x ys hys⟩
      intro z hz
      rcases List.mem_cons.mp (((insert_le_perm le x ys).mem_iff).mp hz) with rfl | hzy
      · exact htot z y (by simpa using hxy)
      · exact hy z hzy


theorem sort_le_pairwise (le : Nat → Nat → Bool)
    (htot : ∀ a b, le a b = false → le b a = true)
    (htrans : ∀ a b c, le a b = true → le b c = true → le a c = true) :
    ∀ l : List Nat, List.Pairwise (fun a b => le a b = true) (sort_le le l)
  | [] => List.Pairwise.nil
  | a :: l => by
    show List.Pairwise _ (insert_le le a (sort_le le l))
    exact insert_le_pairwise le htot htrans a (sort_le le l) (sort_le_pairwise le htot htrans l)

theorem make_ord_perm (pr : List Proc) :
    List.Perm (make_ord pr) (List.range pr.length) :=
  sort_le_perm _ _

theorem make_ord_length (pr : List Proc) : (make_ord pr).length = pr.length := by
  rw [(make_ord_perm pr).length_eq, List.length_range]

theorem make_ord_nodup (pr : List Proc) : (make_ord pr).Nodup :=
  ((make_ord_perm pr).symm).nodup (List.nodup_range _)

theorem make_ord_mem (pr : List Proc) (j : Nat) : j ∈ make_ord pr ↔ j < pr.length := by
  rw [(make_ord_perm pr).mem_iff, List.mem_range]

theorem make_ord_getD_lt (pr : List Proc) (p : Nat) (hp : p < pr.length) :
    (make_ord pr).getD p 0 < pr.length := by
  rw [← make_ord_mem]
  have hp' : p < (make_ord pr).length := by rw [make_ord_length]; exact hp
  rw [List.getD_eq_getElem _ 0 hp']
  exact List.getElem_mem hp'

theorem make_ord_sorted (pr : List Proc) :
    List.Pairwise (fun a b => le_arrival_pid pr a b = true) (make_ord pr) := by
  apply sort_le_pairwise
  · intro a b hab
    simp only [le_arrival_pid, decide_eq_false_iff_not] at hab
    push_neg at hab
    simp only [le_arrival_pid, decide_eq_true_eq]
    rcases hab with ⟨h1, h2⟩
    rcases lt_or_eq_of_le h1 with hlt | heq
    · exact Or.inl hlt
    · exact Or.inr ⟨heq, (h2 heq.symm).le⟩
  · intro a b c hab hbc
    simp only [le_arrival_pid, decide_eq_true_eq] at hab hbc ⊢
    rcases hab with h1 | ⟨h1, h1p⟩ <;> rcases hbc with h2 | ⟨h2, h2p⟩
    · exact Or.inl (h1.trans h2)
    · exact Or.inl (by omega)
    · exact Or.inl (by omega)
    · exact Or.inr ⟨h1.trans h2, by omega⟩

/-- Arrival times are monotone along the sorted admission order. -/
theorem make_ord_arrival_mono (pr : List Proc) (p q : Nat) (hpq : p ≤ q)
    (hq : q < pr.length) :
    (getP pr ((make_ord pr).getD p 0)).arrival ≤ (getP pr ((make_ord pr).getD q 0)).arrival := by
  rcases Nat.eq_or_lt_of_le hpq with rfl | hlt
  · exact le_refl _
  · have hlen : (make_ord pr).length = pr.length := make_ord_length pr
    have hq' : q < (make_ord pr).length := by omega
    have hp' : p < (make_ord pr).length := by omega
    have hpw := (List.pairwise_iff_getElem).mp (make_ord_sorted pr) p q hp' hq' hlt
    rw [List.getD_eq_getElem _ 0 hp', List.getD_eq_getElem _ 0 hq']
    simp only [le_arrival_pid, decide_eq_true_eq] at hpw
    rcases hpw with h | ⟨h, _⟩
    · omega
    · omega

/-! ### Segment chains and the coalescer -/

/-- `segsChain a l b`: the segments of `l` tile the interval from `a` to `b`
in order, each with positive length. -/
def segsChain : Int → List Seg → Int → Prop
  | a, [], b => a = b
  | a, s :: rest, b => s.start = a ∧ s.start < s.end_ ∧ segsChain s.end_ rest b

/-- Adjacent segments never share an owner. -/
def OwnersAlt (l : List Seg) : Prop := List.Chain' (fun u v => u.pid ≠ v.pid) l

theorem segsChain_snoc (s : Seg) : ∀ (l : List Seg) (a c : Int),
    segsChain a (l ++ [s]) c ↔ segsChain a l s.start ∧ s.start < s.end_ ∧ s.end_ = c
  | [], a, c => by
    show (s.start = a ∧ s.start < s.end_ ∧ s.end_ = c) ↔ (a = s.start ∧ _ ∧ _)
    constructor
    · rintro ⟨h1, h2, h3⟩; exact ⟨h1.symm, h2, h3⟩
    · rintro ⟨h1, h2, h3⟩; exact ⟨h1.symm, h2, h3⟩
  | u :: l, a, c => by
    show (u.start = a ∧ u.start < u.end_ ∧ segsChain u.end_ (l ++ [s]) c) ↔
      (u.start = a ∧ u.start < u.end_ ∧ segsChain u.end_ l s.start) ∧ _ ∧ _
    rw [segsChain_snoc s l u.end_ c]
    tauto

theorem segsChain_le : ∀ (l : List Seg) (a c : Int), segsChain a l c → a ≤ c
  | [], a, c, h => le_of_eq h
  | s :: l, a, c, h => by
    rcases h with ⟨h1, h2, h3⟩
    have := segsChain_le l s.end_ c h3
    omega

theorem ownersAlt_snoc (l : List Seg) (s : Seg) (h : OwnersAlt l)
    (hlast : ∀ w, l.getLast? = some w → w.pid ≠ s.pid) : OwnersAlt (l ++ [s]) := by
  unfold OwnersAlt at h ⊢
  rw [List.chain'_append]
  refine ⟨h, List.chain'_singleton s, ?_⟩
  intro x hx y hy
  simp only [List.head?_cons, Option.mem_def, Option.some.injEq] at hy
  subst hy
  exact hlast x hx

theorem seg_coalesce_go_nil (acc : List Seg) : seg_coalesce_go acc [] = acc.reverse := by
  cases acc <;> rfl

theorem seg_coalesce_go_nil_cons (s : Seg) (rest : List Seg) :
    seg_coalesce_go [] (s :: rest) = seg_coalesce_go [s] rest := rfl

theorem seg_coalesce_go_cons_cons (w : Seg) (acc : List Seg) (s : Seg) (rest : List Seg) :
    seg_coalesce_go (w :: acc) (s :: rest) =
      if s.pid = w.pid ∧ s.start = w.end_ then
        seg_coalesce_go ({ w with end_ := s.end_ } :: acc) rest
      else seg_coalesce_go (s :: w :: acc) rest := rfl

theorem seg_coalesce_go_ok : ∀ (rest acc : List Seg) (a b c : Int),
    segsChain a acc.reverse b →
    OwnersAlt acc.reverse →
    segsChain b rest c →
    segsChain a (seg_coalesce_go acc rest) c ∧ OwnersAlt (seg_coalesce_go acc rest)
  | [], acc, a, b, c, hch, halt, hrest => by
    rw [seg_coalesce_go_nil]
    have hbc : b = c := hrest
    subst hbc
    exact ⟨hch, halt⟩
  | s :: rest', [], a, b, c, hch, _, hrest => by
    rw [seg_coalesce_go_nil_cons]
    have hab : a = b := hch
    subst hab
    rcases hrest with ⟨h1, h2, h3⟩
    refine seg_coalesce_go_ok rest' [s] a s.end_ c ?_ ?_ h3
    · show segsChain a [s] s.end_
      exact ⟨h1, h2, rfl⟩
    · show OwnersAlt [s]
      exact List.chain'_singleton s
  | s :: rest', w :: acc', a, b, c, hch, halt, hrest => by
    rw [seg_coalesce_go_cons_cons]
    rcases hrest with ⟨hs1, hs2, hs3⟩
    have hchr : segsChain a (acc'.reverse ++ [w]) b := by
      rw [← List.reverse_cons]; exact hch
    have haltr : OwnersAlt (acc'.reverse ++ [w]) := by
      unfold OwnersAlt
      rw [← List.reverse_cons]; exact halt
    rcases (segsChain_snoc w acc'.reverse a b).mp hchr with ⟨hc1, hc2, hc3⟩
    split
    · next hmerge =>
      refine seg_coalesce_go_ok rest' ({ w with end_ := s.end_ } :: acc') a s.end_ c ?_ ?_ hs3
      · rw [List.reverse_cons, segsChain_snoc]
        refine ⟨hc1, ?_, rfl⟩
        show w.start < s.end_
        omega
      · unfold OwnersAlt
        rw [List.reverse_cons]
        rcases (List.chain'_append).mp haltr with ⟨ha1, _, ha3⟩
        apply ownersAlt_snoc _ _ ha1
        intro v hv
        have := ha3 v hv w (by simp)
        simpa using this
    · next hmerge =>
      refine seg_coalesce_go_ok rest' (s :: w :: acc') a s.end_ c ?_ ?_ hs3
      · rw [List.reverse_cons, segsChain_snoc]
        exact ⟨by rw [hs1]; exact hch, hs2, rfl⟩
      · have hne : w.pid ≠ s.pid := by
          intro hpe
          exact hmerge ⟨hpe.symm, by omega⟩
        unfold OwnersAlt
        rw [List.reverse_cons]
        apply ownersAlt_snoc _ _ halt
        intro v hv
        have hv' : (acc'.reverse ++ [w]).getLast? = some v := by
          rw [← List.reverse_cons]
          exact hv
        rw [List.getLast?_concat] at hv'
        have hvw : v = w := by
          exact (Option.some.injEq _ _).mp hv'.symm
        rw [hvw]
        exact hne

theorem seg_coalesce_ok (l : List Seg) (a c : Int) (h : segsChain a l c) :
    segsChain a (seg_coalesce l) c ∧ OwnersAlt (seg_coalesce l) := by
  unfold seg_coalesce
  exact seg_coalesce_go_ok l [] a a c rfl List.chain'_nil h

theorem segsOKb_of_chain : ∀ (l : List Seg) (a c : Int), segsChain a l c →
    OwnersAlt l → segsOKb l = true
  | [], _, _, _, _ => rfl
  | [s], a, c, hch, _ => by
    rcases hch with ⟨_, h2, _⟩
    simp [segsOKb, h2]
  | s :: s₂ :: rest, a, c, hch, halt => by
    rcases hch with ⟨h1, h2, h3⟩
    have h4 : s₂.start = s.end_ := h3.1
    rcases List.chain'_cons.mp halt with ⟨hne, halt'⟩
    have hIH := segsOKb_of_chain (s₂ :: rest) s.end_ c h3 halt'
    simp only [segsOKb, Bool.and_eq_true, decide_eq_true_eq]
    exact ⟨⟨⟨h2, h4.symm⟩, hne⟩, hIH⟩

/-! ### Admission-loop spec -/

/-- The block of `ord` entries between cursor positions `k` and `k2`. -/
def ordSlice (ord : List Nat) (k k2 : Nat) : List Nat := (ord.take k2).drop k

theorem ordSlice_self (ord : List Nat) (k k2 : Nat) (h : k2 ≤ k) : ordSlice ord k k2 = [] := by
  apply List.drop_eq_nil_of_le
  simp only [List.length_take]
  omega

theorem ordSlice_cons (ord : List Nat) (k k2 : Nat) (h1 : k < k2) (h2 : k < ord.length) :
    ordSlice ord k k2 = ord.getD k 0 :: ordSlice ord (k+1) k2 := by
  unfold ordSlice
  have hk : k < (ord.take k2).length := by
    simp only [List.length_take]
    omega
  rw [List.drop_eq_getElem_cons hk]
  congr 1
  rw [List.getD_eq_getElem ord 0 h2]
  exact List.getElem_take ord

theorem ordSlice_mem (ord : List Nat) (k k2 : Nat) (hle : k2 ≤ ord.length) (j : Nat)
    (hj : j ∈ ordSlice ord k k2) : ∃ p, k ≤ p ∧ p < k2 ∧ ord.getD p 0 = j := by
  rcases Nat.lt_or_ge k k2 with hk | hk
  · rw [ordSlice_cons ord k k2 hk (by omega)] at hj
    rcases List.mem_cons.mp hj with rfl | hj'
    · exact ⟨k, le_refl k, hk, rfl⟩
    · rcases ordSlice_mem ord (k+1) k2 hle j hj' with ⟨p, h1, h2, h3⟩
      exact ⟨p, by omega, h2, h3⟩
  · rw [ordSlice_self ord k k2 hk] at hj
    simp at hj
termination_by k2 - k

theorem ordSlice_nodup (ord : List Nat) (hnd : ord.Nodup) (k k2 : Nat) :
    (ordSlice ord k k2).Nodup :=
  hnd.sublist ((List.drop_sublist k (ord.take k2)).trans (List.take_sublist k2 ord))

theorem admit_heap_full (less : Nat → Nat → Bool) (pr : List Proc) (ord : List Nat) (t : Int)
    (hlen : ord.length = pr.length) (hond : ord.Nodup)
    (k : Nat) (hp : List Nat) (k2 : Nat) (hp2 : List Nat)
    (heq : admit_heap less pr ord t k hp = (k2, hp2))
    (hk : k ≤ pr.length)
    (hmem : ∀ j ∈ hp, ∃ p, p < k ∧ ord.getD p 0 = j)
    (hnd : hp.Nodup) :
    k2 ≤ pr.length ∧ k ≤ k2 ∧
    (k2 < pr.length → t < (getP pr (ord.getD k2 0)).arrival) ∧
    (∀ p, k ≤ p → p < k2 → (getP pr (ord.getD p 0)).arrival ≤ t) ∧
    List.Perm hp2 (ordSlice ord k k2 ++ hp) ∧
    (∀ j ∈ hp2, ∃ p, p < k2 ∧ ord.getD p 0 = j) ∧
    hp2.Nodup := by
  rw [admit_heap_unfold] at heq
  split at heq
  · next hg =>
    have hknotin : ord.getD k 0 ∉ hp := by
      intro hin
      rcases hmem _ hin with ⟨p, hp1, hp2'⟩
      have hpl : p < ord.length := by omega
      have hkl : k < ord.length := by omega
      rw [List.getD_eq_getElem ord 0 hpl, List.getD_eq_getElem ord 0 hkl] at hp2'
      have := (List.Nodup.getElem_inj_iff hond).mp hp2'
      omega
    have hpperm := heap_push_perm less hp (ord.getD k 0)
    have hmem' : ∀ j ∈ heap_push less hp (ord.getD k 0), ∃ p, p < k + 1 ∧ ord.getD p 0 = j := by
      intro j hj
      rcases List.mem_cons.mp (hpperm.mem_iff.mp hj) with rfl | hj'
      · exact ⟨k, by omega, rfl⟩
      · rcases hmem _ hj' with ⟨p, hp1, hp2'⟩
        exact ⟨p, by omega, hp2'⟩
    have hnd' : (heap_push less hp (ord.getD k 0)).Nodup := by
      apply hpperm.symm.nodup
      exact List.nodup_cons.mpr ⟨hknotin, hnd⟩
    rcases admit_heap_full less pr ord t hlen hond (k+1) (heap_push less hp (ord.getD k 0))
      k2 hp2 heq (by omega) hmem' hnd' with ⟨a1, a2, a3, a4, a5, a6, a7⟩
    refine ⟨a1, by omega, a3, ?_, ?_, a6, a7⟩
    · intro p hp1 hp2'
      rcases Nat.eq_or_lt_of_le hp1 with rfl | hlt
      · exact hg.2
      · exact a4 p hlt hp2'
    · have hs : ordSlice ord k k2 = ord.getD k 0 :: ordSlice ord (k+1) k2 :=
        ordSlice_cons ord k k2 (by omega) (by omega)
      rw [hs]
      refine (a5.trans ?_)
      refine (List.Perm.append_left _ hpperm).trans ?_
      exact List.perm_middle
  · next hg =>
    cases heq
    refine ⟨hk, le_refl k, ?_, ?_, ?_, hmem, hnd⟩
    · intro hkn
      push_neg at hg
      exact hg hkn
    · intro p h1 h2; omega
    · rw [ordSlice_self ord k k (le_refl k)]
      exact List.Perm.refl _
termination_by pr.length - k
decreasing_by omega

theorem ordSlice_mem_of (ord : List Nat) (k k2 p : Nat) (h1 : k ≤ p) (h2 : p < k2)
    (h3 : k2 ≤ ord.length) : ord.getD p 0 ∈ ordSlice ord k k2 := by
  rw [ordSlice_cons ord k k2 (by omega) (by omega)]
  rcases Nat.eq_or_lt_of_le h1 with rfl | hlt
  · exact List.mem_cons_self _ _
  · exact List.mem_cons_of_mem _ (ordSlice_mem_of ord (k+1) k2 p hlt h2 h3)
termination_by k2 - k

theorem mem_getD_pos (ord : List Nat) (j : Nat) (hj : j ∈ ord) :
    ∃ p, p < ord.length ∧ ord.getD p 0 = j := by
  rcases List.getElem_of_mem hj with ⟨p, hp, he⟩
  exact ⟨p, hp, by rw [List.getD_eq_getElem ord 0 hp]; exact he⟩

theorem ord_getD_inj (ord : List Nat) (hond : ord.Nodup) (p q : Nat) (hp : p < ord.length)
    (hq : q < ord.length) (he : ord.getD p 0 = ord.getD q 0) : p = q := by
  rw [List.getD_eq_getElem ord 0 hp, List.getD_eq_getElem ord 0 hq] at he
  exact (List.Nodup.getElem_inj_iff hond).mp he

/-! ### SJF master invariant -/

/-- Loop invariant of the SJF driver. -/
structure SJFInv (pr : List Proc) (ord : List Nat) (t0 t : Int) (k doneCnt : Nat)
    (hp : List Nat) (sv : List Seg) (start end_ : List Int) : Prop where
  hk : k ≤ pr.length
  hcount : doneCnt + hp.length = k
  hnd : hp.Nodup
  ht0 : 0 ≤ t0
  ht : t0 ≤ t
  hsl : start.length = pr.length
  hel : end_.length = pr.length
  hhp : ∀ j ∈ hp, j < pr.length ∧ geti end_ j = -1 ∧ ∃ p, p < k ∧ ord.getD p 0 = j
  hadm : ∀ p, p < k → ord.getD p 0 ∈ hp ∨ geti end_ (ord.getD p 0) ≠ -1
  hun : ∀ p, k ≤ p → p < pr.length → geti end_ (ord.getD p 0) = -1 ∧ ord.getD p 0 ∉ hp
  hdone : ∀ j, j < pr.length → geti end_ j ≠ -1 →
    geti end_ j = geti start j + (getP pr j).burst
  hchain : segsChain t0 sv t

/-- What the SJF driver guarantees about its result. -/
def SJFGood (pr : List Proc) (t0 : Int) (r : AlgoRes) : Prop :=
  (∀ j, j < pr.length → geti r.end_ j = geti r.start j + (getP pr j).burst) ∧
  (∃ T, segsChain t0 r.segs T ∧ OwnersAlt r.segs)

theorem sjf_go_succ (pr : List Proc) (ord : List Nat) (fuel : Nat) (t : Int) (k doneCnt : Nat)
    (hp : List Nat) (sv : List Seg) (start end_ : List Int) :
    sjf_go pr ord (fuel + 1) t k doneCnt hp sv start end_ =
    (if doneCnt < pr.length then
      let a := admit_heap (less_sjf pr) pr ord t k hp
      if a.2.length = 0 then
        if a.1 < pr.length then
          let nextA := (getP pr (ord.getD a.1 0)).arrival
          sjf_go pr ord fuel nextA a.1 doneCnt a.2
            (if t < nextA then sv ++ [⟨-1, t, nextA⟩] else sv) start end_
        else some ⟨seg_coalesce sv, start, end_⟩
      else
        let p := heap_pop (less_sjf pr) a.2
        let i := p.1
        sjf_go pr ord fuel (t + (getP pr i).burst) a.1 (doneCnt + 1) p.2
          (sv ++ [⟨(getP pr i).pid, t, t + (getP pr i).burst⟩])
          (start.set i t) (end_.set i (t + (getP pr i).burst))
    else some ⟨seg_coalesce sv, start, end_⟩) := rfl

/-- Admission preserves the SJF invariant. -/
theorem sjf_admit_inv (pr : List Proc) (ord : List Nat)
    (hlen : ord.length = pr.length) (hond : ord.Nodup)
    (hordj : ∀ j ∈ ord, j < pr.length) (t0 t : Int) (k doneCnt : Nat)
    (hp : List Nat) (sv : List Seg) (start end_ : List Int)
    (hinv : SJFInv pr ord t0 t k doneCnt hp sv start end_)
    (k2 : Nat) (hp2 : List Nat)
    (heq : admit_heap (less_sjf pr) pr ord t k hp = (k2, hp2)) :
    SJFInv pr ord t0 t k2 doneCnt hp2 sv start end_ ∧ k ≤ k2 ∧
    (k2 < pr.length → t < (getP pr (ord.getD k2 0)).arrival) := by
  have hmem : ∀ j ∈ hp, ∃ p, p < k ∧ ord.getD p 0 = j := fun j hj => (hinv.hhp j hj).2.2
  rcases admit_heap_full (less_sjf pr) pr ord t hlen hond k hp k2 hp2 heq hinv.hk hmem
    hinv.hnd with ⟨a1, a2, a3, a4, a5, a6, a7⟩
  have hslice : (ordSlice ord k k2).length = k2 - k := by
    unfold ordSlice
    simp only [List.length_drop, List.length_take]
    omega
  refine ⟨?_, a2, a3⟩
  refine ⟨a1, ?_, a7, hinv.ht0, hinv.ht, hinv.hsl, hinv.hel, ?_, ?_, ?_, hinv.hdone,
    hinv.hchain⟩
  · have := a5.length_eq
    rw [List.length_append, hslice] at this
    have := hinv.hcount
    omega
  · intro j hj
    rcases List.mem_append.mp (a5.mem_iff.mp hj) with hjs | hjh
    · rcases ordSlice_mem ord k k2 (by omega) j hjs with ⟨p, hp1, hp2', hp3⟩
      refine ⟨?_, ?_, ⟨p, by omega, hp3⟩⟩
      · rw [← hp3]
        apply hordj
        have hpl : p < ord.length := by omega
        rw [List.getD_eq_getElem ord 0 hpl]
        exact List.getElem_mem hpl
      · rw [← hp3]
        exact (hinv.hun p hp1 (by omega)).1
    · rcases hinv.hhp j hjh with ⟨b1, b2, p, b3, b4⟩
      exact ⟨b1, b2, p, by omega, b4⟩
  · intro p hpk
    rcases Nat.lt_or_ge p k with hpk' | hpk'
    · rcases hinv.hadm p hpk' with hin | hne
      · exact Or.inl (a5.mem_iff.mpr (List.mem_append.mpr (Or.inr hin)))
      · exact Or.inr hne
    · exact Or.inl (a5.mem_iff.mpr (List.mem_append.mpr
        (Or.inl (ordSlice_mem_of ord k k2 p hpk' hpk (by omega)))))
  · intro p hp1 hp2'
    have hold := hinv.hun p (by omega) hp2'
    refine ⟨hold.1, ?_⟩
    intro hin
    rcases List.mem_append.mp (a5.mem_iff.mp hin) with hjs | hjh
    · rcases ordSlice_mem ord k k2 (by omega) _ hjs with ⟨q, hq1, hq2, hq3⟩
      have := ord_getD_inj ord hond q p (by omega) (by omega) hq3
      omega
    · exact hold.2 hjh

theorem sjf_go_master (pr : List Proc) (hv : ValidInput pr) (ord : List Nat)
    (hlen : ord.length = pr.length) (hond : ord.Nodup)
    (hordj : ∀ j ∈ ord, j < pr.length)
    (hmemord : ∀ j, j < pr.length → j ∈ ord) (t0 : Int) :
    ∀ (fuel : Nat) (t : Int) (k doneCnt : Nat) (hp : List Nat) (sv : List Seg)
    (start end_ : List Int),
    SJFInv pr ord t0 t k doneCnt hp sv start end_ →
    2 * (pr.length - doneCnt) + (pr.length - (admit_heap (less_sjf pr) pr ord t k hp).1) + 1 ≤
      fuel →
    ∃ r : AlgoRes, sjf_go pr ord fuel t k doneCnt hp sv start end_ = some r ∧
      SJFGood pr t0 r := by
  intro fuel
  induction fuel with
  | zero => intro t k doneCnt hp sv start end_ _ hfuel; omega
  | succ fuel ih =>
    intro t k doneCnt hp sv start end_ hinv hfuel
    rw [sjf_go_succ]
    by_cases hdn : doneCnt < pr.length
    · simp only [hdn, if_true]
      rcases hA : admit_heap (less_sjf pr) pr ord t k hp with ⟨k2, hp2⟩
      rw [hA] at hfuel
      simp only [hA]
      rcases sjf_admit_inv pr ord hlen hond hordj t0 t k doneCnt hp sv start end_ hinv k2 hp2 hA
        with ⟨hinv2, hkk2, hbound⟩
      have hts := hinv2.ht
      have hts0 := hinv2.ht0
      by_cases hemp : hp2.length = 0
      · simp only [hemp, if_true]
        have hp2nil : hp2 = [] := List.length_eq_zero.mp hemp
        by_cases hklt : k2 < pr.length
        · simp only [hklt, if_true]
          subst hp2nil
          have htlt : t < (getP pr (ord.getD k2 0)).arrival := hbound hklt
          simp only [htlt, if_true]
          set nextA := (getP pr (ord.getD k2 0)).arrival with hnextA
          have hinv3 : SJFInv pr ord t0 nextA k2 doneCnt [] (sv ++ [⟨-1, t, nextA⟩])
              start end_ := by
            refine ⟨hinv2.hk, hinv2.hcount, hinv2.hnd, hinv2.ht0, by omega, hinv2.hsl,
              hinv2.hel, hinv2.hhp, hinv2.hadm, hinv2.hun, hinv2.hdone, ?_⟩
            rw [segsChain_snoc]
            exact ⟨hinv2.hchain, htlt, rfl⟩
          rcases hB : admit_heap (less_sjf pr) pr ord nextA k2 [] with ⟨k3, hp3⟩
          rcases sjf_admit_inv pr ord hlen hond hordj t0 nextA k2 doneCnt [] _ start end_ hinv3
            k3 hp3 hB with ⟨_, hk23, hbound3⟩
          have hprog : k2 < k3 := by
            rcases Nat.eq_or_lt_of_le hk23 with rfl | h
            · have := hbound3 hklt
              omega
            · exact h
          apply ih
          · exact hinv3
          · rw [hB]
            omega
        · simp only [hklt, if_false]
          exfalso
          have := hinv2.hcount
          subst hp2nil
          simp at this
          omega
      · simp only [hemp, if_false]
        rcases hp2 with _ | ⟨i, hrest⟩
        · simp at hemp
        · have hpopf : (heap_pop (less_sjf pr) (i :: hrest)).1 = i := heap_pop_fst _ _ _
          have hpopp := heap_pop_perm (less_sjf pr) i hrest
          simp only [hpopf]
          rcases hinv2.hhp i (List.mem_cons_self i hrest) with ⟨hin, hie, pi, hpi1, hpi2⟩
          have hbur : 1 ≤ (getP pr i).burst := valid_burst_pos pr hv i hin
          have hndc := List.nodup_cons.mp hinv2.hnd
          have hinotr : i ∉ (heap_pop (less_sjf pr) (i :: hrest)).2 := by
            intro hc
            exact hndc.1 (hpopp.mem_iff.mp hc)
          have htpos : (0:Int) ≤ t := le_trans hinv2.ht0 hinv2.ht
          have hinv3 : SJFInv pr ord t0 (t + (getP pr i).burst) k2 (doneCnt + 1)
              (heap_pop (less_sjf pr) (i :: hrest)).2
              (sv ++ [⟨(getP pr i).pid, t, t + (getP pr i).burst⟩])
              (start.set i t) (end_.set i (t + (getP pr i).burst)) := by
            refine ⟨hinv2.hk, ?_, hpopp.symm.nodup hndc.2, hinv2.ht0, by omega, ?_, ?_, ?_, ?_,
              ?_, ?_, ?_⟩
            · have := hpopp.length_eq
              have h2 := hinv2.hcount
              simp at h2
              omega
            · rw [List.length_set]; exact hinv2.hsl
            · rw [List.length_set]; exact hinv2.hel
            · intro j hj
              have hjr : j ∈ hrest := hpopp.mem_iff.mp hj
              rcases hinv2.hhp j (List.mem_cons_of_mem i hjr) with ⟨b1, b2, q, b3, b4⟩
              have hji : j ≠ i := fun hc => hndc.1 (hc ▸ hjr)
              rw [geti_set_ne _ i j _ (fun hc => hji hc.symm)]
              exact ⟨b1, b2, q, b3, b4⟩
            · intro p hpk
              rcases hinv2.hadm p hpk with hinq | hne
              · rcases List.mem_cons.mp hinq with hii | hinr
                · right
                  rw [hii, geti_set_self _ i _ (by rw [hinv2.hel]; exact hin)]
                  omega
                · left
                  exact hpopp.mem_iff.mpr hinr
              · right
                by_cases hji : ord.getD p 0 = i
                · rw [hji, geti_set_self _ i _ (by rw [hinv2.hel]; exact hin)]
                  omega
                · rw [geti_set_ne _ i _ _ (fun hc => hji hc.symm)]
                  exact hne
            · intro p hp1 hp2'
              have hold := hinv2.hun p hp1 hp2'
              have hpi : ord.getD p 0 ≠ i := by
                intro hc
                have := ord_getD_inj ord hond p pi (by omega) (by omega) (hc.trans hpi2.symm)
                omega
              refine ⟨?_, ?_⟩
              · rw [geti_set_ne _ i _ _ (fun hc => hpi hc.symm)]
                exact hold.1
              · intro hc
                exact hold.2 (List.mem_cons_of_mem i (hpopp.mem_iff.mp hc))
            · intro j hj hne
              by_cases hji : j = i
              · subst hji
                rw [geti_set_self _ j _ (by rw [hinv2.hel]; exact hj),
                  geti_set_self _ j _ (by rw [hinv2.hsl]; exact hj)]
              · rw [geti_set_ne _ i j _ (fun hc => hji hc.symm)] at hne ⊢
                rw [geti_set_ne _ i j _ (fun hc => hji hc.symm)]
                exact hinv2.hdone j hj hne
            · rw [segsChain_snoc]
              refine ⟨hinv2.hchain, ?_, rfl⟩
              show t < t + (getP pr i).burst
              omega
          rcases hB : admit_heap (less_sjf pr) pr ord (t + (getP pr i).burst) k2
            (heap_pop (less_sjf pr) (i :: hrest)).2 with ⟨k3, hp3⟩
          rcases sjf_admit_inv pr ord hlen hond hordj t0 _ k2 (doneCnt+1) _ _ _ _ hinv3
            k3 hp3 hB with ⟨_, hk23, _⟩
          apply ih
          · exact hinv3
          · rw [hB]
            omega
    · simp only [hdn, if_false]
      refine ⟨⟨seg_coalesce sv, start, end_⟩, rfl, ?_, ?_⟩
      · intro j hj
        have h1 := hinv.hcount
        have h2 := hinv.hk
        have hlen0 : hp.length = 0 := by omega
        have hkn : k = pr.length := by omega
        have hpnil : hp = [] := List.length_eq_zero.mp hlen0
        rcases mem_getD_pos ord j (hmemord j hj) with ⟨p, hp1, hp2'⟩
        rcases hinv.hadm p (by omega) with hin | hne
        · rw [hpnil] at hin
          simp at hin
        · rw [hp2'] at hne
          exact hinv.hdone j hj hne
      · rcases seg_coalesce_ok sv t0 t hinv.hchain with ⟨h1, h2⟩
        exact ⟨t, h1, h2⟩

theorem init_t_nonneg (pr : List Proc) (hv : ValidInput pr) (ord : List Nat)
    (hordj : ∀ j ∈ ord, j < pr.length) : 0 ≤ init_t pr ord := by
  unfold init_t
  split
  · next hc => omega
  · exact le_refl 0

theorem run_sjf_spec (pr : List Proc) (hv : ValidInput pr) :
    ∃ r : AlgoRes, run_sjf pr = some r ∧ SJFGood pr (init_t pr (make_ord pr)) r := by
  have hordj : ∀ j ∈ make_ord pr, j < pr.length := fun j hj => (make_ord_mem pr j).mp hj
  have hmemord : ∀ j, j < pr.length → j ∈ make_ord pr := fun j hj =>
    (make_ord_mem pr j).mpr hj
  have ht0 : 0 ≤ init_t pr (make_ord pr) := init_t_nonneg pr hv _ hordj
  apply sjf_go_master pr hv (make_ord pr) (make_ord_length pr) (make_ord_nodup pr)
    hordj hmemord
  · refine ⟨by omega, rfl, List.nodup_nil, ht0, le_refl _, ?_, ?_, ?_, ?_, ?_, ?_, rfl⟩
    · exact List.length_replicate _ _
    · exact List.length_replicate _ _
    · intro j hj; simp at hj
    · intro p hp; omega
    · intro p _ hp
      refine ⟨geti_replicate pr.length (-1) _ ?_, List.not_mem_nil _⟩
      have hpl : p < (make_ord pr).length := by rw [make_ord_length]; exact hp
      exact make_ord_getD_lt pr p hp
    · intro j hj hne
      rw [geti_replicate pr.length (-1) j hj] at hne
      omega
  · unfold sjf_fuel
    omega

/-! ### FCFS master -/

theorem fcfs_go_master (pr : List Proc) (hv : ValidInput pr) :
    ∀ (rest : List Nat) (t : Int) (sv : List Seg) (start end_ : List Int) (disp : List Nat),
    (∀ j ∈ rest, j < pr.length) →
    0 ≤ t →
    segsChain 0 sv t →
    start.length = pr.length → end_.length = pr.length →
    (∀ j, j < pr.length → geti end_ j ≠ -1 →
      geti end_ j = geti start j + (getP pr j).burst) →
    (∀ j, j < pr.length → j ∉ rest → geti end_ j ≠ -1) →
    (∀ j, j < pr.length →
      geti (fcfs_go pr rest t sv start end_ disp).end_ j =
        geti (fcfs_go pr rest t sv start end_ disp).start j + (getP pr j).burst) ∧
    (∃ T, segsChain 0 (fcfs_go pr rest t sv start end_ disp).segs T ∧
      OwnersAlt (fcfs_go pr rest t sv start end_ disp).segs)
  | [], t, sv, start, end_, disp, _, _, hchain, _, _, hdone, hcov => by
    refine ⟨?_, ?_⟩
    · intro j hj
      exact hdone j hj (hcov j hj (List.not_mem_nil j))
    · rcases seg_coalesce_ok sv 0 t hchain with ⟨h1, h2⟩
      exact ⟨t, h1, h2⟩
  | i :: rest, t, sv, start, end_, disp, hrj, ht, hchain, hsl, hel, hdone, hcov => by
    have hin : i < pr.length := hrj i (List.mem_cons_self i rest)
    have hbur : 1 ≤ (getP pr i).burst := valid_burst_pos pr hv i hin
    show (∀ j, j < pr.length → _) ∧ _
    have hstep : fcfs_go pr (i :: rest) t sv start end_ disp =
        fcfs_go pr rest
          ((if t < (getP pr i).arrival then (getP pr i).arrival else t) + (getP pr i).burst)
          ((if t < (getP pr i).arrival then sv ++ [⟨-1, t, (getP pr i).arrival⟩] else sv) ++
            [⟨(getP pr i).pid, (if t < (getP pr i).arrival then (getP pr i).arrival else t),
              (if t < (getP pr i).arrival then (getP pr i).arrival else t) + (getP pr i).burst⟩])
          (start.set i (if t < (getP pr i).arrival then (getP pr i).arrival else t))
          (end_.set i ((if t < (getP pr i).arrival then (getP pr i).arrival else t) +
            (getP pr i).burst))
          (disp ++ [i]) := rfl
    rw [hstep]
    set t1 : Int := if t < (getP pr i).arrival then (getP pr i).arrival else t with ht1
    have ht1t : t ≤ t1 := by
      rw [ht1]
      split
      · next hc => omega
      · exact le_refl t
    apply fcfs_go_master pr hv rest (t1 + (getP pr i).burst) _ _ _ _
      (fun j hj => hrj j (List.mem_cons_of_mem i hj)) (by omega)
    · rw [segsChain_snoc]
      refine ⟨?_, ?_, rfl⟩
      · rw [ht1]
        split
        · next hc =>
          show segsChain 0 (sv ++ [⟨-1, t, (getP pr i).arrival⟩]) (getP pr i).arrival
          rw [segsChain_snoc]
          exact ⟨hchain, hc, rfl⟩
        · next hc =>
          show segsChain 0 sv t
          exact hchain
      · show t1 < t1 + (getP pr i).burst
        omega
    · rw [List.length_set]; exact hsl
    · rw [List.length_set]; exact hel
    · intro j hj hne
      by_cases hji : j = i
      · subst hji
        rw [geti_set_self _ j _ (by rw [hel]; exact hj),
          geti_set_self _ j _ (by rw [hsl]; exact hj)]
      · rw [geti_set_ne _ i j _ (fun hc => hji hc.symm)] at hne ⊢
        rw [geti_set_ne _ i j _ (fun hc => hji hc.symm)]
        exact hdone j hj hne
    · intro j hj hjr
      by_cases hji : j = i
      · subst hji
        rw [geti_set_self _ j _ (by rw [hel]; exact hj)]
        omega
      · rw [geti_set_ne _ i j _ (fun hc => hji hc.symm)]
        exact hcov j hj (fun hc => by
          rcases List.mem_cons.mp hc with hc' | hc'
          · exact hji hc'
          · exact hjr hc')

theorem run_fcfs_spec (pr : List Proc) (hv : ValidInput pr) :
    (∀ j, j < pr.length →
      geti (run_fcfs pr).end_ j = geti (run_fcfs pr).start j + (getP pr j).burst) ∧
    (∃ T, segsChain 0 (run_fcfs pr).segs T ∧ OwnersAlt (run_fcfs pr).segs) := by
  unfold run_fcfs
  apply fcfs_go_master pr hv (make_ord pr) 0 [] _ _ []
    (fun j hj => (make_ord_mem pr j).mp hj) (le_refl 0) rfl
    (List.length_replicate _ _) (List.length_replicate _ _)
  · intro j hj hne
    rw [geti_replicate pr.length (-1) j hj] at hne
    omega
  · intro j hj hjn
    exact absurd ((make_ord_mem pr j).mpr hj) hjn

/-! ### RR admission spec -/

theorem nodup_lt_length_le (l : List Nat) (n : Nat) (hnd : l.Nodup)
    (hlt : ∀ j ∈ l, j < n) : l.length ≤ n := by
  have hsub : l ⊆ List.range n := fun j hj => List.mem_range.mpr (hlt j hj)
  have := (List.Nodup.subperm hnd hsub).length_le
  simpa using this

theorem rr_admit_full (pr : List Proc) (ord : List Nat) (t : Int) (checkInq : Bool)
    (hlen : ord.length = pr.length) (hond : ord.Nodup)
    (hordj : ∀ j ∈ ord, j < pr.length)
    (k : Nat) (q : List Nat) (inq : List Bool) (qmax : Nat) (dup : Bool)
    (hk : k ≤ pr.length)
    (hqn : ∀ j ∈ q, j < pr.length)
    (hqnd : q.Nodup)
    (hqpos : ∀ j ∈ q, ∃ p, p < k ∧ ord.getD p 0 = j)
    (hfresh : ∀ p, k ≤ p → p < pr.length → inq.getD (ord.getD p 0) false = false)
    (hil : inq.length = pr.length) :
    ∃ k2 q2 inq2 qmax2,
    rr_admit pr ord pr.length t checkInq k q inq qmax dup =
      some (k2, q2, inq2, qmax2, dup) ∧
    k ≤ k2 ∧ k2 ≤ pr.length ∧
    (k2 < pr.length → t < (getP pr (ord.getD k2 0)).arrival) ∧
    (∀ p, k ≤ p → p < k2 → (getP pr (ord.getD p 0)).arrival ≤ t) ∧
    q2 = q ++ ordSlice ord k k2 ∧
    inq2.length = inq.length ∧
    (∀ j, inq2.getD j false = true ↔ (inq.getD j false = true ∨ j ∈ ordSlice ord k k2)) ∧
    qmax2 ≤ max qmax q2.length ∧
    q2.Nodup ∧
    (∀ j ∈ q2, j < pr.length) ∧
    (∀ j ∈ q2, ∃ p, p < k2 ∧ ord.getD p 0 = j) := by
  rw [rr_admit_unfold]
  split
  · next hg =>
    have hkl : k < ord.length := by omega
    have hokn : ord.getD k 0 < pr.length := by
      apply hordj
      rw [List.getD_eq_getElem ord 0 hkl]
      exact List.getElem_mem hkl
    have hknotin : ord.getD k 0 ∉ q := by
      intro hc
      rcases hqpos _ hc with ⟨p, hp1, hp2⟩
      have := ord_getD_inj ord hond p k (by omega) hkl hp2
      omega
    have hskip : ¬ (checkInq = true ∧ inq.getD (ord.getD k 0) false = true) := by
      rintro ⟨_, hc⟩
      rw [hfresh k (le_refl k) (by omega)] at hc
      exact Bool.false_ne_true hc
    rw [if_neg hskip]
    have hpush : q_push pr.length q (ord.getD k 0) = some (q ++ [ord.getD k 0]) := by
      unfold q_push
      rw [if_neg]
      intro hc
      have hnd2 : (q ++ [ord.getD k 0]).Nodup := by
        rw [List.nodup_append]
        exact ⟨hqnd, List.nodup_singleton _, by
          intro a ha hb
          rw [List.mem_singleton] at hb
          exact hknotin (hb ▸ ha)⟩
      have hle := nodup_lt_length_le (q ++ [ord.getD k 0]) pr.length hnd2 (by
        intro j hj
        rcases List.mem_append.mp hj with h | h
        · exact hqn j h
        · rw [List.mem_singleton.mp h]; exact hokn)
      rw [List.length_append, List.length_singleton] at hle
      omega
    rw [hpush]
    have hcont : q.contains (ord.getD k 0) = false := by
      rw [List.contains_eq_any_beq]
      rw [List.any_eq_false]
      intro j hj
      simp only [beq_iff_eq]
      intro hc
      exact hknotin (hc ▸ hj)
    have hdup2 : (dup || q.contains (ord.getD k 0)) = dup := by
      rw [hcont, Bool.or_false]
    rw [hdup2]
    have hrec := rr_admit_full pr ord t checkInq hlen hond hordj (k+1)
      (q ++ [ord.getD k 0]) (inq.set (ord.getD k 0) true)
      (max qmax (q ++ [ord.getD k 0]).length) dup
      (by omega)
      (by
        intro j hj
        rcases List.mem_append.mp hj with h | h
        · exact hqn j h
        · rw [List.mem_singleton.mp h]; exact hokn)
      (by
        rw [List.nodup_append]
        exact ⟨hqnd, List.nodup_singleton _, by
          intro a ha hb
          rw [List.mem_singleton] at hb
          exact hknotin (hb ▸ ha)⟩)
      (by
        intro j hj
        rcases List.mem_append.mp hj with h | h
        · rcases hqpos j h with ⟨p, hp1, hp2⟩
          exact ⟨p, by omega, hp2⟩
        · rw [List.mem_singleton.mp h]
          exact ⟨k, by omega, rfl⟩)
      (by
        intro p hp1 hp2
        have hpo : ord.getD p 0 ≠ ord.getD k 0 := by
          intro hc
          have := ord_getD_inj ord hond p k (by omega) hkl hc
          omega
        rw [List.getD_eq_getElem?_getD, List.getElem?_set_ne (fun hc => hpo hc.symm),
          ← List.getD_eq_getElem?_getD]
        exact hfresh p (by omega) hp2)
      (by rw [List.length_set]; exact hil)
    rcases hrec with ⟨k2, q2, inq2, qmax2, b1, b2, b3, b4, b5, b6, b7, b8, b9, b10, b11, b12⟩
    refine ⟨k2, q2, inq2, qmax2, b1, by omega, b3, b4, ?_, ?_, ?_, ?_, ?_, b10, b11, ?_⟩
    · intro p hp1 hp2
      rcases Nat.eq_or_lt_of_le hp1 with rfl | hlt
      · exact hg.2
      · exact b5 p hlt hp2
    · rw [b6, List.append_assoc]
      congr 1
      rw [ordSlice_cons ord k k2 (by omega) hkl]
      rfl
    · rw [b7, List.length_set]
    · intro j
      rw [b8]
      have hset : (inq.set (ord.getD k 0) true).getD j false = true ↔
          (inq.getD j false = true ∨ j = ord.getD k 0) := by
        by_cases hj : j = ord.getD k 0
        · subst hj
          rw [getD_set_self_any inq _ _ _ (by omega)]
          simp
        · rw [getD_set_ne_any inq _ _ _ _ (fun hc => hj hc.symm)]
          constructor
          · exact Or.inl
          · intro h
            rcases h with h | h
            · exact h
            · exact absurd h hj
      rw [hset]
      rw [ordSlice_cons ord k k2 (by omega) hkl, List.mem_cons]
      tauto
    · have hq2l : (q ++ [ord.getD k 0]).length ≤ q2.length := by
        simp only [b6, List.length_append, List.length_singleton]
        omega
      refine le_trans b9 (max_le ?_ (le_max_right _ _))
      exact max_le_max (le_refl qmax) hq2l
    · intro j hj
      rcases b12 j hj with ⟨p, hp1, hp2⟩
      exact ⟨p, by omega, hp2⟩
  · next hg =>
    refine ⟨k, q, inq, qmax, rfl, le_refl k, hk, ?_, ?_, ?_, rfl, ?_, ?_, hqnd, hqn, ?_⟩
    · intro hkn
      push_neg at hg
      exact hg hkn
    · intro p h1 h2; omega
    · rw [ordSlice_self ord k k (le_refl k)]
      rw [List.append_nil]
    · intro j
      rw [ordSlice_self ord k k (le_refl k)]
      simp
    · simp
    · intro j hj
      rcases hqpos j hj with ⟨p, hp1, hp2⟩
      exact ⟨p, by omega, hp2⟩
termination_by pr.length - k
decreasing_by omega

/-! ### RR master invariant -/

/-- Sentinel-free pids: no process uses the IDLE (`-1`) or open-segment
(`-2`) marker values that the SRTF/RR drivers reserve internally. -/
def CleanPids (pr : List Proc) : Prop := ∀ p ∈ pr, p.pid ≠ -1 ∧ p.pid ≠ -2

/-- Total remaining work, as a natural number (termination measure). -/
def sumRemNat (rem : List Int) (n : Nat) : Nat :=
  ∑ j ∈ Finset.range n, (geti rem j).toNat

theorem sumRemNat_set (rem : List Int) (n i : Nat) (v : Int) (hi : i < n)
    (hlen : rem.length = n) :
    sumRemNat (rem.set i v) n + (geti rem i).toNat = sumRemNat rem n + v.toNat := by
  unfold sumRemNat
  have hmem : i ∈ Finset.range n := Finset.mem_range.mpr hi
  rw [← Finset.add_sum_erase _ _ hmem, ← Finset.add_sum_erase _ (fun j => (geti rem j).toNat)
    hmem]
  have h1 : (geti (rem.set i v) i).toNat = v.toNat := by
    rw [geti_set_self rem i v (by omega)]
  have h2 : ∑ j ∈ (Finset.range n).erase i, (geti (rem.set i v) j).toNat =
      ∑ j ∈ (Finset.range n).erase i, (geti rem j).toNat := by
    apply Finset.sum_congr rfl
    intro j hj
    rw [geti_set_ne rem i j v (Finset.ne_of_mem_erase hj).symm]
  rw [h1, h2]
  omega

/-- Loop invariant of the RR driver. -/
structure RRInv (pr : List Proc) (ord : List Nat) (t0 t : Int) (k doneCnt : Nat)
    (rem : List Int) (q : List Nat) (inq : List Bool) (cur_pid seg_start : Int)
    (sv : List Seg) (start end_ : List Int) (qmax : Nat) (dup : Bool) : Prop where
  hk : k ≤ pr.length
  hcount : doneCnt + q.length = k
  ht0 : 0 ≤ t0
  ht : t0 ≤ t
  hsl : start.length = pr.length
  hel : end_.length = pr.length
  hrl : rem.length = pr.length
  hil : inq.length = pr.length
  hrem : ∀ j, j < pr.length → 0 ≤ geti rem j ∧ geti rem j ≤ (getP pr j).burst
  hq : ∀ j ∈ q, j < pr.length ∧ 1 ≤ geti rem j ∧ geti end_ j = -1 ∧
    ∃ p, p < k ∧ ord.getD p 0 = j
  hqnd : q.Nodup
  hinq : ∀ j, j < pr.length → (inq.getD j false = true ↔ j ∈ q)
  hadm : ∀ p, p < k → ord.getD p 0 ∈ q ∨ geti end_ (ord.getD p 0) ≠ -1
  hun : ∀ p, k ≤ p → p < pr.length → geti end_ (ord.getD p 0) = -1 ∧
    ord.getD p 0 ∉ q ∧ geti rem (ord.getD p 0) = (getP pr (ord.getD p 0)).burst
  hfront : k < pr.length → t < (getP pr (ord.getD k 0)).arrival
  hcomp : ∀ j, j < pr.length → geti end_ j ≠ -1 →
    (getP pr j).burst ≤ geti end_ j - geti start j
  hstart : ∀ j, j < pr.length → geti start j ≠ -1 →
    geti start j + ((getP pr j).burst - geti rem j) ≤ t
  hstart0 : ∀ j, j < pr.length → geti start j = -1 → geti rem j = (getP pr j).burst
  hqmax : qmax ≤ pr.length
  hdup : dup = false
  hseg : CleanPids pr →
    (cur_pid = -2 ∧ segsChain t0 sv t) ∨
    (cur_pid ≠ -1 ∧ cur_pid ≠ -2 ∧ segsChain t0 sv seg_start ∧ seg_start < t)

theorem rr_go_succ (pr : List Proc) (ord : List Nat) (quantum : Int) (fuel : Nat) (t : Int)
    (k doneCnt : Nat) (rem : List Int) (q : List Nat) (inq : List Bool)
    (cur_pid seg_start : Int) (sv : List Seg) (start end_ : List Int)
    (disp : List Nat) (qmax : Nat) (dup : Bool) :
    rr_go pr ord quantum (fuel + 1) t k doneCnt rem q inq cur_pid seg_start sv start end_
      disp qmax dup =
    (if doneCnt < pr.length then
      match q with
      | [] =>
        if k < pr.length then
          let nextA := (getP pr (ord.getD k 0)).arrival
          let sv₁ := if cur_pid ≠ -1 ∧ cur_pid ≠ -2 then sv ++ [⟨cur_pid, seg_start, t⟩] else sv
          match rr_admit pr ord pr.length nextA false k [] inq qmax dup with
          | none => RROut.qfail
          | some (k', q', inq', qmax', dup') =>
            rr_go pr ord quantum fuel nextA k' doneCnt rem q' inq' (-2) nextA
              (sv₁ ++ [⟨-1, t, nextA⟩]) start end_ disp qmax' dup'
        else RROut.ok ⟨seg_coalesce (close_seg sv cur_pid seg_start t), start, end_, disp, qmax, dup⟩
      | i :: qrest =>
        let inq₁ := inq.set i false
        let start' := if geti start i = -1 then start.set i t else start
        let sv' := if cur_pid ≠ (getP pr i).pid ∧ cur_pid ≠ -2 then
            sv ++ [⟨cur_pid, seg_start, t⟩] else sv
        let seg_start' := if cur_pid ≠ (getP pr i).pid then t else seg_start
        let slice := if geti rem i < quantum then geti rem i else quantum
        let t' := t + slice
        let rem' := rem.set i (geti rem i - slice)
        match rr_admit pr ord pr.length t' true k qrest inq₁ qmax dup with
        | none => RROut.qfail
        | some (k', q', inq', qmax', dup') =>
          if geti rem' i = 0 then
            rr_go pr ord quantum fuel t' k' (doneCnt + 1) rem' q' inq' (getP pr i).pid seg_start'
              sv' start' (end_.set i t') (disp ++ [i]) qmax' dup'
          else
            match q_push pr.length q' i with
            | none => RROut.qfail
            | some q'' =>
              rr_go pr ord quantum fuel t' k' doneCnt rem' q'' (inq'.set i true)
                (getP pr i).pid seg_start' sv' start' end_ (disp ++ [i])
                (max qmax' q''.length) (dup' || q'.contains i)
    else RROut.ok ⟨seg_coalesce (close_seg sv cur_pid seg_start t), start, end_, disp, qmax,
      dup⟩) := rfl

theorem bool_eq_false_of_not_mem (b : Bool) (h : ¬ b = true) : b = false := by
  cases b
  · rfl
  · exact absurd rfl h

theorem rr_go_master (pr : List Proc) (hv : ValidInput pr) (quantum : Int) (hq1 : 1 ≤ quantum)
    (ord : List Nat) (hlen : ord.length = pr.length) (hond : ord.Nodup)
    (hordj : ∀ j ∈ ord, j < pr.length) (hmemord : ∀ j, j < pr.length → j ∈ ord) (t0 : Int) :
    ∀ (fuel : Nat) (t : Int) (k doneCnt : Nat) (rem : List Int) (q : List Nat)
    (inq : List Bool) (cur_pid seg_start : Int) (sv : List Seg) (start end_ : List Int)
    (disp : List Nat) (qmax : Nat) (dup : Bool),
    RRInv pr ord t0 t k doneCnt rem q inq cur_pid seg_start sv start end_ qmax dup →
    2 * sumRemNat rem pr.length + (pr.length - k) + 1 ≤ fuel →
    ∃ r : RRRes, rr_go pr ord quantum fuel t k doneCnt rem q inq cur_pid seg_start sv start
      end_ disp qmax dup = RROut.ok r ∧
      (∀ j, j < pr.length → (getP pr j).burst ≤ geti r.end_ j - geti r.start j) ∧
      (CleanPids pr → ∃ T, segsChain t0 r.segs T ∧ OwnersAlt r.segs) ∧
      r.qmax ≤ pr.length ∧ r.dup = false := by
  intro fuel
  induction fuel with
  | zero =>
    intro t k doneCnt rem q inq cur_pid seg_start sv start end_ disp qmax dup _ hfuel
    omega
  | succ fuel ih =>
    intro t k doneCnt rem q inq cur_pid seg_start sv start end_ disp qmax dup hinv hfuel
    rw [rr_go_succ]
    have hts := hinv.ht
    have hts0 := hinv.ht0
    have hcnt := hinv.hcount
    have hkn := hinv.hk
    by_cases hdn : doneCnt < pr.length
    · simp only [hdn, if_true]
      rcases q with _ | ⟨i, qrest⟩
      · rcases Nat.lt_or_ge k pr.length with hklt | hkge
        · rw [if_pos hklt]
          have hfrontA : t < (getP pr (ord.getD k 0)).arrival := hinv.hfront hklt
          have hfresh : ∀ p, k ≤ p → p < pr.length →
              inq.getD (ord.getD p 0) false = false := by
            intro p hp1 hp2
            have hopl : ord.getD p 0 < pr.length := by
              apply hordj
              have hpl : p < ord.length := by omega
              rw [List.getD_eq_getElem ord 0 hpl]
              exact List.getElem_mem hpl
            apply bool_eq_false_of_not_mem
            intro hc
            have := (hinv.hinq _ hopl).mp hc
            simp at this
          rcases rr_admit_full pr ord ((getP pr (ord.getD k 0)).arrival) false hlen hond hordj
            k [] inq qmax dup hinv.hk (by intro j hj; simp at hj) List.nodup_nil
            (by intro j hj; simp at hj) hfresh hinv.hil with
            ⟨k2, q2, inq2, qmax2, b1, b2, b3, b4, b5, b6, b7, b8, b9, b10, b11, b12⟩
          rw [b1]
          dsimp only
          have hq2slice : q2 = ordSlice ord k k2 := by
            rw [b6]; rfl
          have hprog : k < k2 := by
            rcases Nat.eq_or_lt_of_le b2 with rfl | h
            · have := b4 hklt
              omega
            · exact h
          have hq2len : q2.length = k2 - k := by
            rw [hq2slice]
            unfold ordSlice
            simp only [List.length_drop, List.length_take]
            omega
          have hinv2 : RRInv pr ord t0 ((getP pr (ord.getD k 0)).arrival) k2 doneCnt rem q2
              inq2 (-2) ((getP pr (ord.getD k 0)).arrival)
              ((if cur_pid ≠ -1 ∧ cur_pid ≠ -2 then sv ++ [⟨cur_pid, seg_start, t⟩] else sv) ++
                [⟨-1, t, (getP pr (ord.getD k 0)).arrival⟩]) start end_ qmax2 dup := by
            refine ⟨b3, ?_, hinv.ht0, by omega, hinv.hsl, hinv.hel, hinv.hrl,
              by rw [b7]; exact hinv.hil, hinv.hrem, ?_, b10, ?_, ?_, ?_, b4, hinv.hcomp,
              ?_, hinv.hstart0, ?_, hinv.hdup, ?_⟩
            · simp at hcnt
              omega
            · intro j hj
              rw [hq2slice] at hj
              rcases ordSlice_mem ord k k2 (by omega) j hj with ⟨p, hp1, hp2, hp3⟩
              have hju := hinv.hun p hp1 (by omega)
              rw [hp3] at hju
              have hjn : j < pr.length := b11 j (by rw [hq2slice]; exact hj)
              refine ⟨hjn, ?_, hju.1, ⟨p, hp2, hp3⟩⟩
              rw [hju.2.2]
              exact valid_burst_pos pr hv j hjn
            · intro j hjn
              rw [b8]
              constructor
              · intro hc
                rcases hc with hc | hc
                · exfalso
                  have := (hinv.hinq j hjn).mp hc
                  simp at this
                · rw [hq2slice]
                  exact hc
              · intro hc
                right
                rw [← hq2slice]
                exact hc
            · intro p hpk2
              rcases Nat.lt_or_ge p k with hpk | hpk
              · rcases hinv.hadm p hpk with h | h
                · simp at h
                · exact Or.inr h
              · left
                rw [hq2slice]
                exact ordSlice_mem_of ord k k2 p hpk hpk2 (by omega)
            · intro p hp1 hp2
              have hold := hinv.hun p (by omega) hp2
              refine ⟨hold.1, ?_, hold.2.2⟩
              intro hc
              rcases b12 _ hc with ⟨q', hq1', hq2'⟩
              have := ord_getD_inj ord hond q' p (by omega) (by omega) hq2'
              omega
            · intro j hjn hjs
              have := hinv.hstart j hjn hjs
              omega
            · refine le_trans b9 (max_le hinv.hqmax ?_)
              have := nodup_lt_length_le q2 pr.length b10 b11
              omega
            · intro hclean
              left
              refine ⟨rfl, ?_⟩
              rw [segsChain_snoc]
              refine ⟨?_, hfrontA, rfl⟩
              rcases hinv.hseg hclean with ⟨hc2, hch⟩ | ⟨hc1, hc2, hch, hlt⟩
              · rw [if_neg]
                · exact hch
                · intro hc
                  exact hc.2 hc2
              · rw [if_pos ⟨hc1, hc2⟩, segsChain_snoc]
                exact ⟨hch, hlt, rfl⟩
          apply ih _ _ _ _ _ _ _ _ _ _ _ _ _ _ hinv2
          omega
        · rw [if_neg (by omega)]
          exfalso
          simp at hcnt
          omega
      · dsimp only
        rcases hinv.hq i (List.mem_cons_self i qrest) with ⟨hi, hrem1, hie, pi, hpi, hpie⟩
        have hbur := valid_burst_pos pr hv i hi
        have hremi := hinv.hrem i hi
        have hndc := List.nodup_cons.mp hinv.hqnd
        set slice := if geti rem i < quantum then geti rem i else quantum with hslice_def
        have hslice1 : 1 ≤ slice := by
          rw [hslice_def]
          split <;> omega
        have hslice2 : slice ≤ geti rem i := by
          rw [hslice_def]
          split <;> omega
        have hremi_set : geti (rem.set i (geti rem i - slice)) i = geti rem i - slice :=
          geti_set_self rem i _ (by rw [hinv.hrl]; exact hi)
        have hrem_set_ne : ∀ j, j ≠ i →
            geti (rem.set i (geti rem i - slice)) j = geti rem j := by
          intro j hj
          exact geti_set_ne rem i j _ (fun hc => hj hc.symm)
        have hfresh : ∀ p, k ≤ p → p < pr.length →
            (inq.set i false).getD (ord.getD p 0) false = false := by
          intro p hp1 hp2
          have hopl : ord.getD p 0 < pr.length := by
            apply hordj
            have hpl : p < ord.length := by omega
            rw [List.getD_eq_getElem ord 0 hpl]
            exact List.getElem_mem hpl
          by_cases hpo : ord.getD p 0 = i
          · rw [hpo]
            exact getD_set_self_any inq i false false (by rw [hinv.hil]; exact hi)
          · rw [getD_set_ne_any inq i _ false false (fun hc => hpo hc.symm)]
            apply bool_eq_false_of_not_mem
            intro hc
            have hmem := (hinv.hinq _ hopl).mp hc
            rcases hinv.hq _ hmem with ⟨_, _, _, p', hp', hp'e⟩
            have := ord_getD_inj ord hond p' p (by omega) (by omega) (hp'e.trans rfl)
            omega
        have hqr_pos : ∀ j ∈ qrest, ∃ p, p < k ∧ ord.getD p 0 = j := by
          intro j hj
          exact (hinv.hq j (List.mem_cons_of_mem i hj)).2.2.2
        rcases rr_admit_full pr ord (t + slice) true hlen hond hordj k qrest (inq.set i false)
          qmax dup hinv.hk
          (fun j hj => (hinv.hq j (List.mem_cons_of_mem i hj)).1) hndc.2 hqr_pos hfresh
          (by rw [List.length_set]; exact hinv.hil) with
          ⟨k2, q2, inq2, qmax2, b1, b2, b3, b4, b5, b6, b7, b8, b9, b10, b11, b12⟩
        rw [b1]
        dsimp only
        have hinotslice : i ∉ ordSlice ord k k2 := by
          intro hc
          rcases ordSlice_mem ord k k2 (by omega) i hc with ⟨p, hp1, hp2, hp3⟩
          have := ord_getD_inj ord hond p pi (by omega) (by omega) (hp3.trans hpie.symm)
          omega
        have hinotq2 : i ∉ q2 := by
          rw [b6]
          intro hc
          rcases List.mem_append.mp hc with h | h
          · exact hndc.1 h
          · exact hinotslice h
        have hsum : sumRemNat (rem.set i (geti rem i - slice)) pr.length + 1 ≤
            sumRemNat rem pr.length := by
          have := sumRemNat_set rem pr.length i (geti rem i - slice) hi hinv.hrl
          omega
        have hstart'len : (if geti start i = -1 then start.set i t else start).length =
            pr.length := by
          split
          · rw [List.length_set]; exact hinv.hsl
          · exact hinv.hsl
        have hstart'i : geti (if geti start i = -1 then start.set i t else start) i ≠ -1 ∧
            geti (if geti start i = -1 then start.set i t else start) i +
              ((getP pr i).burst - geti rem i) ≤ t := by
          split
          · next hc =>
            rw [geti_set_self start i t (by rw [hinv.hsl]; exact hi)]
            have := hinv.hstart0 i hi hc
            omega
          · next hc =>
            exact ⟨hc, hinv.hstart i hi hc⟩
        have hstart'ne : ∀ j, j ≠ i →
            geti (if geti start i = -1 then start.set i t else start) j = geti start j := by
          intro j hj
          split
          · exact geti_set_ne start i j t (fun hc => hj hc.symm)
          · rfl
        have hinq2iff : ∀ j, j < pr.length → (inq2.getD j false = true ↔ j ∈ q2) := by
          intro j hjn
          rw [b8, b6]
          by_cases hji : j = i
          · subst hji
            rw [getD_set_self_any inq j false false (by rw [hinv.hil]; exact hjn)]
            constructor
            · intro hc
              rcases hc with hc | hc
              · exact absurd hc (Bool.false_ne_true)
              · exact absurd hc hinotslice
            · intro hc
              rcases List.mem_append.mp hc with h | h
              · exact absurd h hndc.1
              · exact absurd h hinotslice
          · rw [getD_set_ne_any inq i j false false (fun hc => hji hc.symm)]
            rw [List.mem_append]
            constructor
            · intro hc
              rcases hc with hc | hc
              · have := (hinv.hinq j hjn).mp hc
                rcases List.mem_cons.mp this with h | h
                · exact absurd h hji
                · exact Or.inl h
              · exact Or.inr hc
            · intro hc
              rcases hc with hc | hc
              · exact Or.inl ((hinv.hinq j hjn).mpr (List.mem_cons_of_mem i hc))
              · exact Or.inr hc
        have hsegnew : CleanPids pr →
            ((getP pr i).pid ≠ -1 ∧ (getP pr i).pid ≠ -2 ∧
              segsChain t0 (if cur_pid ≠ (getP pr i).pid ∧ cur_pid ≠ -2 then
                sv ++ [⟨cur_pid, seg_start, t⟩] else sv)
                (if cur_pid ≠ (getP pr i).pid then t else seg_start) ∧
              (if cur_pid ≠ (getP pr i).pid then t else seg_start) < t + slice) := by
          intro hclean
          have hpid := hclean (getP pr i) (getP_mem pr i hi)
          refine ⟨hpid.1, hpid.2, ?_, ?_⟩
          · rcases hinv.hseg hclean with ⟨hc2, hch⟩ | ⟨hc1, hc2, hch, hlt⟩
            · rw [if_neg (by intro hc; exact hc.2 hc2)]
              rw [if_pos (by rw [hc2]; exact fun hc => hpid.2 hc.symm)]
              exact hch
            · by_cases hcp : cur_pid = (getP pr i).pid
              · rw [if_neg (by intro hc; exact hc.1 hcp), if_neg (by intro hc; exact hc hcp)]
                exact hch
              · rw [if_pos ⟨hcp, hc2⟩, if_pos hcp, segsChain_snoc]
                exact ⟨hch, hlt, rfl⟩
          · by_cases hcp : cur_pid = (getP pr i).pid
            · rw [if_neg (fun hc => hc hcp)]
              rcases hinv.hseg hclean with ⟨hc2, _⟩ | ⟨_, _, _, hlt⟩
              · exfalso
                rw [hc2] at hcp
                exact hpid.2 hcp.symm
              · omega
            · rw [if_pos hcp]
              omega
        by_cases hrem0 : geti (rem.set i (geti rem i - slice)) i = 0
        · rw [if_pos hrem0]
          rw [hremi_set] at hrem0
          have hinv2 : RRInv pr ord t0 (t + slice) k2 (doneCnt + 1)
              (rem.set i (geti rem i - slice)) q2 inq2 (getP pr i).pid
              (if cur_pid ≠ (getP pr i).pid then t else seg_start)
              (if cur_pid ≠ (getP pr i).pid ∧ cur_pid ≠ -2 then
                sv ++ [⟨cur_pid, seg_start, t⟩] else sv)
              (if geti start i = -1 then start.set i t else start)
              (end_.set i (t + slice)) qmax2 dup := by
            refine ⟨b3, ?_, hinv.ht0, by omega, hstart'len,
              (by rw [List.length_set]; exact hinv.hel),
              (by rw [List.length_set]; exact hinv.hrl),
              (by rw [b7, List.length_set]; exact hinv.hil), ?_, ?_, b10, hinq2iff, ?_, ?_,
              b4, ?_, ?_, ?_, ?_, hinv.hdup, ?_⟩
            · have hql : q2.length = qrest.length + (k2 - k) := by
                rw [b6, List.length_append]
                unfold ordSlice
                simp only [List.length_drop, List.length_take]
                omega
              simp at hcnt
              omega
            · intro j hjn
              by_cases hji : j = i
              · subst hji
                rw [hremi_set]
                omega
              · rw [hrem_set_ne j hji]
                exact hinv.hrem j hjn
            · intro j hj
              rw [b6] at hj
              rcases List.mem_append.mp hj with hjr | hjs
              · rcases hinv.hq j (List.mem_cons_of_mem i hjr) with ⟨c1, c2, c3, p', c4, c5⟩
                have hji : j ≠ i := fun hc => hndc.1 (hc ▸ hjr)
                rw [hrem_set_ne j hji, geti_set_ne end_ i j _ (fun hc => hji hc.symm)]
                exact ⟨c1, c2, c3, p', by omega, c5⟩
              · rcases ordSlice_mem ord k k2 (by omega) j hjs with ⟨p, hp1, hp2, hp3⟩
                have hju := hinv.hun p hp1 (by omega)
                rw [hp3] at hju
                have hjmem : j ∈ q2 := by
                  rw [b6]
                  exact List.mem_append.mpr (Or.inr hjs)
                have hjn : j < pr.length := b11 j hjmem
                have hji : j ≠ i := by
                  intro hc
                  exact hinotslice (hc ▸ hjs)
                rw [hrem_set_ne j hji, geti_set_ne end_ i j _ (fun hc => hji hc.symm)]
                refine ⟨hjn, ?_, hju.1, ⟨p, hp2, hp3⟩⟩
                rw [hju.2.2]
                exact valid_burst_pos pr hv j hjn
            · intro p hpk2
              rcases Nat.lt_or_ge p k with hpk | hpk
              · rcases hinv.hadm p hpk with h | h
                · rcases List.mem_cons.mp h with h' | h'
                  · right
                    rw [h', geti_set_self end_ i _ (by rw [hinv.hel]; exact hi)]
                    omega
                  · left
                    rw [b6]
                    exact List.mem_append.mpr (Or.inl h')
                · right
                  by_cases hpo : ord.getD p 0 = i
                  · rw [hpo, geti_set_self end_ i _ (by rw [hinv.hel]; exact hi)]
                    omega
                  · rw [geti_set_ne end_ i _ _ (fun hc => hpo hc.symm)]
                    exact h
              · left
                rw [b6]
                exact List.mem_append.mpr (Or.inr (ordSlice_mem_of ord k k2 p hpk hpk2
                  (by omega)))
            · intro p hp1 hp2
              have hold := hinv.hun p (by omega) hp2
              have hpo : ord.getD p 0 ≠ i := by
                intro hc
                have := ord_getD_inj ord hond p pi (by omega) (by omega) (hc.trans hpie.symm)
                omega
              refine ⟨?_, ?_, ?_⟩
              · rw [geti_set_ne end_ i _ _ (fun hc => hpo hc.symm)]
                exact hold.1
              · intro hc
                rcases b12 _ hc with ⟨p', hp1', hp2'⟩
                have := ord_getD_inj ord hond p' p (by omega) (by omega) hp2'
                omega
              · rw [hrem_set_ne _ hpo]
                exact hold.2.2
            · intro j hjn hje
              by_cases hji : j = i
              · subst hji
                rw [geti_set_self end_ j _ (by rw [hinv.hel]; exact hjn)]
                have h1 := hstart'i.2
                omega
              · rw [geti_set_ne end_ i j _ (fun hc => hji hc.symm)] at hje ⊢
                rw [hstart'ne j hji]
                exact hinv.hcomp j hjn hje
            · intro j hjn hjs
              by_cases hji : j = i
              · subst hji
                rw [hremi_set]
                have := hstart'i.2
                omega
              · rw [hstart'ne j hji] at hjs ⊢
                rw [hrem_set_ne j hji]
                have := hinv.hstart j hjn hjs
                omega
            · intro j hjn hjs
              by_cases hji : j = i
              · subst hji
                exact absurd hjs hstart'i.1
              · rw [hstart'ne j hji] at hjs
                rw [hrem_set_ne j hji]
                exact hinv.hstart0 j hjn hjs
            · refine le_trans b9 (max_le hinv.hqmax ?_)
              exact nodup_lt_length_le q2 pr.length b10 b11
            · intro hclean
              right
              exact hsegnew hclean
          apply ih _ _ _ _ _ _ _ _ _ _ _ _ _ _ hinv2
          omega
        · rw [if_neg hrem0]
          rw [hremi_set] at hrem0
          have hpush : q_push pr.length q2 i = some (q2 ++ [i]) := by
            unfold q_push
            rw [if_neg]
            intro hc
            have hnd2 : (q2 ++ [i]).Nodup := by
              rw [List.nodup_append]
              exact ⟨b10, List.nodup_singleton _, by
                intro a ha hb
                rw [List.mem_singleton] at hb
                exact hinotq2 (hb ▸ ha)⟩
            have hle := nodup_lt_length_le (q2 ++ [i]) pr.length hnd2 (by
              intro j hj
              rcases List.mem_append.mp hj with h | h
              · exact b11 j h
              · rw [List.mem_singleton.mp h]; exact hi)
            rw [List.length_append, List.length_singleton] at hle
            omega
          rw [hpush]
          dsimp only
          have hcont : q2.contains i = false := by
            rw [List.contains_eq_any_beq, List.any_eq_false]
            intro j hj
            simp only [beq_iff_eq]
            intro hc
            exact hinotq2 (hc ▸ hj)
          have hdup2 : (dup || q2.contains i) = dup := by
            rw [hcont, Bool.or_false]
          rw [hdup2]
          have hinv2 : RRInv pr ord t0 (t + slice) k2 doneCnt
              (rem.set i (geti rem i - slice)) (q2 ++ [i]) (inq2.set i true) (getP pr i).pid
              (if cur_pid ≠ (getP pr i).pid then t else seg_start)
              (if cur_pid ≠ (getP pr i).pid ∧ cur_pid ≠ -2 then
                sv ++ [⟨cur_pid, seg_start, t⟩] else sv)
              (if geti start i = -1 then start.set i t else start)
              end_ (max qmax2 (q2 ++ [i]).length) dup := by
            refine ⟨b3, ?_, hinv.ht0, by omega, hstart'len, hinv.hel,
              by rw [List.length_set]; exact hinv.hrl,
              by rw [List.length_set, b7, List.length_set]; exact hinv.hil, ?_, ?_, ?_, ?_,
              ?_, ?_, b4, ?_, ?_, ?_, ?_, hinv.hdup, ?_⟩
            · have hql : q2.length = qrest.length + (k2 - k) := by
                rw [b6, List.length_append]
                unfold ordSlice
                simp only [List.length_drop, List.length_take]
                omega
              simp only [List.length_append, List.length_singleton]
              simp at hcnt
              omega
            · intro j hjn
              by_cases hji : j = i
              · subst hji
                rw [hremi_set]
                omega
              · rw [hrem_set_ne j hji]
                exact hinv.hrem j hjn
            · intro j hj
              rcases List.mem_append.mp hj with hjq2 | hjsing
              · rw [b6] at hjq2
                rcases List.mem_append.mp hjq2 with hjr | hjs
                · rcases hinv.hq j (List.mem_cons_of_mem i hjr) with ⟨c1, c2, c3, p', c4, c5⟩
                  have hji : j ≠ i := fun hc => hndc.1 (hc ▸ hjr)
                  rw [hrem_set_ne j hji]
                  exact ⟨c1, c2, c3, p', by omega, c5⟩
                · rcases ordSlice_mem ord k k2 (by omega) j hjs with ⟨p, hp1, hp2, hp3⟩
                  have hju := hinv.hun p hp1 (by omega)
                  rw [hp3] at hju
                  have hjmem : j ∈ q2 := by
                    rw [b6]
                    exact List.mem_append.mpr (Or.inr hjs)
                  have hjn : j < pr.length := b11 j hjmem
                  have hji : j ≠ i := by
                    intro hc
                    exact hinotslice (hc ▸ hjs)
                  rw [hrem_set_ne j hji]
                  refine ⟨hjn, ?_, hju.1, ⟨p, hp2, hp3⟩⟩
                  rw [hju.2.2]
                  exact valid_burst_pos pr hv j hjn
              · rw [List.mem_singleton.mp hjsing]
                rw [hremi_set]
                exact ⟨hi, by omega, hie, pi, by omega, hpie⟩
            · rw [List.nodup_append]
              exact ⟨b10, List.nodup_singleton _, by
                intro a ha hb
                rw [List.mem_singleton] at hb
                exact hinotq2 (hb ▸ ha)⟩
            · intro j hjn
              by_cases hji : j = i
              · subst hji
                rw [getD_set_self_any inq2 j true false (by
                  rw [b7, List.length_set, hinv.hil]
                  exact hjn)]
                constructor
                · intro _
                  exact List.mem_append.mpr (Or.inr (List.mem_singleton.mpr rfl))
                · intro _
                  rfl
              · rw [getD_set_ne_any inq2 i j true false (fun hc => hji hc.symm)]
                rw [hinq2iff j hjn]
                constructor
                · intro hc
                  exact List.mem_append.mpr (Or.inl hc)
                · intro hc
                  rcases List.mem_append.mp hc with h | h
                  · exact h
                  · exact absurd (List.mem_singleton.mp h) hji
            · intro p hpk2
              rcases Nat.lt_or_ge p k with hpk | hpk
              · rcases hinv.hadm p hpk with h | h
                · rcases List.mem_cons.mp h with h' | h'
                  · left
                    rw [h']
                    exact List.mem_append.mpr (Or.inr (List.mem_singleton.mpr rfl))
                  · left
                    have hq2m : ord.getD p 0 ∈ q2 := by
                      rw [b6]
                      exact List.mem_append.mpr (Or.inl h')
                    exact List.mem_append.mpr (Or.inl hq2m)
                · exact Or.inr h
              · left
                refine List.mem_append.mpr (Or.inl ?_)
                rw [b6]
                exact List.mem_append.mpr (Or.inr (ordSlice_mem_of ord k k2 p hpk hpk2
                  (by omega)))
            · intro p hp1 hp2
              have hold := hinv.hun p (by omega) hp2
              have hpo : ord.getD p 0 ≠ i := by
                intro hc
                have := ord_getD_inj ord hond p pi (by omega) (by omega) (hc.trans hpie.symm)
                omega
              refine ⟨hold.1, ?_, ?_⟩
              · intro hc
                rcases List.mem_append.mp hc with h | h
                · rcases b12 _ h with ⟨p', hp1', hp2'⟩
                  have := ord_getD_inj ord hond p' p (by omega) (by omega) hp2'
                  omega
                · exact hpo (List.mem_singleton.mp h)
              · rw [hrem_set_ne _ hpo]
                exact hold.2.2
            · intro j hjn hje
              by_cases hji : j = i
              · subst hji
                exact absurd hie hje
              · rw [hstart'ne j hji]
                exact hinv.hcomp j hjn hje
            · intro j hjn hjs
              by_cases hji : j = i
              · subst hji
                rw [hremi_set]
                have := hstart'i.2
                omega
              · rw [hstart'ne j hji] at hjs ⊢
                rw [hrem_set_ne j hji]
                have := hinv.hstart j hjn hjs
                omega
            · intro j hjn hjs
              by_cases hji : j = i
              · subst hji
                exact absurd hjs hstart'i.1
              · rw [hstart'ne j hji] at hjs
                rw [hrem_set_ne j hji]
                exact hinv.hstart0 j hjn hjs
            · apply max_le
              · refine le_trans b9 (max_le hinv.hqmax ?_)
                exact nodup_lt_length_le q2 pr.length b10 b11
              · apply nodup_lt_length_le
                · rw [List.nodup_append]
                  exact ⟨b10, List.nodup_singleton _, by
                    intro a ha hb
                    rw [List.mem_singleton] at hb
                    exact hinotq2 (hb ▸ ha)⟩
                · intro j hj
                  rcases List.mem_append.mp hj with h | h
                  · exact b11 j h
                  · rw [List.mem_singleton.mp h]; exact hi
            · intro hclean
              right
              exact hsegnew hclean
          apply ih _ _ _ _ _ _ _ _ _ _ _ _ _ _ hinv2
          omega
    · simp only [hdn, if_false]
      refine ⟨⟨seg_coalesce (close_seg sv cur_pid seg_start t), start, end_, disp, qmax,
        dup⟩, rfl, ?_, ?_, hinv.hqmax, hinv.hdup⟩
      · intro j hjn
        have hqnil : q = [] := by
          rcases q with _ | ⟨x, xs⟩
          · rfl
          · exfalso
            simp at hcnt
            omega
        subst hqnil
        have hkeq : k = pr.length := by
          simp at hcnt
          omega
        rcases mem_getD_pos ord j (hmemord j hjn) with ⟨p, hp1, hp2⟩
        rcases hinv.hadm p (by omega) with h | h
        · simp at h
        · rw [hp2] at h
          exact hinv.hcomp j hjn h
      · intro hclean
        rcases hinv.hseg hclean with ⟨hc2, hch⟩ | ⟨hc1, hc2, hch, hlt⟩
        · unfold close_seg
          rw [if_neg (by intro hc; exact hc hc2)]
          rcases seg_coalesce_ok sv t0 t hch with ⟨h1, h2⟩
          exact ⟨t, h1, h2⟩
        · unfold close_seg
          rw [if_pos hc2]
          have hch2 : segsChain t0 (sv ++ [⟨cur_pid, seg_start, t⟩]) t := by
            rw [segsChain_snoc]
            exact ⟨hch, hlt, rfl⟩
          rcases seg_coalesce_ok _ t0 t hch2 with ⟨h1, h2⟩
          exact ⟨t, h1, h2⟩

theorem getD_replicate_false (n j : Nat) : (List.replicate n false).getD j false = false := by
  rcases Nat.lt_or_ge j n with h | h
  · rw [List.getD_eq_getElem _ _ (by simpa using h)]
    exact List.getElem_replicate ..
  · rw [List.getD_eq_default]
    simpa using h

theorem geti_map_burst (pr : List Proc) (j : Nat) (h : j < pr.length) :
    geti (pr.map Proc.burst) j = (getP pr j).burst := by
  rw [geti, List.getD_eq_getElem _ _ (by simpa using h), List.getElem_map,
    getP, List.getD_eq_getElem _ _ h]

theorem run_rr_spec (pr : List Proc) (hv : ValidInput pr) (quantum : Int)
    (hq1 : 1 ≤ quantum) :
    ∃ r : RRRes, run_rr pr quantum = RROut.ok r ∧
      (∀ j, j < pr.length → (getP pr j).burst ≤ geti r.end_ j - geti r.start j) ∧
      (CleanPids pr →
        ∃ T, segsChain (init_t pr (make_ord pr)) r.segs T ∧ OwnersAlt r.segs) ∧
      r.qmax ≤ pr.length ∧ r.dup = false := by
  have hordj : ∀ j ∈ make_ord pr, j < pr.length := fun j hj => (make_ord_mem pr j).mp hj
  have hmemord : ∀ j, j < pr.length → j ∈ make_ord pr := fun j hj =>
    (make_ord_mem pr j).mpr hj
  have ht0 : 0 ≤ init_t pr (make_ord pr) := init_t_nonneg pr hv _ hordj
  unfold run_rr
  dsimp only
  rcases rr_admit_full pr (make_ord pr) (init_t pr (make_ord pr)) false (make_ord_length pr)
    (make_ord_nodup pr) hordj 0 [] (List.replicate pr.length false) 0 false
    (by omega) (by intro j hj; simp at hj) List.nodup_nil (by intro j hj; simp at hj)
    (fun p _ _ => getD_replicate_false pr.length _)
    (List.length_replicate _ _) with
    ⟨k0, q0, inq0, qmax0, b1, b2, b3, b4, b5, b6, b7, b8, b9, b10, b11, b12⟩
  rw [b1]
  dsimp only
  have hq0slice : q0 = ordSlice (make_ord pr) 0 k0 := by
    rw [b6]; rfl
  have hq0len : q0.length = k0 := by
    rw [hq0slice]
    unfold ordSlice
    simp only [List.length_drop, List.length_take, make_ord_length]
    omega
  have hinv0 : RRInv pr (make_ord pr) (init_t pr (make_ord pr)) (init_t pr (make_ord pr))
      k0 0 (pr.map Proc.burst) q0 inq0 (-2) (init_t pr (make_ord pr)) []
      (List.replicate pr.length (-1)) (List.replicate pr.length (-1)) qmax0 false := by
    refine ⟨b3, by omega, ht0, le_refl _, List.length_replicate _ _, List.length_replicate _ _,
      List.length_map _ _, b7.trans (List.length_replicate _ _), ?_, ?_, b10, ?_, ?_, ?_, b4,
      ?_, ?_, ?_, ?_, rfl, ?_⟩
    · intro j hjn
      rw [geti_map_burst pr j hjn]
      have := valid_burst_pos pr hv j hjn
      omega
    · intro j hj
      rw [hq0slice] at hj
      rcases ordSlice_mem _ 0 k0 (by rw [make_ord_length]; omega) j hj with ⟨p, _, hp2, hp3⟩
      have hjn : j < pr.length := b11 j (by rw [hq0slice]; exact hj)
      refine ⟨hjn, ?_, geti_replicate _ _ _ hjn, ⟨p, hp2, hp3⟩⟩
      rw [geti_map_burst pr j hjn]
      exact valid_burst_pos pr hv j hjn
    · intro j hjn
      rw [b8]
      constructor
      · intro hc
        rcases hc with hc | hc
        · rw [getD_replicate_false] at hc
          exact absurd hc Bool.false_ne_true
        · rw [hq0slice]
          exact hc
      · intro hc
        right
        rw [← hq0slice]
        exact hc
    · intro p hpk
      left
      rw [hq0slice]
      exact ordSlice_mem_of _ 0 k0 p (by omega) hpk (by rw [make_ord_length]; omega)
    · intro p hp1 hp2
      refine ⟨geti_replicate _ _ _ (make_ord_getD_lt pr p hp2), ?_, ?_⟩
      · intro hc
        rcases b12 _ hc with ⟨p', hp1', hp2'⟩
        have := ord_getD_inj (make_ord pr) (make_ord_nodup pr) p' p
          (by rw [make_ord_length]; omega) (by rw [make_ord_length]; omega) hp2'
        omega
      · exact geti_map_burst pr _ (make_ord_getD_lt pr p hp2)
    · intro j hjn hje
      rw [geti_replicate _ _ _ hjn] at hje
      omega
    · intro j hjn hjs
      rw [geti_replicate _ _ _ hjn] at hjs
      omega
    · intro j hjn _
      exact geti_map_burst pr j hjn
    · refine le_trans b9 (max_le (by omega) ?_)
      exact nodup_lt_length_le q0 pr.length b10 b11
    · intro _
      left
      exact ⟨rfl, rfl⟩
  apply rr_go_master pr hv quantum hq1 (make_ord pr) (make_ord_length pr)
    (make_ord_nodup pr) hordj hmemord _ _ _ _ _ _ _ _ _ _ _ _ _ _ _ _ hinv0
  have heq : rr_fuel pr =
      2 * sumRemNat (pr.map Proc.burst) pr.length + 4 * pr.length + 4 := rfl
  rw [heq]
  omega

/-! ### SRTF master invariant -/

/-- Total remaining work as an integer. -/
def sumRemInt (rem : List Int) (n : Nat) : Int := ∑ j ∈ Finset.range n, geti rem j

theorem sumRemInt_set (rem : List Int) (n i : Nat) (v : Int) (hi : i < n)
    (hlen : rem.length = n) :
    sumRemInt (rem.set i v) n = sumRemInt rem n - geti rem i + v := by
  unfold sumRemInt
  have hmem : i ∈ Finset.range n := Finset.mem_range.mpr hi
  rw [← Finset.add_sum_erase _ _ hmem, ← Finset.add_sum_erase _ (fun j => geti rem j) hmem]
  have h1 : geti (rem.set i v) i = v := geti_set_self rem i v (by omega)
  have h2 : ∑ j ∈ (Finset.range n).erase i, geti (rem.set i v) j =
      ∑ j ∈ (Finset.range n).erase i, geti rem j := by
    apply Finset.sum_congr rfl
    intro j hj
    exact geti_set_ne rem i j v (Finset.ne_of_mem_erase hj).symm
  rw [h1, h2]
  ring

theorem single_le_sumRemInt (rem : List Int) (n i : Nat) (hi : i < n)
    (hnn : ∀ j, j < n → 0 ≤ geti rem j) : geti rem i ≤ sumRemInt rem n := by
  unfold sumRemInt
  apply Finset.single_le_sum (fun j hj => hnn j (Finset.mem_range.mp hj))
    (Finset.mem_range.mpr hi)

theorem sumRemInt_le_sumBurst (pr : List Proc) (rem : List Int)
    (hle : ∀ j, j < pr.length → geti rem j ≤ (getP pr j).burst) :
    sumRemInt rem pr.length ≤ sumBurst pr := by
  unfold sumRemInt sumBurst
  apply Finset.sum_le_sum
  intro j hj
  exact hle j (Finset.mem_range.mp hj)

theorem sumRemInt_map_burst (pr : List Proc) :
    sumRemInt (pr.map Proc.burst) pr.length = sumBurst pr := by
  unfold sumRemInt sumBurst
  apply Finset.sum_congr rfl
  intro j hj
  exact geti_map_burst pr j (Finset.mem_range.mp hj)

theorem maxArrival_nonneg (pr : List Proc) : 0 ≤ maxArrival pr := by
  unfold maxArrival
  induction pr with
  | nil => simp
  | cons p l ih =>
    simp only [List.map_cons, List.foldr_cons]
    exact le_trans ih (le_max_right _ _)

theorem arrival_le_maxArrival (pr : List Proc) (p : Proc) (hp : p ∈ pr) :
    p.arrival ≤ maxArrival pr := by
  unfold maxArrival
  induction pr with
  | nil => simp at hp
  | cons q l ih =>
    simp only [List.map_cons, List.foldr_cons]
    rcases List.mem_cons.mp hp with rfl | hp'
    · exact le_max_left _ _
    · exact le_trans (ih hp') (le_max_right _ _)

theorem getP_arrival_le_maxArrival (pr : List Proc) (i : Nat) (hi : i < pr.length) :
    (getP pr i).arrival ≤ maxArrival pr :=
  arrival_le_maxArrival pr _ (getP_mem pr i hi)

/-- Loop invariant of the SRTF driver. -/
structure SRTFInv (pr : List Proc) (ord : List Nat) (t0 t : Int) (k doneCnt : Nat)
    (rem : List Int) (hp : List Nat) (cur seg_start : Int) (sv : List Seg)
    (start end_ : List Int) : Prop where
  hk : k ≤ pr.length
  hcount : doneCnt + hp.length = k
  hnd : hp.Nodup
  ht0 : 0 ≤ t0
  ht : t0 ≤ t
  hsl : start.length = pr.length
  hel : end_.length = pr.length
  hrl : rem.length = pr.length
  hrem : ∀ j, j < pr.length → 0 ≤ geti rem j ∧ geti rem j ≤ (getP pr j).burst
  hhp : ∀ j ∈ hp, j < pr.length ∧ 1 ≤ geti rem j ∧ geti end_ j = -1 ∧
    ∃ p, p < k ∧ ord.getD p 0 = j
  hadm : ∀ p, p < k → ord.getD p 0 ∈ hp ∨ geti end_ (ord.getD p 0) ≠ -1
  hun : ∀ p, k ≤ p → p < pr.length → geti end_ (ord.getD p 0) = -1 ∧
    ord.getD p 0 ∉ hp ∧ geti rem (ord.getD p 0) = (getP pr (ord.getD p 0)).burst ∧
    geti start (ord.getD p 0) = -1
  hcomp : ∀ j, j < pr.length → geti end_ j ≠ -1 →
    (getP pr j).burst ≤ geti end_ j - geti start j
  hstart : ∀ j, j < pr.length → geti start j ≠ -1 →
    geti start j + ((getP pr j).burst - geti rem j) ≤ t
  hstart0 : ∀ j, j < pr.length → geti start j = -1 → geti rem j = (getP pr j).burst
  hsum : t + sumRemInt rem pr.length ≤ maxArrival pr + sumBurst pr
  hseg : CleanPids pr →
    (cur = -2 ∧ segsChain t0 sv t) ∨
    (cur ≠ -1 ∧ cur ≠ -2 ∧ segsChain t0 sv seg_start ∧ seg_start < t)

theorem srtf_go_succ (pr : List Proc) (ord : List Nat) (fuel : Nat) (t : Int)
    (k doneCnt : Nat) (rem : List Int) (hp : List Nat) (cur seg_start : Int)
    (sv : List Seg) (start end_ : List Int) :
    srtf_go pr ord (fuel + 1) t k doneCnt rem hp cur seg_start sv start end_ =
    (if doneCnt < pr.length then
      let a := admit_heap (less_srtf pr rem) pr ord t k hp
      if a.2.length = 0 then
        if a.1 < pr.length then
          let nextA := (getP pr (ord.getD a.1 0)).arrival
          let sv₁ := if cur ≠ -1 ∧ cur ≠ -2 then sv ++ [⟨cur, seg_start, t⟩] else sv
          srtf_go pr ord fuel nextA a.1 doneCnt rem a.2 (-2) nextA
            (sv₁ ++ [⟨-1, t, nextA⟩]) start end_
        else some ⟨seg_coalesce (close_seg sv cur seg_start t), start, end_⟩
      else
        let i := a.2.getD 0 0
        let start' := if geti start i = -1 then start.set i t else start
        let next_arrival := if a.1 < pr.length then (getP pr (ord.getD a.1 0)).arrival
          else INT_MAX
        let finish_time := t + geti rem i
        let sv' := if cur ≠ (getP pr i).pid ∧ cur ≠ -2 then sv ++ [⟨cur, seg_start, t⟩] else sv
        let seg_start' := if cur ≠ (getP pr i).pid then t else seg_start
        if finish_time ≤ next_arrival then
          let rem' := rem.set i 0
          srtf_go pr ord fuel finish_time a.1 (doneCnt + 1) rem'
            (heap_pop (less_srtf pr rem') a.2).2 (getP pr i).pid seg_start' sv'
            start' (end_.set i finish_time)
        else
          let run_len := next_arrival - t
          let rem' := rem.set i (geti rem i - run_len)
          srtf_go pr ord fuel next_arrival a.1 doneCnt rem'
            (heap_push (less_srtf pr rem') (heap_pop (less_srtf pr rem') a.2).2 i)
            (getP pr i).pid seg_start' sv' start' end_
    else some ⟨seg_coalesce (close_seg sv cur seg_start t), start, end_⟩) := rfl

/-- Admission preserves the SRTF invariant. -/
theorem srtf_admit_inv (pr : List Proc) (hv : ValidInput pr) (ord : List Nat)
    (hlen : ord.length = pr.length) (hond : ord.Nodup)
    (hordj : ∀ j ∈ ord, j < pr.length) (t0 t : Int) (k doneCnt : Nat)
    (rem : List Int) (hp : List Nat) (cur seg_start : Int) (sv : List Seg)
    (start end_ : List Int)
    (hinv : SRTFInv pr ord t0 t k doneCnt rem hp cur seg_start sv start end_)
    (k2 : Nat) (hp2 : List Nat)
    (heq : admit_heap (less_srtf pr rem) pr ord t k hp = (k2, hp2)) :
    SRTFInv pr ord t0 t k2 doneCnt rem hp2 cur seg_start sv start end_ ∧ k ≤ k2 ∧
    (k2 < pr.length → t < (getP pr (ord.getD k2 0)).arrival) := by
  have hmem : ∀ j ∈ hp, ∃ p, p < k ∧ ord.getD p 0 = j := fun j hj => (hinv.hhp j hj).2.2.2
  rcases admit_heap_full (less_srtf pr rem) pr ord t hlen hond k hp k2 hp2 heq hinv.hk hmem
    hinv.hnd with ⟨a1, a2, a3, a4, a5, a6, a7⟩
  have hslice : (ordSlice ord k k2).length = k2 - k := by
    unfold ordSlice
    simp only [List.length_drop, List.length_take]
    omega
  refine ⟨?_, a2, a3⟩
  refine ⟨a1, ?_, a7, hinv.ht0, hinv.ht, hinv.hsl, hinv.hel, hinv.hrl, hinv.hrem, ?_, ?_, ?_,
    hinv.hcomp, hinv.hstart, hinv.hstart0, hinv.hsum, hinv.hseg⟩
  · have := a5.length_eq
    rw [List.length_append, hslice] at this
    have := hinv.hcount
    omega
  · intro j hj
    rcases List.mem_append.mp (a5.mem_iff.mp hj) with hjs | hjh
    · rcases ordSlice_mem ord k k2 (by omega) j hjs with ⟨p, hp1, hp2', hp3⟩
      have hju := hinv.hun p hp1 (by omega)
      rw [hp3] at hju
      have hjn : j < pr.length := by
        rw [← hp3]
        apply hordj
        have hpl : p < ord.length := by omega
        rw [List.getD_eq_getElem ord 0 hpl]
        exact List.getElem_mem hpl
      refine ⟨hjn, ?_, hju.1, ⟨p, by omega, hp3⟩⟩
      rw [hju.2.2.1]
      exact valid_burst_pos pr hv j hjn
    · rcases hinv.hhp j hjh with ⟨b1, b2, b3, p, b4, b5⟩
      exact ⟨b1, b2, b3, p, by omega, b5⟩
  · intro p hpk
    rcases Nat.lt_or_ge p k with hpk' | hpk'
    · rcases hinv.hadm p hpk' with hin | hne
      · exact Or.inl (a5.mem_iff.mpr (List.mem_append.mpr (Or.inr hin)))
      · exact Or.inr hne
    · exact Or.inl (a5.mem_iff.mpr (List.mem_append.mpr
        (Or.inl (ordSlice_mem_of ord k k2 p hpk' hpk (by omega)))))
  · intro p hp1 hp2'
    have hold := hinv.hun p (by omega) hp2'
    refine ⟨hold.1, ?_, hold.2.2⟩
    intro hin
    rcases List.mem_append.mp (a5.mem_iff.mp hin) with hjs | hjh
    · rcases ordSlice_mem ord k k2 (by omega) _ hjs with ⟨q', hq1, hq2, hq3⟩
      have := ord_getD_inj ord hond q' p (by omega) (by omega) hq3
      omega
    · exact hold.2.1 hjh

theorem srtf_go_master (pr : List Proc) (hv : ValidInput pr) (hb : Bounded pr)
    (ord : List Nat) (hlen : ord.length = pr.length) (hond : ord.Nodup)
    (hordj : ∀ j ∈ ord, j < pr.length) (hmemord : ∀ j, j < pr.length → j ∈ ord) (t0 : Int) :
    ∀ (fuel : Nat) (t : Int) (k doneCnt : Nat) (rem : List Int) (hp : List Nat)
    (cur seg_start : Int) (sv : List Seg) (start end_ : List Int),
    SRTFInv pr ord t0 t k doneCnt rem hp cur seg_start sv start end_ →
    2 * (pr.length - doneCnt) +
      (pr.length - (admit_heap (less_srtf pr rem) pr ord t k hp).1) + 1 ≤ fuel →
    ∃ r : AlgoRes, srtf_go pr ord fuel t k doneCnt rem hp cur seg_start sv start end_ =
      some r ∧
      (∀ j, j < pr.length → (getP pr j).burst ≤ geti r.end_ j - geti r.start j) ∧
      (CleanPids pr → ∃ T, segsChain t0 r.segs T ∧ OwnersAlt r.segs) := by
  intro fuel
  induction fuel with
  | zero =>
    intro t k doneCnt rem hp cur seg_start sv start end_ _ hfuel
    omega
  | succ fuel ih =>
    intro t k doneCnt rem hp cur seg_start sv start end_ hinv hfuel
    rw [srtf_go_succ]
    have hts := hinv.ht
    have hts0 := hinv.ht0
    by_cases hdn : doneCnt < pr.length
    · simp only [hdn, if_true]
      rcases hA : admit_heap (less_srtf pr rem) pr ord t k hp with ⟨k2, hp2⟩
      rw [hA] at hfuel
      simp only [hA]
      rcases srtf_admit_inv pr hv ord hlen hond hordj t0 t k doneCnt rem hp cur seg_start
        sv start end_ hinv k2 hp2 hA with ⟨hinv2, hkk2, hbound⟩
      by_cases hemp : hp2.length = 0
      · simp only [hemp, if_true]
        have hp2nil : hp2 = [] := List.length_eq_zero.mp hemp
        by_cases hklt : k2 < pr.length
        · simp only [hklt, if_true]
          subst hp2nil
          have htlt : t < (getP pr (ord.getD k2 0)).arrival := hbound hklt
          have harrmax : (getP pr (ord.getD k2 0)).arrival ≤ maxArrival pr :=
            getP_arrival_le_maxArrival pr _ (by
              apply hordj
              have hpl : k2 < ord.length := by omega
              rw [List.getD_eq_getElem ord 0 hpl]
              exact List.getElem_mem hpl)
          have hsum2 := hinv2.hsum
          have hsumle : sumRemInt rem pr.length ≤ sumBurst pr :=
            sumRemInt_le_sumBurst pr rem (fun j hj => (hinv2.hrem j hj).2)
          have hinv3 : SRTFInv pr ord t0 ((getP pr (ord.getD k2 0)).arrival) k2 doneCnt rem
              [] (-2) ((getP pr (ord.getD k2 0)).arrival)
              ((if cur ≠ -1 ∧ cur ≠ -2 then sv ++ [⟨cur, seg_start, t⟩] else sv) ++
                [⟨-1, t, (getP pr (ord.getD k2 0)).arrival⟩]) start end_ := by
            refine ⟨hinv2.hk, hinv2.hcount, hinv2.hnd, hinv2.ht0, by omega, hinv2.hsl,
              hinv2.hel, hinv2.hrl, hinv2.hrem, hinv2.hhp, hinv2.hadm, hinv2.hun,
              hinv2.hcomp, ?_, hinv2.hstart0, by omega, ?_⟩
            · intro j hjn hjs
              have := hinv2.hstart j hjn hjs
              omega
            · intro hclean
              left
              refine ⟨rfl, ?_⟩
              rw [segsChain_snoc]
              refine ⟨?_, htlt, rfl⟩
              rcases hinv2.hseg hclean with ⟨hc2, hch⟩ | ⟨hc1, hc2, hch, hlt⟩
              · rw [if_neg (by intro hc; exact hc.2 hc2)]
                exact hch
              · rw [if_pos ⟨hc1, hc2⟩, segsChain_snoc]
                exact ⟨hch, hlt, rfl⟩
          rcases hB : admit_heap (less_srtf pr rem) pr ord ((getP pr (ord.getD k2 0)).arrival)
            k2 [] with ⟨k3, hp3⟩
          rcases srtf_admit_inv pr hv ord hlen hond hordj t0 _ k2 doneCnt rem []
            (-2) _ _ start end_ hinv3 k3 hp3 hB with ⟨_, hk23, hbound3⟩
          have hprog : k2 < k3 := by
            rcases Nat.eq_or_lt_of_le hk23 with rfl | h
            · have := hbound3 hklt
              omega
            · exact h
          apply ih _ _ _ _ _ _ _ _ _ _ hinv3
          rw [hB]
          omega
        · simp only [hklt, if_false]
          exfalso
          have := hinv2.hcount
          subst hp2nil
          simp at this
          omega
      · simp only [hemp, if_false]
        rcases hp2 with _ | ⟨i, hrest⟩
        · simp at hemp
        · dsimp only
          rcases hinv2.hhp i (List.mem_cons_self i hrest) with ⟨hi, hrem1, hie, pi, hpi, hpie⟩
          have hbur : 1 ≤ (getP pr i).burst := valid_burst_pos pr hv i hi
          have hremi := hinv2.hrem i hi
          have hndc := List.nodup_cons.mp hinv2.hnd
          have hgd : (i :: hrest).getD 0 0 = i := rfl
          rw [hgd]
          have hstart'len : (if geti start i = -1 then start.set i t else start).length =
              pr.length := by
            split
            · rw [List.length_set]; exact hinv2.hsl
            · exact hinv2.hsl
          have hstart'i : geti (if geti start i = -1 then start.set i t else start) i ≠ -1 ∧
              geti (if geti start i = -1 then start.set i t else start) i +
                ((getP pr i).burst - geti rem i) ≤ t := by
            split
            · next hc =>
              rw [geti_set_self start i t (by rw [hinv2.hsl]; exact hi)]
              have := hinv2.hstart0 i hi hc
              omega
            · next hc =>
              exact ⟨hc, hinv2.hstart i hi hc⟩
          have hstart'ne : ∀ j, j ≠ i →
              geti (if geti start i = -1 then start.set i t else start) j = geti start j := by
            intro j hj
            split
            · exact geti_set_ne start i j t (fun hc => hj hc.symm)
            · rfl
          have hsumfin : t + geti rem i ≤ maxArrival pr + sumBurst pr := by
            have h1 := single_le_sumRemInt rem pr.length i hi
              (fun j hj => (hinv2.hrem j hj).1)
            have h2 := hinv2.hsum
            omega
          have hsegnew : CleanPids pr →
              ((getP pr i).pid ≠ -1 ∧ (getP pr i).pid ≠ -2 ∧
                segsChain t0 (if cur ≠ (getP pr i).pid ∧ cur ≠ -2 then
                  sv ++ [⟨cur, seg_start, t⟩] else sv)
                  (if cur ≠ (getP pr i).pid then t else seg_start)) := by
            intro hclean
            have hpid := hclean (getP pr i) (getP_mem pr i hi)
            refine ⟨hpid.1, hpid.2, ?_⟩
            rcases hinv2.hseg hclean with ⟨hc2, hch⟩ | ⟨hc1, hc2, hch, hlt⟩
            · rw [if_neg (by intro hc; exact hc.2 hc2)]
              rw [if_pos (by rw [hc2]; exact fun hc => hpid.2 hc.symm)]
              exact hch
            · by_cases hcp : cur = (getP pr i).pid
              · rw [if_neg (by intro hc; exact hc.1 hcp), if_neg (by intro hc; exact hc hcp)]
                exact hch
              · rw [if_pos ⟨hcp, hc2⟩, if_pos hcp, segsChain_snoc]
                exact ⟨hch, hlt, rfl⟩
          have hsegstart_lt : CleanPids pr → ∀ dt : Int, 1 ≤ dt →
              (if cur ≠ (getP pr i).pid then t else seg_start) < t + dt := by
            intro hclean dt hdt
            have hpid := hclean (getP pr i) (getP_mem pr i hi)
            by_cases hcp : cur = (getP pr i).pid
            · rw [if_neg (fun hc => hc hcp)]
              rcases hinv2.hseg hclean with ⟨hc2, _⟩ | ⟨_, _, _, hlt⟩
              · exfalso
                rw [hc2] at hcp
                exact hpid.2 hcp.symm
              · omega
            · rw [if_pos hcp]
              omega
          by_cases hfin : t + geti rem i ≤
              (if k2 < pr.length then (getP pr (ord.getD k2 0)).arrival else INT_MAX)
          · rw [if_pos hfin]
            have hpopp := heap_pop_perm (less_srtf pr (rem.set i 0)) i hrest
            have hinv3 : SRTFInv pr ord t0 (t + geti rem i) k2 (doneCnt + 1) (rem.set i 0)
                (heap_pop (less_srtf pr (rem.set i 0)) (i :: hrest)).2 (getP pr i).pid
                (if cur ≠ (getP pr i).pid then t else seg_start)
                (if cur ≠ (getP pr i).pid ∧ cur ≠ -2 then sv ++ [⟨cur, seg_start, t⟩] else sv)
                (if geti start i = -1 then start.set i t else start)
                (end_.set i (t + geti rem i)) := by
              refine ⟨hinv2.hk, ?_, hpopp.symm.nodup hndc.2, hinv2.ht0, by omega, hstart'len,
                (by rw [List.length_set]; exact hinv2.hel),
                (by rw [List.length_set]; exact hinv2.hrl), ?_, ?_, ?_, ?_, ?_, ?_, ?_, ?_,
                ?_⟩
              · have := hpopp.length_eq
                have h2 := hinv2.hcount
                simp at h2
                omega
              · intro j hjn
                by_cases hji : j = i
                · subst hji
                  rw [geti_set_self rem j 0 (by rw [hinv2.hrl]; exact hjn)]
                  omega
                · rw [geti_set_ne rem i j 0 (fun hc => hji hc.symm)]
                  exact hinv2.hrem j hjn
              · intro j hj
                have hjr : j ∈ hrest := hpopp.mem_iff.mp hj
                rcases hinv2.hhp j (List.mem_cons_of_mem i hjr) with ⟨b1, b2, q', b3, b4⟩
                have hji : j ≠ i := fun hc => hndc.1 (hc ▸ hjr)
                rw [geti_set_ne rem i j 0 (fun hc => hji hc.symm),
                  geti_set_ne end_ i j _ (fun hc => hji hc.symm)]
                exact ⟨b1, b2, q', b3, b4⟩
              · intro p hpk
                rcases hinv2.hadm p hpk with hinq | hne
                · rcases List.mem_cons.mp hinq with hii | hinr
                  · right
                    rw [hii, geti_set_self end_ i _ (by rw [hinv2.hel]; exact hi)]
                    omega
                  · left
                    exact hpopp.mem_iff.mpr hinr
                · right
                  by_cases hji : ord.getD p 0 = i
                  · rw [hji, geti_set_self end_ i _ (by rw [hinv2.hel]; exact hi)]
                    omega
                  · rw [geti_set_ne end_ i _ _ (fun hc => hji hc.symm)]
                    exact hne
              · intro p hp1 hp2'
                have hold := hinv2.hun p hp1 hp2'
                have hpo : ord.getD p 0 ≠ i := by
                  intro hc
                  have := ord_getD_inj ord hond p pi (by omega) (by omega)
                    (hc.trans hpie.symm)
                  omega
                refine ⟨?_, ?_, ?_, ?_⟩
                · rw [geti_set_ne end_ i _ _ (fun hc => hpo hc.symm)]
                  exact hold.1
                · intro hc
                  exact hold.2.1 (List.mem_cons_of_mem i (hpopp.mem_iff.mp hc))
                · rw [geti_set_ne rem i _ _ (fun hc => hpo hc.symm)]
                  exact hold.2.2.1
                · rw [hstart'ne _ hpo]
                  exact hold.2.2.2
              · intro j hjn hje
                by_cases hji : j = i
                · subst hji
                  rw [geti_set_self end_ j _ (by rw [hinv2.hel]; exact hjn)]
                  have h1 := hstart'i.2
                  omega
                · rw [geti_set_ne end_ i j _ (fun hc => hji hc.symm)] at hje ⊢
                  rw [hstart'ne j hji]
                  exact hinv2.hcomp j hjn hje
              · intro j hjn hjs
                by_cases hji : j = i
                · subst hji
                  rw [geti_set_self rem j 0 (by rw [hinv2.hrl]; exact hjn)]
                  have := hstart'i.2
                  omega
                · rw [hstart'ne j hji] at hjs ⊢
                  rw [geti_set_ne rem i j 0 (fun hc => hji hc.symm)]
                  have h1 := hinv2.hstart j hjn hjs
                  have h2 := hremi.1
                  omega
              · intro j hjn hjs
                by_cases hji : j = i
                · subst hji
                  exact absurd hjs hstart'i.1
                · rw [hstart'ne j hji] at hjs
                  rw [geti_set_ne rem i j 0 (fun hc => hji hc.symm)]
                  exact hinv2.hstart0 j hjn hjs
              · have hset := sumRemInt_set rem pr.length i 0 hi hinv2.hrl
                have h2 := hinv2.hsum
                omega
              · intro hclean
                right
                rcases hsegnew hclean with ⟨hp1, hp2', hch⟩
                exact ⟨hp1, hp2', hch, hsegstart_lt hclean (geti rem i) hrem1⟩
            rcases hC : admit_heap (less_srtf pr (rem.set i 0)) pr ord (t + geti rem i) k2
              (heap_pop (less_srtf pr (rem.set i 0)) (i :: hrest)).2 with ⟨k3, hp3⟩
            rcases srtf_admit_inv pr hv ord hlen hond hordj t0 _ k2 (doneCnt + 1) _ _ _ _ _
              _ _ hinv3 k3 hp3 hC with ⟨_, hk23, _⟩
            apply ih _ _ _ _ _ _ _ _ _ _ hinv3
            rw [hC]
            omega
          · rw [if_neg hfin]
            have hk2lt : k2 < pr.length := by
              by_contra hc
              rw [if_neg hc] at hfin
              have : t + geti rem i ≤ INT_MAX := by
                have h1 := hsumfin
                have h2 := hb
                unfold Bounded at h2
                omega
              exact hfin this
            rw [if_pos hk2lt] at hfin ⊢
            push_neg at hfin
            have hrun1 : 1 ≤ (getP pr (ord.getD k2 0)).arrival - t := by
              have := hbound hk2lt
              omega
            set runl : Int := (getP pr (ord.getD k2 0)).arrival - t with hrunl
            have hremi2 : geti (rem.set i (geti rem i - runl)) i = geti rem i - runl :=
              geti_set_self rem i _ (by rw [hinv2.hrl]; exact hi)
            have hpopp := heap_pop_perm (less_srtf pr (rem.set i (geti rem i - runl))) i hrest
            have hpushp := heap_push_perm (less_srtf pr (rem.set i (geti rem i - runl)))
              (heap_pop (less_srtf pr (rem.set i (geti rem i - runl))) (i :: hrest)).2 i
            have hhp3perm : List.Perm
                (heap_push (less_srtf pr (rem.set i (geti rem i - runl)))
                  (heap_pop (less_srtf pr (rem.set i (geti rem i - runl))) (i :: hrest)).2 i)
                (i :: hrest) := hpushp.trans (hpopp.cons i)
            have hinv3 : SRTFInv pr ord t0 ((getP pr (ord.getD k2 0)).arrival) k2 doneCnt
                (rem.set i (geti rem i - runl))
                (heap_push (less_srtf pr (rem.set i (geti rem i - runl)))
                  (heap_pop (less_srtf pr (rem.set i (geti rem i - runl))) (i :: hrest)).2 i)
                (getP pr i).pid
                (if cur ≠ (getP pr i).pid then t else seg_start)
                (if cur ≠ (getP pr i).pid ∧ cur ≠ -2 then sv ++ [⟨cur, seg_start, t⟩] else sv)
                (if geti start i = -1 then start.set i t else start) end_ := by
              refine ⟨hinv2.hk, ?_, hhp3perm.symm.nodup hinv2.hnd, hinv2.ht0, by omega,
                hstart'len,
                hinv2.hel, (by rw [List.length_set]; exact hinv2.hrl), ?_, ?_, ?_, ?_,
                ?_, ?_, ?_, ?_, ?_⟩
              · have := hhp3perm.length_eq
                have h2 := hinv2.hcount
                simp only [List.length_cons] at h2 this
                omega
              · intro j hjn
                by_cases hji : j = i
                · subst hji
                  rw [hremi2]
                  have := hremi
                  omega
                · rw [geti_set_ne rem i j _ (fun hc => hji hc.symm)]
                  exact hinv2.hrem j hjn
              · intro j hj
                rcases List.mem_cons.mp (hhp3perm.mem_iff.mp hj) with rfl | hjr
                · rw [hremi2]
                  refine ⟨hi, by omega, hie, pi, hpi, hpie⟩
                · rcases hinv2.hhp j (List.mem_cons_of_mem i hjr) with ⟨b1, b2, q', b3, b4⟩
                  have hji : j ≠ i := fun hc => hndc.1 (hc ▸ hjr)
                  rw [geti_set_ne rem i j _ (fun hc => hji hc.symm)]
                  exact ⟨b1, b2, q', b3, b4⟩
              · intro p hpk
                rcases hinv2.hadm p hpk with hinq | hne
                · left
                  exact hhp3perm.mem_iff.mpr hinq
                · exact Or.inr hne
              · intro p hp1 hp2'
                have hold := hinv2.hun p hp1 hp2'
                have hpo : ord.getD p 0 ≠ i := by
                  intro hc
                  have := ord_getD_inj ord hond p pi (by omega) (by omega)
                    (hc.trans hpie.symm)
                  omega
                refine ⟨hold.1, ?_, ?_, ?_⟩
                · intro hc
                  rcases List.mem_cons.mp (hhp3perm.mem_iff.mp hc) with hii | hinr
                  · exact hpo hii
                  · exact hold.2.1 (List.mem_cons_of_mem i hinr)
                · rw [geti_set_ne rem i _ _ (fun hc => hpo hc.symm)]
                  exact hold.2.2.1
                · rw [hstart'ne _ hpo]
                  exact hold.2.2.2
              · intro j hjn hje
                by_cases hji : j = i
                · subst hji
                  exact absurd hie hje
                · rw [hstart'ne j hji]
                  exact hinv2.hcomp j hjn hje
              · intro j hjn hjs
                by_cases hji : j = i
                · subst hji
                  rw [hremi2]
                  have := hstart'i.2
                  omega
                · rw [hstart'ne j hji] at hjs ⊢
                  rw [geti_set_ne rem i j _ (fun hc => hji hc.symm)]
                  have h1 := hinv2.hstart j hjn hjs
                  omega
              · intro j hjn hjs
                by_cases hji : j = i
                · subst hji
                  exact absurd hjs hstart'i.1
                · rw [hstart'ne j hji] at hjs
                  rw [geti_set_ne rem i j _ (fun hc => hji hc.symm)]
                  exact hinv2.hstart0 j hjn hjs
              · have hset := sumRemInt_set rem pr.length i (geti rem i - runl) hi hinv2.hrl
                have h2 := hinv2.hsum
                omega
              · intro hclean
                right
                rcases hsegnew hclean with ⟨hp1, hp2', hch⟩
                refine ⟨hp1, hp2', hch, ?_⟩
                have := hsegstart_lt hclean runl hrun1
                omega
            rcases hC : admit_heap (less_srtf pr (rem.set i (geti rem i - runl))) pr ord
              ((getP pr (ord.getD k2 0)).arrival) k2
              (heap_push (less_srtf pr (rem.set i (geti rem i - runl)))
                (heap_pop (less_srtf pr (rem.set i (geti rem i - runl))) (i :: hrest)).2 i)
              with ⟨k3, hp3⟩
            rcases srtf_admit_inv pr hv ord hlen hond hordj t0 _ k2 doneCnt _ _ _ _ _ _ _
              hinv3 k3 hp3 hC with ⟨_, hk23, hbound3⟩
            have hprog : k2 < k3 := by
              rcases Nat.eq_or_lt_of_le hk23 with rfl | h
              · have := hbound3 hk2lt
                omega
              · exact h
            apply ih _ _ _ _ _ _ _ _ _ _ hinv3
            rw [hC]
            omega
    · simp only [hdn, if_false]
      refine ⟨⟨seg_coalesce (close_seg sv cur seg_start t), start, end_⟩, rfl, ?_, ?_⟩
      · intro j hj
        have h1 := hinv.hcount
        have h2 := hinv.hk
        have hlen0 : hp.length = 0 := by omega
        have hkn : k = pr.length := by omega
        have hpnil : hp = [] := List.length_eq_zero.mp hlen0
        rcases mem_getD_pos ord j (hmemord j hj) with ⟨p, hp1, hp2'⟩
        rcases hinv.hadm p (by omega) with hin | hne
        · rw [hpnil] at hin
          simp at hin
        · rw [hp2'] at hne
          exact hinv.hcomp j hj hne
      · intro hclean
        rcases hinv.hseg hclean with ⟨hc2, hch⟩ | ⟨hc1, hc2, hch, hlt⟩
        · unfold close_seg
          rw [if_neg (by intro hc; exact hc hc2)]
          rcases seg_coalesce_ok sv t0 t hch with ⟨h1, h2⟩
          exact ⟨t, h1, h2⟩
        · unfold close_seg
          rw [if_pos hc2]
          have hch2 : segsChain t0 (sv ++ [⟨cur, seg_start, t⟩]) t := by
            rw [segsChain_snoc]
            exact ⟨hch, hlt, rfl⟩
          rcases seg_coalesce_ok _ t0 t hch2 with ⟨h1, h2⟩
          exact ⟨t, h1, h2⟩

theorem init_t_le_maxArrival (pr : List Proc) : init_t pr (make_ord pr) ≤ maxArrival pr := by
  unfold init_t
  split
  · next hc =>
    exact getP_arrival_le_maxArrival pr _ (make_ord_getD_lt pr 0 hc.1)
  · exact maxArrival_nonneg pr

theorem run_srtf_spec (pr : List Proc) (hv : ValidInput pr) (hb : Bounded pr) :
    ∃ r : AlgoRes, run_srtf pr = some r ∧
      (∀ j, j < pr.length → (getP pr j).burst ≤ geti r.end_ j - geti r.start j) ∧
      (CleanPids pr →
        ∃ T, segsChain (init_t pr (make_ord pr)) r.segs T ∧ OwnersAlt r.segs) := by
  have hordj : ∀ j ∈ make_ord pr, j < pr.length := fun j hj => (make_ord_mem pr j).mp hj
  have hmemord : ∀ j, j < pr.length → j ∈ make_ord pr := fun j hj =>
    (make_ord_mem pr j).mpr hj
  have ht0 : 0 ≤ init_t pr (make_ord pr) := init_t_nonneg pr hv _ hordj
  unfold run_srtf
  dsimp only
  apply srtf_go_master pr hv hb (make_ord pr) (make_ord_length pr) (make_ord_nodup pr)
    hordj hmemord
  · refine ⟨by omega, rfl, List.nodup_nil, ht0, le_refl _, List.length_replicate _ _,
      List.length_replicate _ _, List.length_map _ _, ?_, ?_, ?_, ?_, ?_, ?_, ?_, ?_, ?_⟩
    · intro j hjn
      rw [geti_map_burst pr j hjn]
      have := valid_burst_pos pr hv j hjn
      omega
    · intro j hj
      simp at hj
    · intro p hp
      omega
    · intro p _ hp
      refine ⟨geti_replicate _ _ _ (make_ord_getD_lt pr p hp), List.not_mem_nil _,
        geti_map_burst pr _ (make_ord_getD_lt pr p hp),
        geti_replicate _ _ _ (make_ord_getD_lt pr p hp)⟩
    · intro j hjn hje
      rw [geti_replicate _ _ _ hjn] at hje
      omega
    · intro j hjn hjs
      rw [geti_replicate _ _ _ hjn] at hjs
      omega
    · intro j hjn _
      exact geti_map_burst pr j hjn
    · rw [sumRemInt_map_burst]
      have := init_t_le_maxArrival pr
      omega
    · intro _
      left
      exact ⟨rfl, rfl⟩
  · unfold srtf_fuel
    omega

/-! ### RR with large quantum refines FCFS -/

/-- Largest burst of the input (0 when empty). -/
def maxBurst (pr : List Proc) : Int := (pr.map Proc.burst).foldr max 0

theorem burst_le_maxBurst (pr : List Proc) (p : Proc) (hp : p ∈ pr) :
    p.burst ≤ maxBurst pr := by
  unfold maxBurst
  induction pr with
  | nil => simp at hp
  | cons q l ih =>
    simp only [List.map_cons, List.foldr_cons]
    rcases List.mem_cons.mp hp with rfl | hp'
    · exact le_max_left _ _
    · exact le_trans (ih hp') (le_max_right _ _)

theorem ordSlice_append (ord : List Nat) (a b c : Nat) (h1 : a ≤ b) (h2 : b ≤ c)
    (h3 : b ≤ ord.length) :
    ordSlice ord a b ++ ordSlice ord b c = ordSlice ord a c := by
  unfold ordSlice
  have htt : (ord.take c).take b = ord.take b := by
    rw [List.take_take]
    congr 1
    omega
  have hsplit : ord.take c = ord.take b ++ (ord.take c).drop b := by
    conv_lhs => rw [← List.take_append_drop b (ord.take c)]
    rw [htt]
  calc (ord.take b).drop a ++ (ord.take c).drop b
      = (ord.take b ++ (ord.take c).drop b).drop a := by
        rw [List.drop_append_of_le_length (by simp; omega)]
    _ = (ord.take c).drop a := by rw [← hsplit]

theorem drop_cons_getD (ord : List Nat) (d : Nat) (h : d < ord.length) :
    ord.drop d = ord.getD d 0 :: ord.drop (d+1) := by
  rw [List.drop_eq_getElem_cons h, List.getD_eq_getElem ord 0 h]

/-- The start/end/dispatch output of the FCFS loop does not depend on the
segment accumulator. -/
theorem fcfs_go_sv_indep (pr : List Proc) : ∀ (rest : List Nat) (t : Int)
    (sv sv' : List Seg) (start end_ : List Int) (disp : List Nat),
    (fcfs_go pr rest t sv start end_ disp).start =
      (fcfs_go pr rest t sv' start end_ disp).start ∧
    (fcfs_go pr rest t sv start end_ disp).end_ =
      (fcfs_go pr rest t sv' start end_ disp).end_ ∧
    (fcfs_go pr rest t sv start end_ disp).disp =
      (fcfs_go pr rest t sv' start end_ disp).disp
  | [], _, _, _, _, _, _ => ⟨rfl, rfl, rfl⟩
  | i :: rest, t, sv, sv', start, end_, disp =>
    fcfs_go_sv_indep pr rest _ _ _ _ _ _

/-- Lockstep invariant relating a mid-run RR state (quantum at least every
burst) to the FCFS loop on the not-yet-dispatched suffix. -/
structure RRFInv (pr : List Proc) (ord : List Nat) (tf t : Int) (d k doneCnt : Nat)
    (rem : List Int) (q : List Nat) (inq : List Bool) (start end_ : List Int) : Prop where
  hdk : d ≤ k
  hk : k ≤ pr.length
  hq : q = ordSlice ord d k
  htf : tf ≤ t
  hdone : doneCnt = d
  hadm_arr : ∀ p, p < k → (getP pr (ord.getD p 0)).arrival ≤ t
  hfront : k < pr.length → t < (getP pr (ord.getD k 0)).arrival
  hhead : d < k → t = max tf ((getP pr (ord.getD d 0)).arrival)
  hrem : ∀ p, d ≤ p → p < pr.length → geti rem (ord.getD p 0) =
    (getP pr (ord.getD p 0)).burst
  hstart_un : ∀ p, d ≤ p → p < pr.length → geti start (ord.getD p 0) = -1
  hinq : ∀ j, j < pr.length → (inq.getD j false = true ↔ j ∈ q)
  hsl : start.length = pr.length
  hel : end_.length = pr.length
  hrl : rem.length = pr.length
  hil : inq.length = pr.length

theorem rr_fcfs_lockstep (pr : List Proc) (hv : ValidInput pr) (quantum : Int)
    (hQ : ∀ p ∈ pr, p.burst ≤ quantum)
    (ord : List Nat) (hlen : ord.length = pr.length) (hond : ord.Nodup)
    (hordj : ∀ j ∈ ord, j < pr.length) :
    ∀ (fuel : Nat) (tf t : Int) (d k doneCnt : Nat) (rem : List Int) (q : List Nat)
    (inq : List Bool) (cur_pid seg_start : Int) (sv : List Seg) (start end_ : List Int)
    (disp : List Nat) (qmax : Nat) (dup : Bool) (r : RRRes),
    RRFInv pr ord tf t d k doneCnt rem q inq start end_ →
    rr_go pr ord quantum fuel t k doneCnt rem q inq cur_pid seg_start sv start end_ disp
      qmax dup = RROut.ok r →
    r.start = (fcfs_go pr (ord.drop d) tf [] start end_ disp).start ∧
    r.end_ = (fcfs_go pr (ord.drop d) tf [] start end_ disp).end_ ∧
    r.disp = (fcfs_go pr (ord.drop d) tf [] start end_ disp).disp := by
  intro fuel
  induction fuel with
  | zero =>
    intro tf t d k doneCnt rem q inq cur_pid seg_start sv start end_ disp qmax dup r _ hok
    rw [rr_go] at hok
    exact absurd hok (by intro h; cases h)
  | succ fuel ih =>
    intro tf t d k doneCnt rem q inq cur_pid seg_start sv start end_ disp qmax dup r hinv hok
    rw [rr_go_succ] at hok
    have hdk0 := hinv.hdk
    have hk0 := hinv.hk
    have htf0 := hinv.htf
    by_cases hdn : doneCnt < pr.length
    · simp only [hdn, if_true] at hok
      have hd : doneCnt = d := hinv.hdone
      rcases hqe : q with _ | ⟨i, qrest⟩
      · subst hqe
        have hdk2 : d = k := by
          by_contra hc
          have hdk : d < k := by omega
          have h0 := hinv.hq
          rw [ordSlice_cons ord d k hdk (by omega)] at h0
          simp at h0
        rcases Nat.lt_or_ge k pr.length with hklt | hkge
        · rw [if_pos hklt] at hok
          have hfresh : ∀ p, k ≤ p → p < pr.length →
              inq.getD (ord.getD p 0) false = false := by
            intro p hp1 hp2
            have hopl : ord.getD p 0 < pr.length := by
              apply hordj
              have hpl : p < ord.length := by omega
              rw [List.getD_eq_getElem ord 0 hpl]
              exact List.getElem_mem hpl
            apply bool_eq_false_of_not_mem
            intro hc
            have := (hinv.hinq _ hopl).mp hc
            rw [hinv.hq, ordSlice_self ord d k (by omega)] at this
            simp at this
          rcases rr_admit_full pr ord ((getP pr (ord.getD k 0)).arrival) false hlen hond
            hordj k [] inq qmax dup (by omega) (by intro j hj; simp at hj) List.nodup_nil
            (by intro j hj; simp at hj) hfresh hinv.hil with
            ⟨k2, q2, inq2, qmax2, b1, b2, b3, b4, b5, b6, b7, b8, b9, b10, b11, b12⟩
          rw [b1] at hok
          dsimp only at hok
          have hfrontA : t < (getP pr (ord.getD k 0)).arrival := hinv.hfront hklt
          have hprog : k < k2 := by
            rcases Nat.eq_or_lt_of_le b2 with rfl | h
            · have := b4 hklt
              omega
            · exact h
          have hinv2 : RRFInv pr ord tf ((getP pr (ord.getD k 0)).arrival) d k2 doneCnt rem
              q2 inq2 start end_ := by
            refine ⟨by omega, b3, ?_, by omega, hd, ?_, b4, ?_, hinv.hrem, hinv.hstart_un,
              ?_, hinv.hsl, hinv.hel, hinv.hrl, b7.trans hinv.hil⟩
            · rw [b6, hdk2]
              rfl
            · intro p hpk
              rcases Nat.lt_or_ge p k with h | h
              · have := hinv.hadm_arr p h
                omega
              · exact b5 p h hpk
            · intro hdklt
              rw [hdk2]
              rw [max_eq_right (le_trans htf0 (le_of_lt hfrontA))]
            · intro j hjn
              rw [b8]
              constructor
              · intro hc
                rcases hc with hc | hc
                · exfalso
                  have := (hinv.hinq j hjn).mp hc
                  rw [hinv.hq, ordSlice_self ord d k (by omega)] at this
                  simp at this
                · rw [b6]
                  exact List.mem_append.mpr (Or.inr hc)
              · intro hc
                rw [b6] at hc
                rcases List.mem_append.mp hc with h | h
                · simp at h
                · exact Or.inr h
          exact ih _ _ _ _ _ _ _ _ _ _ _ _ _ _ _ _ _ hinv2 hok
        · rw [if_neg (by omega)] at hok
          have hr : r = ⟨seg_coalesce (close_seg sv cur_pid seg_start t), start, end_, disp,
              qmax, dup⟩ := by
            cases hok
            rfl
          subst hr
          have hdrop : ord.drop d = [] := by
            apply List.drop_eq_nil_of_le
            omega
          rw [hdrop]
          exact ⟨rfl, rfl, rfl⟩
      · subst hqe
        have hdk : d < k := by
          rcases Nat.lt_or_ge d k with h | h
          · exact h
          · exfalso
            have h0 := hinv.hq
            rw [ordSlice_self ord d k h] at h0
            simp at h0
        have hqcons : (i :: qrest) = ord.getD d 0 :: ordSlice ord (d+1) k := by
          have h0 := hinv.hq
          rw [ordSlice_cons ord d k hdk (by omega)] at h0
          exact h0
        have hieq : i = ord.getD d 0 := by
          injection hqcons with h1 h2
        have hqrest : qrest = ordSlice ord (d+1) k := by
          injection hqcons with h1 h2
        have hin : i < pr.length := by
          rw [hieq]
          apply hordj
          have hpl : d < ord.length := by omega
          rw [List.getD_eq_getElem ord 0 hpl]
          exact List.getElem_mem hpl
        have hbur : 1 ≤ (getP pr i).burst := valid_burst_pos pr hv i hin
        have hremi : geti rem i = (getP pr i).burst := by
          rw [hieq]
          exact hinv.hrem d (le_refl d) (by omega)
        have hstarti : geti start i = -1 := by
          rw [hieq]
          exact hinv.hstart_un d (le_refl d) (by omega)
        have hQi : (getP pr i).burst ≤ quantum := hQ _ (getP_mem pr i hin)
        have hslice : (if geti rem i < quantum then geti rem i else quantum) = geti rem i := by
          split
          · rfl
          · next hc =>
            rw [hremi] at hc ⊢
            omega
        dsimp only at hok
        rw [if_pos hstarti, hslice] at hok
        have hrem0 : geti (rem.set i (geti rem i - geti rem i)) i = 0 := by
          rw [geti_set_self rem i _ (by rw [hinv.hrl]; exact hin)]
          omega
        have hfresh : ∀ p, k ≤ p → p < pr.length →
            (inq.set i false).getD (ord.getD p 0) false = false := by
          intro p hp1 hp2
          have hopl : ord.getD p 0 < pr.length := by
            apply hordj
            have hpl : p < ord.length := by omega
            rw [List.getD_eq_getElem ord 0 hpl]
            exact List.getElem_mem hpl
          by_cases hpo : ord.getD p 0 = i
          · rw [hpo]
            exact getD_set_self_any inq i false false (by rw [hinv.hil]; exact hin)
          · rw [getD_set_ne_any inq i _ false false (fun hc => hpo hc.symm)]
            apply bool_eq_false_of_not_mem
            intro hc
            have hmem := (hinv.hinq _ hopl).mp hc
            rw [hinv.hq] at hmem
            rcases ordSlice_mem ord d k (by omega) _ hmem with ⟨p', hp', hp'2, hp'3⟩
            have := ord_getD_inj ord hond p' p (by omega) (by omega) hp'3
            omega
        have hqrnodup : qrest.Nodup := by
          rw [hqrest]
          exact ordSlice_nodup ord hond (d+1) k
        rcases rr_admit_full pr ord (t + geti rem i) true hlen hond hordj k qrest
          (inq.set i false) qmax dup (by omega)
          (by
            intro j hj
            rw [hqrest] at hj
            rcases ordSlice_mem ord (d+1) k (by omega) j hj with ⟨p, hp1, hp2, hp3⟩
            rw [← hp3]
            apply hordj
            have hpl : p < ord.length := by omega
            rw [List.getD_eq_getElem ord 0 hpl]
            exact List.getElem_mem hpl)
          hqrnodup
          (by
            intro j hj
            rw [hqrest] at hj
            rcases ordSlice_mem ord (d+1) k (by omega) j hj with ⟨p, hp1, hp2, hp3⟩
            exact ⟨p, by omega, hp3⟩)
          hfresh (by rw [List.length_set]; exact hinv.hil) with
          ⟨k2, q2, inq2, qmax2, b1, b2, b3, b4, b5, b6, b7, b8, b9, b10, b11, b12⟩
        rw [b1] at hok
        dsimp only at hok
        rw [if_pos hrem0] at hok
        have ht_disp : t = max tf ((getP pr (ord.getD d 0)).arrival) := hinv.hhead hdk
        have hinv2 : RRFInv pr ord (t + geti rem i) (t + geti rem i) (d+1) k2 (doneCnt + 1)
            (rem.set i (geti rem i - geti rem i)) q2 inq2 (start.set i t)
            (end_.set i (t + geti rem i)) := by
          refine ⟨by omega, b3, ?_, le_refl _, by omega, ?_, b4, ?_, ?_, ?_, ?_,
            (by rw [List.length_set]; exact hinv.hsl),
            (by rw [List.length_set]; exact hinv.hel),
            (by rw [List.length_set]; exact hinv.hrl),
            (by rw [b7, List.length_set]; exact hinv.hil)⟩
          · rw [b6, hqrest]
            exact ordSlice_append ord (d+1) k k2 (by omega) (by omega) (by omega)
          · intro p hpk
            rcases Nat.lt_or_ge p k with h | h
            · have h1 := hinv.hadm_arr p h
              omega
            · exact b5 p h hpk
          · intro hdklt
            have harr : (getP pr (ord.getD (d+1) 0)).arrival ≤ t + geti rem i := by
              rcases Nat.lt_or_ge (d+1) k with h | h
              · have := hinv.hadm_arr (d+1) h
                omega
              · exact b5 (d+1) h hdklt
            rw [max_eq_left harr]
          · intro p hp1 hp2
            have hpo : ord.getD p 0 ≠ i := by
              intro hc
              rw [hieq] at hc
              have := ord_getD_inj ord hond p d (by omega) (by omega) hc
              omega
            rw [geti_set_ne rem i _ _ (fun hc => hpo hc.symm)]
            exact hinv.hrem p (by omega) hp2
          · intro p hp1 hp2
            have hpo : ord.getD p 0 ≠ i := by
              intro hc
              rw [hieq] at hc
              have := ord_getD_inj ord hond p d (by omega) (by omega) hc
              omega
            rw [geti_set_ne start i _ _ (fun hc => hpo hc.symm)]
            exact hinv.hstart_un p (by omega) hp2
          · intro j hjn
            rw [b8]
            by_cases hji : j = i
            · subst hji
              rw [getD_set_self_any inq j false false (by rw [hinv.hil]; exact hjn)]
              constructor
              · intro hc
                rcases hc with hc | hc
                · exact absurd hc Bool.false_ne_true
                · exfalso
                  rcases ordSlice_mem ord k k2 (by omega) _ hc with ⟨p, hp1, hp2, hp3⟩
                  rw [hieq] at hp3
                  have := ord_getD_inj ord hond p d (by omega) (by omega) hp3
                  omega
              · intro hc
                rw [b6] at hc
                rcases List.mem_append.mp hc with h | h
                · exfalso
                  rw [hqrest] at h
                  rcases ordSlice_mem ord (d+1) k (by omega) _ h with ⟨p, hp1, hp2, hp3⟩
                  rw [hieq] at hp3
                  have := ord_getD_inj ord hond p d (by omega) (by omega) hp3
                  omega
                · exfalso
                  rcases ordSlice_mem ord k k2 (by omega) _ h with ⟨p, hp1, hp2, hp3⟩
                  rw [hieq] at hp3
                  have := ord_getD_inj ord hond p d (by omega) (by omega) hp3
                  omega
            · rw [getD_set_ne_any inq i j false false (fun hc => hji hc.symm), b6]
              rw [List.mem_append]
              constructor
              · intro hc
                rcases hc with hc | hc
                · have := (hinv.hinq j hjn).mp hc
                  rw [hinv.hq, ordSlice_cons ord d k hdk (by omega)] at this
                  rcases List.mem_cons.mp this with h | h
                  · exact absurd (h.trans hieq.symm) hji
                  · left
                    rw [hqrest]
                    exact h
                · exact Or.inr hc
              · intro hc
                rcases hc with hc | hc
                · left
                  apply (hinv.hinq j hjn).mpr
                  rw [hinv.hq, ordSlice_cons ord d k hdk (by omega)]
                  apply List.mem_cons_of_mem
                  rw [← hqrest]
                  exact hc
                · exact Or.inr hc
        have hres := ih _ _ _ _ _ _ _ _ _ _ _ _ _ _ _ _ _ hinv2 hok
        have hdrop : ord.drop d = i :: ord.drop (d+1) := by
          rw [hieq]
          exact drop_cons_getD ord d (by omega)
        rw [hdrop]
        have hstep : fcfs_go pr (i :: ord.drop (d+1)) tf [] start end_ disp =
            fcfs_go pr (ord.drop (d+1))
              ((if tf < (getP pr i).arrival then (getP pr i).arrival else tf) +
                (getP pr i).burst)
              ((if tf < (getP pr i).arrival then [(⟨-1, tf, (getP pr i).arrival⟩ : Seg)]
                else []) ++
                [⟨(getP pr i).pid,
                  (if tf < (getP pr i).arrival then (getP pr i).arrival else tf),
                  (if tf < (getP pr i).arrival then (getP pr i).arrival else tf) +
                    (getP pr i).burst⟩])
              (start.set i (if tf < (getP pr i).arrival then (getP pr i).arrival else tf))
              (end_.set i
                ((if tf < (getP pr i).arrival then (getP pr i).arrival else tf) +
                  (getP pr i).burst))
              (disp ++ [i]) := rfl
        rw [hstep]
        have htf_eq : (if tf < (getP pr i).arrival then (getP pr i).arrival else tf) = t := by
          rw [ht_disp, ← hieq]
          rcases lt_or_ge tf ((getP pr i).arrival) with h | h
          · rw [if_pos h, max_eq_right (le_of_lt h)]
          · rw [if_neg (by omega), max_eq_left h]
        rw [htf_eq, ← hremi]
        rcases fcfs_go_sv_indep pr (ord.drop (d+1)) (t + geti rem i)
          ((if tf < (getP pr i).arrival then [(⟨-1, tf, (getP pr i).arrival⟩ : Seg)]
            else []) ++
            [⟨(getP pr i).pid, t, t + geti rem i⟩]) []
          (start.set i t) (end_.set i (t + geti rem i)) (disp ++ [i]) with ⟨e1, e2, e3⟩
        rw [e1, e2, e3]
        exact hres
    · simp only [hdn, if_false] at hok
      have hr : r = ⟨seg_coalesce (close_seg sv cur_pid seg_start t), start, end_, disp,
          qmax, dup⟩ := by
        cases hok
        rfl
      subst hr
      have hdrop : ord.drop d = [] := by
        apply List.drop_eq_nil_of_le
        have := hinv.hdone
        have := hinv.hdk
        have := hinv.hk
        omega
      rw [hdrop]
      exact ⟨rfl, rfl, rfl⟩

theorem init_t_as_max (pr : List Proc) (ord : List Nat) (hn : 0 < pr.length)
    (ha : 0 ≤ (getP pr (ord.getD 0 0)).arrival) :
    init_t pr ord = max 0 ((getP pr (ord.getD 0 0)).arrival) := by
  unfold init_t
  rcases lt_or_ge 0 ((getP pr (ord.getD 0 0)).arrival) with h | h
  · rw [if_pos ⟨hn, h⟩, max_eq_right (le_of_lt h)]
  · rw [if_neg (by intro hc; omega), max_eq_left (by omega)]

/-- With a quantum at least every burst, a successful RR run yields the same
start times, end times and dispatch order as FCFS. -/
theorem run_rr_eq_fcfs (pr : List Proc) (hv : ValidInput pr) (quantum : Int)
    (hQ : maxBurst pr ≤ quantum) (r : RRRes) (hok : run_rr pr quantum = RROut.ok r) :
    r.start = (run_fcfs pr).start ∧ r.end_ = (run_fcfs pr).end_ ∧
      r.disp = (run_fcfs pr).disp := by
  have hordj : ∀ j ∈ make_ord pr, j < pr.length := fun j hj => (make_ord_mem pr j).mp hj
  have ht0 : 0 ≤ init_t pr (make_ord pr) := init_t_nonneg pr hv _ hordj
  have hQ' : ∀ p ∈ pr, p.burst ≤ quantum := fun p hp =>
    le_trans (burst_le_maxBurst pr p hp) hQ
  unfold run_rr at hok
  dsimp only at hok
  rcases rr_admit_full pr (make_ord pr) (init_t pr (make_ord pr)) false (make_ord_length pr)
    (make_ord_nodup pr) hordj 0 [] (List.replicate pr.length false) 0 false
    (by omega) (by intro j hj; simp at hj) List.nodup_nil (by intro j hj; simp at hj)
    (fun p _ _ => getD_replicate_false pr.length _)
    (List.length_replicate _ _) with
    ⟨k0, q0, inq0, qmax0, b1, b2, b3, b4, b5, b6, b7, b8, b9, b10, b11, b12⟩
  rw [b1] at hok
  dsimp only at hok
  have hq0slice : q0 = ordSlice (make_ord pr) 0 k0 := by
    rw [b6]; rfl
  have hinv0 : RRFInv pr (make_ord pr) 0 (init_t pr (make_ord pr)) 0 k0 0
      (pr.map Proc.burst) q0 inq0 (List.replicate pr.length (-1))
      (List.replicate pr.length (-1)) := by
    refine ⟨by omega, b3, hq0slice, ht0, rfl, fun p hp => b5 p (by omega) hp, b4, ?_,
      ?_, ?_, ?_, List.length_replicate _ _, List.length_replicate _ _,
      List.length_map _ _, b7.trans (List.length_replicate _ _)⟩
    · intro h0k
      have hn : 0 < pr.length := by omega
      exact init_t_as_max pr (make_ord pr) hn
        (valid_arrival_nonneg pr hv _ (make_ord_getD_lt pr 0 hn))
    · intro p _ hp2
      exact geti_map_burst pr _ (make_ord_getD_lt pr p hp2)
    · intro p _ hp2
      exact geti_replicate _ _ _ (make_ord_getD_lt pr p hp2)
    · intro j hjn
      rw [b8]
      constructor
      · intro hc
        rcases hc with hc | hc
        · rw [getD_replicate_false] at hc
          exact absurd hc Bool.false_ne_true
        · rw [hq0slice]
          exact hc
      · intro hc
        right
        rw [← hq0slice]
        exact hc
  have hres := rr_fcfs_lockstep pr hv quantum hQ' (make_ord pr) (make_ord_length pr)
    (make_ord_nodup pr) hordj (rr_fuel pr) 0 (init_t pr (make_ord pr)) 0 k0 0
    (pr.map Proc.burst) q0 inq0 (-2) (init_t pr (make_ord pr)) []
    (List.replicate pr.length (-1)) (List.replicate pr.length (-1)) [] qmax0 false r
    hinv0 hok
  rw [List.drop_zero] at hres
  exact hres

/-! ### The SRTF decision point and the RR time slice, one loop iteration each -/

/-- C2: at an SRTF decision point (admission already settled, best-ranked
ready process `i` at the selector root), with `na` the arrival of the next
not-yet-admitted process (`INT_MAX` when none remains): if
`clock + remaining[i] ≤ na` then `i` runs uninterrupted to completion — the
clock advances to `clock + remaining[i]`, `remaining[i]` becomes 0, `i`
leaves the selector (the popped selector holds exactly the other entries),
and `End[i]` records the finish time; otherwise `i` runs exactly
`na − clock` units — the clock advances to `na`, `remaining[i]` drops by the
run length, and `i` is reinserted into the selector. -/
theorem srtf_decision_step (pr : List Proc) (ord : List Nat) (fuel : Nat) (t : Int)
    (k doneCnt : Nat) (rem : List Int) (i : Nat) (hrest : List Nat)
    (cur seg_start : Int) (sv : List Seg) (start end_ : List Int) (na : Int)
    (hdn : doneCnt < pr.length)
    (hadm : admit_heap (less_srtf pr rem) pr ord t k (i :: hrest) = (k, i :: hrest))
    (hin : i < pr.length) (hrl : rem.length = pr.length) (hel : end_.length = pr.length)
    (hna : na = if k < pr.length then (getP pr (ord.getD k 0)).arrival else INT_MAX) :
    (t + geti rem i ≤ na →
      srtf_go pr ord (fuel+1) t k doneCnt rem (i :: hrest) cur seg_start sv start end_ =
        srtf_go pr ord fuel (t + geti rem i) k (doneCnt+1) (rem.set i 0)
          (heap_pop (less_srtf pr (rem.set i 0)) (i :: hrest)).2 (getP pr i).pid
          (if cur ≠ (getP pr i).pid then t else seg_start)
          (if cur ≠ (getP pr i).pid ∧ cur ≠ -2 then sv ++ [⟨cur, seg_start, t⟩] else sv)
          (if geti start i = -1 then start.set i t else start)
          (end_.set i (t + geti rem i)) ∧
      geti (rem.set i 0) i = 0 ∧
      geti (end_.set i (t + geti rem i)) i = t + geti rem i ∧
      List.Perm (heap_pop (less_srtf pr (rem.set i 0)) (i :: hrest)).2 hrest) ∧
    (¬ t + geti rem i ≤ na →
      srtf_go pr ord (fuel+1) t k doneCnt rem (i :: hrest) cur seg_start sv start end_ =
        srtf_go pr ord fuel na k doneCnt (rem.set i (geti rem i - (na - t)))
          (heap_push (less_srtf pr (rem.set i (geti rem i - (na - t))))
            (heap_pop (less_srtf pr (rem.set i (geti rem i - (na - t)))) (i :: hrest)).2 i)
          (getP pr i).pid
          (if cur ≠ (getP pr i).pid then t else seg_start)
          (if cur ≠ (getP pr i).pid ∧ cur ≠ -2 then sv ++ [⟨cur, seg_start, t⟩] else sv)
          (if geti start i = -1 then start.set i t else start)
          end_ ∧
      geti (rem.set i (geti rem i - (na - t))) i = geti rem i - (na - t) ∧
      List.Perm (heap_push (less_srtf pr (rem.set i (geti rem i - (na - t))))
        (heap_pop (less_srtf pr (rem.set i (geti rem i - (na - t)))) (i :: hrest)).2 i)
        (i :: hrest)) := by
  constructor
  · intro hle
    refine ⟨?_, geti_set_self rem i 0 (by omega),
      geti_set_self end_ i _ (by omega), heap_pop_perm _ i hrest⟩
    rw [srtf_go_succ, if_pos hdn, hadm]
    dsimp only
    rw [if_neg (by simp)]
    dsimp only [List.getD_cons_zero]
    rw [← hna, if_pos hle]
  · intro hgt
    refine ⟨?_, geti_set_self rem i _ (by omega), ?_⟩
    · rw [srtf_go_succ, if_pos hdn, hadm]
      dsimp only
      rw [if_neg (by simp)]
      dsimp only [List.getD_cons_zero]
      rw [← hna, if_neg hgt]
    · exact (heap_push_perm _ _ i).trans ((heap_pop_perm _ i hrest).cons i)

/-- C3: one RR time slice.  Popping the queue head `i` runs it for
`slice = min(remaining[i], Q)` time units; every process whose arrival lies
in `(old_clock, old_clock + slice]` is pushed onto the queue (the
`ordSlice` block) before `i` is pushed back, and `i` is pushed back exactly
when its remaining time is still positive; the characterisation conjuncts
say the admitted block is precisely the processes arriving in that window. -/
theorem rr_slice_step (pr : List Proc) (quantum : Int) (ord : List Nat)
    (hlen : ord.length = pr.length) (hond : ord.Nodup)
    (hordj : ∀ j ∈ ord, j < pr.length)
    (fuel : Nat) (t : Int) (k doneCnt : Nat) (rem : List Int) (i : Nat) (qrest : List Nat)
    (inq : List Bool) (cur_pid seg_start : Int) (sv : List Seg) (start end_ : List Int)
    (disp : List Nat) (qmax : Nat) (dup : Bool)
    (hdn : doneCnt < pr.length) (hk : k ≤ pr.length) (hin : i < pr.length)
    (hrl : rem.length = pr.length) (hil : inq.length = pr.length)
    (hqn : ∀ j ∈ qrest, j < pr.length) (hqnd : (i :: qrest).Nodup)
    (hqpos : ∀ j ∈ qrest, ∃ p, p < k ∧ ord.getD p 0 = j)
    (hpi : ∃ p, p < k ∧ ord.getD p 0 = i)
    (hinq : ∀ j, j < pr.length → (inq.getD j false = true ↔ j ∈ i :: qrest))
    (hmono : ∀ p', p' < pr.length → ∀ p, p ≤ p' →
      (getP pr (ord.getD p 0)).arrival ≤ (getP pr (ord.getD p' 0)).arrival)
    (hfront : k < pr.length → t < (getP pr (ord.getD k 0)).arrival) :
    ∃ k2 inq2 qmax2,
    ((if geti rem i < quantum then geti rem i else quantum) = min (geti rem i) quantum) ∧
    (rr_go pr ord quantum (fuel+1) t k doneCnt rem (i :: qrest) inq cur_pid seg_start sv
        start end_ disp qmax dup =
      (if geti rem i - (if geti rem i < quantum then geti rem i else quantum) = 0 then
        rr_go pr ord quantum fuel
          (t + (if geti rem i < quantum then geti rem i else quantum)) k2 (doneCnt + 1)
          (rem.set i (geti rem i - (if geti rem i < quantum then geti rem i else quantum)))
          (qrest ++ ordSlice ord k k2) inq2 (getP pr i).pid
          (if cur_pid ≠ (getP pr i).pid then t else seg_start)
          (if cur_pid ≠ (getP pr i).pid ∧ cur_pid ≠ -2 then
            sv ++ [⟨cur_pid, seg_start, t⟩] else sv)
          (if geti start i = -1 then start.set i t else start)
          (end_.set i (t + (if geti rem i < quantum then geti rem i else quantum)))
          (disp ++ [i]) qmax2 dup
      else
        rr_go pr ord quantum fuel
          (t + (if geti rem i < quantum then geti rem i else quantum)) k2 doneCnt
          (rem.set i (geti rem i - (if geti rem i < quantum then geti rem i else quantum)))
          ((qrest ++ ordSlice ord k k2) ++ [i]) (inq2.set i true) (getP pr i).pid
          (if cur_pid ≠ (getP pr i).pid then t else seg_start)
          (if cur_pid ≠ (getP pr i).pid ∧ cur_pid ≠ -2 then
            sv ++ [⟨cur_pid, seg_start, t⟩] else sv)
          (if geti start i = -1 then start.set i t else start)
          end_ (disp ++ [i]) (max qmax2 ((qrest ++ ordSlice ord k k2) ++ [i]).length)
          dup)) ∧
    (∀ j ∈ ordSlice ord k k2, t < (getP pr j).arrival ∧
      (getP pr j).arrival ≤ t + (if geti rem i < quantum then geti rem i else quantum)) ∧
    (∀ p, k ≤ p → p < pr.length →
      (getP pr (ord.getD p 0)).arrival ≤
        t + (if geti rem i < quantum then geti rem i else quantum) →
      ord.getD p 0 ∈ ordSlice ord k k2) := by
  have hfresh : ∀ p, k ≤ p → p < pr.length →
      (inq.set i false).getD (ord.getD p 0) false = false := by
    intro p hp1 hp2
    have hopl : ord.getD p 0 < pr.length := by
      apply hordj
      have hpl : p < ord.length := by omega
      rw [List.getD_eq_getElem ord 0 hpl]
      exact List.getElem_mem hpl
    by_cases hpo : ord.getD p 0 = i
    · rw [hpo]
      exact getD_set_self_any inq i false false (by omega)
    · rw [getD_set_ne_any inq i _ false false (fun hc => hpo hc.symm)]
      apply bool_eq_false_of_not_mem
      intro hc
      have hmem := (hinq _ hopl).mp hc
      rcases List.mem_cons.mp hmem with h | h
      · exact hpo h
      · rcases hqpos _ h with ⟨p', hp', hp'e⟩
        have := ord_getD_inj ord hond p' p (by omega) (by omega) hp'e
        omega
  have hndc := List.nodup_cons.mp hqnd
  rcases rr_admit_full pr ord
    (t + (if geti rem i < quantum then geti rem i else quantum)) true hlen hond hordj
    k qrest (inq.set i false) qmax dup hk hqn hndc.2 hqpos hfresh
    (by rw [List.length_set]; exact hil) with
    ⟨k2, q2, inq2, qmax2, b1, b2, b3, b4, b5, b6, b7, b8, b9, b10, b11, b12⟩
  refine ⟨k2, inq2, qmax2, ?_, ?_, ?_, ?_⟩
  · rcases lt_or_ge (geti rem i) quantum with h | h
    · rw [if_pos h, min_eq_left (le_of_lt h)]
    · rw [if_neg (by omega), min_eq_right h]
  · have hinotslice : i ∉ ordSlice ord k k2 := by
      intro hc
      rcases ordSlice_mem ord k k2 (by omega) i hc with ⟨p, hp1, hp2, hp3⟩
      rcases hpi with ⟨pi, hpi1, hpi2⟩
      have := ord_getD_inj ord hond p pi (by omega) (by omega) (hp3.trans hpi2.symm)
      omega
    have hinotq2 : i ∉ qrest ++ ordSlice ord k k2 := by
      intro hc
      rcases List.mem_append.mp hc with h | h
      · exact hndc.1 h
      · exact hinotslice h
    have hlq2 : (qrest ++ ordSlice ord k k2).length ≠ pr.length := by
      have hnd2 : ((qrest ++ ordSlice ord k k2) ++ [i]).Nodup := by
        rw [List.nodup_append]
        refine ⟨by rw [← b6]; exact b10, List.nodup_singleton i, ?_⟩
        intro a ha hb
        rw [List.mem_singleton] at hb
        exact hinotq2 (hb ▸ ha)
      have hmem2 : ∀ j ∈ (qrest ++ ordSlice ord k k2) ++ [i], j < pr.length := by
        intro j hj
        rcases List.mem_append.mp hj with h | h
        · exact b11 j (by rw [b6]; exact h)
        · rw [List.mem_singleton] at h
          exact h ▸ hin
      have := nodup_lt_length_le _ pr.length hnd2 hmem2
      rw [List.length_append, List.length_append, List.length_singleton] at this
      rw [List.length_append]
      omega
    have hpush : q_push pr.length (qrest ++ ordSlice ord k k2) i =
        some ((qrest ++ ordSlice ord k k2) ++ [i]) := by
      unfold q_push
      rw [if_neg hlq2]
    have hcont : (qrest ++ ordSlice ord k k2).contains i = false := by
      rw [List.contains_eq_any_beq, List.any_eq_false]
      intro j hj
      simp only [beq_iff_eq]
      intro hc
      exact hinotq2 (hc ▸ hj)
    rw [rr_go_succ, if_pos hdn]
    dsimp only
    rw [b1]
    dsimp only
    rw [geti_set_self rem i _ (by omega), b6, hpush]
    dsimp only
    rw [hcont, Bool.or_false]
  · intro j hj
    rcases ordSlice_mem ord k k2 (by omega) j hj with ⟨p, hp1, hp2, hp3⟩
    have hpn : p < pr.length := by omega
    constructor
    · calc t < (getP pr (ord.getD k 0)).arrival := hfront (by omega)
        _ ≤ (getP pr (ord.getD p 0)).arrival := hmono p hpn k hp1
        _ = (getP pr j).arrival := by rw [hp3]
    · rw [← hp3]
      exact b5 p hp1 hp2
  · intro p hp1 hp2 hp3
    rcases Nat.lt_or_ge p k2 with h | h
    · exact ordSlice_mem_of ord k k2 p hp1 h (by omega)
    · exfalso
      have hb4 := b4 (by omega)
      have := hmono p hp2 k2 h
      omega

/-! ### SRTF equals SJF when every process arrives at time 0 -/

/-- The two comparators agree on indices whose remaining time still equals
their burst. -/
theorem less_agree (pr : List Proc) (rem : List Int) (a b : Nat)
    (ha : geti rem a = (getP pr a).burst) (hb : geti rem b = (getP pr b).burst) :
    less_srtf pr rem a b = less_sjf pr a b := by
  unfold less_srtf less_sjf
  rw [ha, hb]

/-- Agreement of two comparators on all elements of a list. -/
def agreeOn (less₁ less₂ : Nat → Nat → Bool) (h : List Nat) : Prop :=
  ∀ a ∈ h, ∀ b ∈ h, less₁ a b = less₂ a b

theorem getD_mem_of_lt (l : List Nat) (j : Nat) (hj : j < l.length) : l.getD j 0 ∈ l := by
  rw [List.getD_eq_getElem l 0 hj]
  exact List.getElem_mem hj

theorem sd_m1_congr (less₁ less₂ : Nat → Nat → Bool) (h : List Nat) (i : Nat)
    (hag : agreeOn less₁ less₂ h) : sd_m1 less₁ h i = sd_m1 less₂ h i := by
  unfold sd_m1
  by_cases hl : 2*i+1 < h.length
  · have hi : i < h.length := by omega
    have he : less₁ (h.getD (2*i+1) 0) (h.getD i 0) = less₂ (h.getD (2*i+1) 0) (h.getD i 0) :=
      hag _ (getD_mem_of_lt h _ hl) _ (getD_mem_of_lt h _ hi)
    rw [he]
  · rw [if_neg (by intro hc; exact hl hc.1), if_neg (by intro hc; exact hl hc.1)]

theorem sd_m_congr (less₁ less₂ : Nat → Nat → Bool) (h : List Nat) (i : Nat)
    (hag : agreeOn less₁ less₂ h) : sd_m less₁ h i = sd_m less₂ h i := by
  have h1 := sd_m1_congr less₁ less₂ h i hag
  unfold sd_m
  rw [h1]
  by_cases hl : 2*i+2 < h.length
  · have hm : sd_m1 less₂ h i < h.length := by
      rcases sd_m1_spec less₂ h i with h0 | h0
      · omega
      · exact h0.2
    have he : less₁ (h.getD (2*i+2) 0) (h.getD (sd_m1 less₂ h i) 0) =
        less₂ (h.getD (2*i+2) 0) (h.getD (sd_m1 less₂ h i) 0) :=
      hag _ (getD_mem_of_lt h _ hl) _ (getD_mem_of_lt h _ hm)
    rw [he]
  · rw [if_neg (by intro hc; exact hl hc.1), if_neg (by intro hc; exact hl hc.1)]

theorem siftDown_congr (less₁ less₂ : Nat → Nat → Bool) (h : List Nat) (i : Nat)
    (hag : agreeOn less₁ less₂ h) : siftDown less₁ h i = siftDown less₂ h i := by
  have hm := sd_m_congr less₁ less₂ h i hag
  by_cases hcond : sd_m less₂ h i = i
  · conv_lhs => rw [siftDown_unfold]
    conv_rhs => rw [siftDown_unfold]
    rw [if_pos (hm.trans hcond), if_pos hcond]
  · conv_lhs => rw [siftDown_unfold]
    conv_rhs => rw [siftDown_unfold]
    rw [if_neg (by rw [hm]; exact hcond), if_neg hcond, hm]
    rcases sd_m_spec less₂ h i with h0 | h0
    · exact absurd h0 hcond
    · have hperm : List.Perm (heap_swap h i (sd_m less₂ h i)) h :=
        heap_swap_perm h i _ (by omega) (by omega) h0.2
      exact siftDown_congr less₁ less₂ _ _ (fun a ha b hb =>
        hag a (hperm.mem_iff.mp ha) b (hperm.mem_iff.mp hb))
termination_by h.length - i
decreasing_by
  rw [heap_swap_length]
  omega

theorem siftUp_congr (less₁ less₂ : Nat → Nat → Bool) (h : List Nat) (i : Nat)
    (hi : i < h.length) (hag : agreeOn less₁ less₂ h) :
    siftUp less₁ h i = siftUp less₂ h i := by
  by_cases h0 : i = 0
  · conv_lhs => rw [siftUp_unfold]
    conv_rhs => rw [siftUp_unfold]
    rw [if_pos h0, if_pos h0]
  · conv_lhs => rw [siftUp_unfold]
    conv_rhs => rw [siftUp_unfold]
    rw [if_neg h0, if_neg h0]
    have hp : (i - 1) / 2 < h.length := by
      have := Nat.div_le_self (i - 1) 2
      omega
    have he : less₁ (h.getD i 0) (h.getD ((i - 1) / 2) 0) =
        less₂ (h.getD i 0) (h.getD ((i - 1) / 2) 0) :=
      hag _ (getD_mem_of_lt h _ hi) _ (getD_mem_of_lt h _ hp)
    rw [he]
    split
    · have hperm : List.Perm (heap_swap h i ((i-1)/2)) h :=
        heap_swap_perm h i _ (by omega) hi hp
      exact siftUp_congr less₁ less₂ _ _ (by rw [heap_swap_length]; exact hp)
        (fun a ha b hb => hag a (hperm.mem_iff.mp ha) b (hperm.mem_iff.mp hb))
    · rfl
termination_by i
decreasing_by
  have := Nat.div_le_self (i - 1) 2
  omega

theorem heap_push_congr (less₁ less₂ : Nat → Nat → Bool) (h : List Nat) (idx : Nat)
    (hag : agreeOn less₁ less₂ (h ++ [idx])) :
    heap_push less₁ h idx = heap_push less₂ h idx := by
  unfold heap_push
  exact siftUp_congr less₁ less₂ (h ++ [idx]) h.length (by simp) hag

theorem heap_pop_congr (less₁ less₂ : Nat → Nat → Bool) (x : Nat) (rest : List Nat)
    (hag : agreeOn less₁ less₂ rest) :
    heap_pop less₁ (x :: rest) = heap_pop less₂ (x :: rest) := by
  have hsub : ∀ a ∈ ((x :: rest).set 0 ((x :: rest).getD rest.length 0)).take rest.length,
      a ∈ rest := by
    intro a ha
    have ha' := List.mem_of_mem_take ha
    cases rest with
    | nil => simp at ha
    | cons y rest' =>
      rcases List.mem_cons.mp ha' with h1 | h1
      · rw [h1]
        show (x :: y :: rest').getD (rest'.length + 1) 0 ∈ y :: rest'
        rw [List.getD_cons_succ]
        exact getD_mem_of_lt (y :: rest') rest'.length (by simp)
      · exact h1
  have hsd := siftDown_congr less₁ less₂
    (((x :: rest).set 0 ((x :: rest).getD rest.length 0)).take rest.length) 0
    (fun a ha b hb => hag a (hsub a ha) b (hsub b hb))
  show (x, siftDown less₁ (((x :: rest).set 0 ((x :: rest).getD rest.length 0)).take
    rest.length) 0) = (x, siftDown less₂ (((x :: rest).set 0
    ((x :: rest).getD rest.length 0)).take rest.length) 0)
  rw [hsd]

theorem admit_heap_noop (less : Nat → Nat → Bool) (pr : List Proc) (ord : List Nat)
    (t : Int) (k : Nat) (hp : List Nat) (h : ¬ k < pr.length) :
    admit_heap less pr ord t k hp = (k, hp) := by
  rw [admit_heap_unfold]
  rw [if_neg (by intro hc; exact h hc.1)]

theorem admit_heap_congr (less₁ less₂ : Nat → Nat → Bool) (pr : List Proc) (ord : List Nat)
    (t : Int) (hlen : ord.length = pr.length)
    (hagAll : ∀ a b, a < pr.length → b < pr.length → less₁ a b = less₂ a b)
    (hordj : ∀ j ∈ ord, j < pr.length) (k : Nat) (hp : List Nat)
    (hhp : ∀ j ∈ hp, j < pr.length) :
    admit_heap less₁ pr ord t k hp = admit_heap less₂ pr ord t k hp := by
  conv_lhs => rw [admit_heap_unfold]
  conv_rhs => rw [admit_heap_unfold]
  split
  · next hg =>
    have hok : ord.getD k 0 < pr.length := hordj _ (getD_mem_of_lt ord k (by omega))
    have hmemp : ∀ a ∈ hp ++ [ord.getD k 0], a < pr.length := by
      intro a ha
      rcases List.mem_append.mp ha with h1 | h1
      · exact hhp a h1
      · rw [List.mem_singleton] at h1
        exact h1 ▸ hok
    have hpc := heap_push_congr less₁ less₂ hp (ord.getD k 0)
      (fun a ha b hb => hagAll a b (hmemp a ha) (hmemp b hb))
    rw [hpc]
    have hhp' : ∀ j ∈ heap_push less₂ hp (ord.getD k 0), j < pr.length := by
      intro j hj
      have := (heap_push_perm less₂ hp (ord.getD k 0)).mem_iff.mp hj
      rcases List.mem_cons.mp this with rfl | h1
      · exact hok
      · exact hhp j h1
    exact admit_heap_congr less₁ less₂ pr ord t hlen hagAll hordj (k+1)
      (heap_push less₂ hp (ord.getD k 0)) hhp'
  · rfl
termination_by pr.length - k

theorem pid_inj (pr : List Proc) (hpnd : (pr.map Proc.pid).Nodup) (i c : Nat)
    (hi : i < pr.length) (hc : c < pr.length) (hne : i ≠ c) :
    (getP pr i).pid ≠ (getP pr c).pid := by
  intro he
  have hi2 : i < (pr.map Proc.pid).length := by rw [List.length_map]; exact hi
  have hc2 : c < (pr.map Proc.pid).length := by rw [List.length_map]; exact hc
  have h1 : (pr.map Proc.pid)[i] = (pr.map Proc.pid)[c] := by
    rw [List.getElem_map, List.getElem_map]
    unfold getP at he
    rw [List.getD_eq_getElem pr _ hi, List.getD_eq_getElem pr _ hc] at he
    exact he
  exact hne ((List.Nodup.getElem_inj_iff hpnd).mp h1)

/-- Lockstep invariant relating an SJF state and an SRTF state that have run
the same schedule so far (all arrivals 0, so SRTF never preempts). -/
structure SJSInv (pr : List Proc) (ord : List Nat) (t : Int) (k doneCnt : Nat)
    (rem : List Int) (hp : List Nat) (cur seg_start : Int) (svR svJ : List Seg)
    (start end_ : List Int) : Prop where
  hk : k ≤ pr.length
  ht0 : 0 ≤ t
  hcount : doneCnt + hp.length = k
  hnd : hp.Nodup
  hsl : start.length = pr.length
  hel : end_.length = pr.length
  hrl : rem.length = pr.length
  hhp : ∀ j ∈ hp, j < pr.length ∧ geti rem j = (getP pr j).burst ∧
    geti start j = -1 ∧ geti end_ j = -1 ∧ ∃ p, p < k ∧ ord.getD p 0 = j
  hun : ∀ p, k ≤ p → p < pr.length → geti start (ord.getD p 0) = -1 ∧
    geti end_ (ord.getD p 0) = -1
  hrem0 : ∀ j, j < pr.length → 0 ≤ geti rem j
  hkn : k = pr.length ∨ ∀ j, j < pr.length → geti rem j = (getP pr j).burst
  hsum : t + sumRemInt rem pr.length ≤ maxArrival pr + sumBurst pr
  hcur : cur = -2 ∨ ∃ c, c < pr.length ∧ geti end_ c ≠ -1 ∧ cur = (getP pr c).pid
  hsv : svJ = close_seg svR cur seg_start t

theorem sjf_srtf_lockstep (pr : List Proc) (hv : ValidInput pr)
    (hz : ∀ p ∈ pr, p.arrival = 0) (hpnd : (pr.map Proc.pid).Nodup)
    (hnp2 : ∀ p ∈ pr, p.pid ≠ -2) (hb : Bounded pr)
    (ord : List Nat) (hlen : ord.length = pr.length) (hond : ord.Nodup)
    (hordj : ∀ j ∈ ord, j < pr.length) :
    ∀ (f1 f2 : Nat) (t : Int) (k doneCnt : Nat) (rem : List Int) (hp : List Nat)
    (cur seg_start : Int) (svR svJ : List Seg) (start end_ : List Int),
    SJSInv pr ord t k doneCnt rem hp cur seg_start svR svJ start end_ →
    pr.length - doneCnt + 1 ≤ f1 → pr.length - doneCnt + 1 ≤ f2 →
    sjf_go pr ord f1 t k doneCnt hp svJ start end_ =
      srtf_go pr ord f2 t k doneCnt rem hp cur seg_start svR start end_ := by
  intro f1
  induction f1 with
  | zero =>
    intro f2 t k doneCnt rem hp cur seg_start svR svJ start end_ _ hf1 _
    omega
  | succ f1 ih =>
    intro f2 t k doneCnt rem hp cur seg_start svR svJ start end_ hinv hf1 hf2
    rcases f2 with _ | f2
    · omega
    rw [sjf_go_succ, srtf_go_succ]
    have ht0 := hinv.ht0
    have hkk := hinv.hk
    have hcnt := hinv.hcount
    have hrl := hinv.hrl
    have hsl := hinv.hsl
    have hel := hinv.hel
    by_cases hdn : doneCnt < pr.length
    · rw [if_pos hdn, if_pos hdn]
      have hadm_eq : admit_heap (less_sjf pr) pr ord t k hp =
          admit_heap (less_srtf pr rem) pr ord t k hp := by
        rcases hinv.hkn with hkN | hglob
        · rw [admit_heap_noop _ pr ord t k hp (by omega),
            admit_heap_noop _ pr ord t k hp (by omega)]
        · exact (admit_heap_congr (less_srtf pr rem) (less_sjf pr) pr ord t hlen
            (fun a b ha hb => less_agree pr rem a b (hglob a ha) (hglob b hb)) hordj k hp
            (fun j hj => (hinv.hhp j hj).1)).symm
      rcases hA : admit_heap (less_srtf pr rem) pr ord t k hp with ⟨k2, hp2⟩
      rcases admit_heap_full (less_srtf pr rem) pr ord t hlen hond k hp k2 hp2 hA hkk
        (fun j hj => (hinv.hhp j hj).2.2.2.2) hinv.hnd with ⟨a1, a2, a3, a4, a5, a6, a7⟩
      have hk2n : k2 = pr.length := by
        by_contra hc
        have hlt : k2 < pr.length := by omega
        have harr0 : (getP pr (ord.getD k2 0)).arrival = 0 :=
          hz _ (getP_mem pr _ (hordj _ (getD_mem_of_lt ord k2 (by omega))))
        have := a3 hlt
        omega
      have hslice_len : (ordSlice ord k k2).length = k2 - k := by
        unfold ordSlice
        simp only [List.length_drop, List.length_take]
        omega
      have hcnt2 : doneCnt + hp2.length = k2 := by
        have := a5.length_eq
        rw [List.length_append, hslice_len] at this
        omega
      have hhp2 : ∀ j ∈ hp2, j < pr.length ∧ geti rem j = (getP pr j).burst ∧
          geti start j = -1 ∧ geti end_ j = -1 ∧ ∃ p, p < k2 ∧ ord.getD p 0 = j := by
        intro j hj
        rcases List.mem_append.mp (a5.mem_iff.mp hj) with hjs | hjh
        · rcases ordSlice_mem ord k k2 (by omega) j hjs with ⟨p, hp1, hp2', hp3⟩
          have hjn : j < pr.length := hordj _ (hp3 ▸ getD_mem_of_lt ord p (by omega))
          have hrb : geti rem j = (getP pr j).burst := by
            rcases hinv.hkn with hkN | hglob
            · omega
            · exact hglob j hjn
          have hu := hinv.hun p hp1 (by omega)
          rw [hp3] at hu
          exact ⟨hjn, hrb, hu.1, hu.2, p, hp2', hp3⟩
        · rcases hinv.hhp j hjh with ⟨c1, c2, c3, c4, p, c5, c6⟩
          exact ⟨c1, c2, c3, c4, p, by omega, c6⟩
      rw [hadm_eq, hA]
      dsimp only
      rcases hp2 with _ | ⟨i, hrest⟩
      · exfalso
        simp at hcnt2
        omega
      rw [if_neg (by simp), if_neg (by simp)]
      dsimp only [List.getD_cons_zero]
      rw [heap_pop_fst]
      rcases hhp2 i (List.mem_cons_self i hrest) with ⟨hin, hremi, hstarti, hendi, _⟩
      have hbur := valid_burst_pos pr hv i hin
      have hndc := List.nodup_cons.mp a7
      have hfin : t + geti rem i ≤ INT_MAX := by
        have h1 : geti rem i ≤ sumRemInt rem pr.length :=
          single_le_sumRemInt rem pr.length i hin hinv.hrem0
        have h2 := hinv.hsum
        have h3 := hb
        unfold Bounded at h3
        omega
      have hna : (if k2 < pr.length then (getP pr (ord.getD k2 0)).arrival else INT_MAX) =
          INT_MAX := if_neg (by omega)
      rw [hna, if_pos hfin]
      have hpop_eq : heap_pop (less_sjf pr) (i :: hrest) =
          heap_pop (less_srtf pr (rem.set i 0)) (i :: hrest) := by
        refine (heap_pop_congr (less_srtf pr (rem.set i 0)) (less_sjf pr) i hrest ?_).symm
        intro a ha b hb'
        have hane : a ≠ i := fun hc => hndc.1 (hc ▸ ha)
        have hbne : b ≠ i := fun hc => hndc.1 (hc ▸ hb')
        rcases hhp2 a (List.mem_cons_of_mem i ha) with ⟨ha1, ha2, _⟩
        rcases hhp2 b (List.mem_cons_of_mem i hb') with ⟨hb1, hb2, _⟩
        refine less_agree pr (rem.set i 0) a b ?_ ?_
        · rw [geti_set_ne rem i a 0 (fun hc => hane hc.symm)]
          exact ha2
        · rw [geti_set_ne rem i b 0 (fun hc => hbne hc.symm)]
          exact hb2
      rw [hpop_eq, if_pos hstarti, hremi]
      have hpidne2 : (getP pr i).pid ≠ -2 := hnp2 _ (getP_mem pr i hin)
      have hcurne : cur ≠ (getP pr i).pid := by
        rcases hinv.hcur with hc | ⟨c, hc1, hc2, hc3⟩
        · rw [hc]
          exact fun hc' => hpidne2 hc'.symm
        · rw [hc3]
          have hic : i ≠ c := by
            intro hic
            rw [← hic] at hc2
            exact hc2 hendi
          exact (pid_inj pr hpnd i c hin hc1 hic).symm
      have hseg' : (if cur ≠ (getP pr i).pid then t else seg_start) = t := if_pos hcurne
      have hsv'eq : (if cur ≠ (getP pr i).pid ∧ cur ≠ -2 then
          svR ++ [⟨cur, seg_start, t⟩] else svR) = svJ := by
        rcases hinv.hcur with hc | ⟨c, hc1, hc2, hc3⟩
        · rw [if_neg (by intro h'; exact h'.2 hc), hinv.hsv, close_seg, if_neg (by
            intro h'; exact h' hc)]
        · have hcne2 : cur ≠ -2 := by
            rw [hc3]
            exact hnp2 _ (getP_mem pr c hc1)
          rw [if_pos ⟨hcurne, hcne2⟩, hinv.hsv, close_seg, if_pos hcne2]
      rw [hseg', hsv'eq]
      have hpopfacts := heap_pop_perm (less_srtf pr (rem.set i 0)) i hrest
      have hinv2 : SJSInv pr ord (t + (getP pr i).burst) k2 (doneCnt + 1) (rem.set i 0)
          (heap_pop (less_srtf pr (rem.set i 0)) (i :: hrest)).2 (getP pr i).pid t
          svJ (svJ ++ [⟨(getP pr i).pid, t, t + (getP pr i).burst⟩])
          (start.set i t) (end_.set i (t + (getP pr i).burst)) := by
      -- fields
        refine ⟨by omega, by omega, ?_, hpopfacts.symm.nodup (List.nodup_cons.mp a7).2, ?_, ?_,
          ?_, ?_, ?_, ?_, Or.inl hk2n, ?_, ?_, ?_⟩
        · have := hpopfacts.length_eq
          simp only [List.length_cons] at hcnt2
          omega
        · rw [List.length_set]; exact hinv.hsl
        · rw [List.length_set]; exact hinv.hel
        · rw [List.length_set]; exact hinv.hrl
        · intro j hj
          have hjr : j ∈ hrest := hpopfacts.mem_iff.mp hj
          have hjne : j ≠ i := fun hc => hndc.1 (hc ▸ hjr)
          rcases hhp2 j (List.mem_cons_of_mem i hjr) with ⟨c1, c2, c3, c4, p, c5, c6⟩
          refine ⟨c1, ?_, ?_, ?_, p, c5, c6⟩
          · rw [geti_set_ne rem i j 0 (fun hc => hjne hc.symm)]
            exact c2
          · rw [geti_set_ne start i j t (fun hc => hjne hc.symm)]
            exact c3
          · rw [geti_set_ne end_ i j _ (fun hc => hjne hc.symm)]
            exact c4
        · intro p hp1 hp2'
          omega
        · intro j hjn
          by_cases hji : j = i
          · subst hji
            rw [geti_set_self rem j 0 (by omega)]
          · rw [geti_set_ne rem i j 0 (fun hc => hji hc.symm)]
            exact hinv.hrem0 j hjn
        · have hset := sumRemInt_set rem pr.length i 0 hin hinv.hrl
          have h2 := hinv.hsum
          rw [hset, hremi]
          omega
        · refine Or.inr ⟨i, hin, ?_, rfl⟩
          rw [geti_set_self end_ i _ (by omega)]
          omega
        · rw [close_seg, if_pos hpidne2]
      have hstep := ih f2 (t + (getP pr i).burst) k2 (doneCnt + 1) (rem.set i 0)
        (heap_pop (less_srtf pr (rem.set i 0)) (i :: hrest)).2 (getP pr i).pid t
        svJ (svJ ++ [⟨(getP pr i).pid, t, t + (getP pr i).burst⟩])
        (start.set i t) (end_.set i (t + (getP pr i).burst)) hinv2 (by omega) (by omega)
      exact hstep
    · rw [if_neg hdn, if_neg hdn, hinv.hsv]

theorem init_t_zero (pr : List Proc) (hz : ∀ p ∈ pr, p.arrival = 0) :
    init_t pr (make_ord pr) = 0 := by
  unfold init_t
  split
  · next hc => exact hz _ (getP_mem pr _ (make_ord_getD_lt pr 0 hc.1))
  · rfl

/-- C8 (corrected): with all arrivals at 0, distinct pids none of which is
the in-band `-2` sentinel, and a timeline within `INT_MAX`, the SRTF driver
returns exactly the SJF driver's result (segment list and Start/End arrays).
Without the pid amendment a process with pid −2 loses its segment under
SRTF but not under SJF, so the frozen claim fails. -/
theorem run_srtf_eq_run_sjf (pr : List Proc) (hv : ValidInput pr)
    (hz : ∀ p ∈ pr, p.arrival = 0) (hpnd : (pr.map Proc.pid).Nodup)
    (hnp2 : ∀ p ∈ pr, p.pid ≠ -2) (hb : Bounded pr) :
    run_srtf pr = run_sjf pr := by
  have hordj : ∀ j ∈ make_ord pr, j < pr.length := fun j hj => (make_ord_mem pr j).mp hj
  have ht0 := init_t_zero pr hz
  have hma := maxArrival_nonneg pr
  unfold run_srtf run_sjf
  dsimp only
  refine (sjf_srtf_lockstep pr hv hz hpnd hnp2 hb (make_ord pr) (make_ord_length pr)
    (make_ord_nodup pr) hordj (sjf_fuel pr) (srtf_fuel pr) (init_t pr (make_ord pr)) 0 0
    (pr.map Proc.burst) [] (-2) (init_t pr (make_ord pr)) [] []
    (List.replicate pr.length (-1)) (List.replicate pr.length (-1)) ?_ ?_ ?_).symm
  · refine ⟨by omega, init_t_nonneg pr hv _ hordj, rfl, List.nodup_nil,
      List.length_replicate _ _, List.length_replicate _ _, List.length_map _ _,
      ?_, ?_, ?_, Or.inr (fun j hj => geti_map_burst pr j hj), ?_, Or.inl rfl,
      by rw [close_seg, if_neg (fun hc => hc rfl)]⟩
    · intro j hj
      simp at hj
    · intro p hp1 hp2
      exact ⟨geti_replicate _ _ _ (make_ord_getD_lt pr p hp2),
        geti_replicate _ _ _ (make_ord_getD_lt pr p hp2)⟩
    · intro j hjn
      rw [geti_map_burst pr j hjn]
      have := valid_burst_pos pr hv j hjn
      omega
    · rw [sumRemInt_map_burst, ht0]
      omega
  · unfold sjf_fuel
    omega
  · unfold srtf_fuel
    omega

/-! ### The claims -/

/-- C1 (corrected): on the single-process input `{(1,5,3)}` only FCFS emits
the IDLE segment `[0,5)`; SJF, SRTF and RR jump the initial clock to the
first arrival before the loop starts and report a single segment `[5,8)`.
All four agree on `Start = 5`, `End = 8`, response 0, turnaround 3,
waiting 0. -/
theorem c1_single_process_idle_gap :
    run_fcfs [⟨1,5,3⟩] = ⟨[⟨-1,0,5⟩, ⟨1,5,8⟩], [5], [8], [0]⟩ ∧
    run_sjf [⟨1,5,3⟩] = some ⟨[⟨1,5,8⟩], [5], [8]⟩ ∧
    run_srtf [⟨1,5,3⟩] = some ⟨[⟨1,5,8⟩], [5], [8]⟩ ∧
    run_rr [⟨1,5,3⟩] 2 = RROut.ok ⟨[⟨1,5,8⟩], [5], [8], [0,0], 1, false⟩ ∧
    resp_of [⟨1,5,3⟩] [5] 0 = 0 ∧ tat_of [⟨1,5,3⟩] [8] 0 = 3 ∧
    wait_of [⟨1,5,3⟩] [8] 0 = 0 := by
  decide

/-- C1 counterexample: the SJF driver does not produce the claimed IDLE
segment `[0,5)` on the single-process input `{(1,5,3)}`. -/
theorem c1_counterexample :
    ¬ Option.map AlgoRes.segs (run_sjf [⟨1,5,3⟩]) =
      some [⟨-1,0,5⟩, ⟨1,5,8⟩] := by
  decide

/-- C2 witness: a concrete decision point (process 0 of `{(1,0,2),(2,3,2)}`
at clock 0 with `na = 3`) where `finish_time ≤ na`, so it runs to
completion. -/
theorem srtf_decision_step_witness :
    srtf_go [⟨1,0,2⟩, ⟨2,3,2⟩] [0, 1] 4 0 1 0 [2, 2] [0] (-2) 0 [] [-1, -1] [-1, -1] =
      srtf_go [⟨1,0,2⟩, ⟨2,3,2⟩] [0, 1] 3 2 1 1 [0, 2] [] 1 0 [] [0, -1] [2, -1] := by
  have h := (srtf_decision_step [⟨1,0,2⟩, ⟨2,3,2⟩] [0, 1] 3 0 1 0 [2, 2] 0 [] (-2) 0 []
    [-1, -1] [-1, -1] 3 (by decide) (by decide) (by decide) (by decide) (by decide)
    (by decide)).1 (by decide)
  rw [h.1]
  decide

/-- C3 witness: a concrete slice (process 0 of `{(1,0,3),(2,2,4)}`, quantum
2): the slice is `min(3,2) = 2`, process 1 (arriving at 2, inside the
window `(0,2]`) is queued before process 0 is pushed back. -/
theorem rr_slice_step_witness :
    ∃ (k2 : Nat) (inq2 : List Bool) (qmax2 : Nat),
      (2 : Int) = min 3 2 ∧
      rr_go [⟨1,0,3⟩, ⟨2,2,4⟩] [0, 1] 2 6 0 1 0 [3, 4] [0] [true, false] (-2) 0 []
          [-1, -1] [-1, -1] [] 1 false =
        rr_go [⟨1,0,3⟩, ⟨2,2,4⟩] [0, 1] 2 5 2 k2 0 [1, 4] (ordSlice [0, 1] 1 k2 ++ [0])
          (inq2.set 0 true) 1 0 [] [0, -1] [-1, -1] [0]
          (max qmax2 (ordSlice [0, 1] 1 k2 ++ [0]).length) false ∧
      (∀ j ∈ ordSlice [0, 1] 1 k2, (0:Int) < (getP [⟨1,0,3⟩, ⟨2,2,4⟩] j).arrival ∧
        (getP [⟨1,0,3⟩, ⟨2,2,4⟩] j).arrival ≤ 2) ∧
      (∀ p, 1 ≤ p → p < 2 →
        (getP [⟨1,0,3⟩, ⟨2,2,4⟩] (List.getD [0, 1] p 0)).arrival ≤ 2 →
        List.getD [0, 1] p 0 ∈ ordSlice [0, 1] 1 k2) :=
  rr_slice_step [⟨1,0,3⟩, ⟨2,2,4⟩] 2 [0, 1] (by decide) (by decide) (by decide) 5 0 1 0
    [3, 4] 0 [] [true, false] (-2) 0 [] [-1, -1] [-1, -1] [] 1 false (by decide)
    (by decide) (by decide) (by decide) (by decide)
    (by intro j hj; simp at hj) (by decide) (by intro j hj; simp at hj)
    ⟨0, by decide, by decide⟩ (by decide) (by decide) (by decide)

/-- C4 (corrected): on every valid input, FCFS's and SJF's coalesced
segment lists pass the positive-length / contiguity / alternating-owner
checker as originally claimed; for the preemptive drivers the claim
additionally needs the pids to avoid the in-band sentinels −1 and −2
(and, for SRTF, a timeline within `INT_MAX`) — without that amendment
SRTF and RR drop the segments of a pid −2 process. -/
theorem c4_segment_invariants (pr : List Proc) (quantum : Int) (hv : ValidInput pr)
    (hq : 1 ≤ quantum) :
    segsOKb (run_fcfs pr).segs = true ∧
    (∃ r, run_sjf pr = some r ∧ segsOKb r.segs = true) ∧
    (CleanPids pr → Bounded pr →
      ∃ r, run_srtf pr = some r ∧ segsOKb r.segs = true) ∧
    (CleanPids pr →
      ∃ r, run_rr pr quantum = RROut.ok r ∧ segsOKb r.segs = true) := by
  refine ⟨?_, ?_, ?_, ?_⟩
  · rcases run_fcfs_spec pr hv with ⟨_, T, hch, halt⟩
    exact segsOKb_of_chain _ 0 T hch halt
  · rcases run_sjf_spec pr hv with ⟨r, hr, _, T, hch, halt⟩
    exact ⟨r, hr, segsOKb_of_chain _ _ T hch halt⟩
  · intro hcl hb
    rcases run_srtf_spec pr hv hb with ⟨r, hr, _, hcle⟩
    rcases hcle hcl with ⟨T, hch, halt⟩
    exact ⟨r, hr, segsOKb_of_chain _ _ T hch halt⟩
  · intro hcl
    rcases run_rr_spec pr hv quantum hq with ⟨r, hr, _, hcle, _, _⟩
    rcases hcle hcl with ⟨T, hch, halt⟩
    exact ⟨r, hr, segsOKb_of_chain _ _ T hch halt⟩

/-- C4 counterexample: on the valid input `{(5,0,2),(-2,0,3),(7,0,9)}` the
SRTF segment list fails the checker — the pid −2 process's segment is
dropped, leaving a gap. -/
theorem c4_counterexample :
    Option.map (fun r => segsOKb r.segs) (run_srtf [⟨5,0,2⟩, ⟨-2,0,3⟩, ⟨7,0,9⟩]) =
      some false := by
  decide

/-- C4 witness at a concrete input. -/
theorem c4_witness :
    segsOKb (run_fcfs [⟨1,0,2⟩, ⟨2,1,3⟩]).segs = true ∧
    (∃ r, run_sjf [⟨1,0,2⟩, ⟨2,1,3⟩] = some r ∧ segsOKb r.segs = true) ∧
    (CleanPids [⟨1,0,2⟩, ⟨2,1,3⟩] → Bounded [⟨1,0,2⟩, ⟨2,1,3⟩] →
      ∃ r, run_srtf [⟨1,0,2⟩, ⟨2,1,3⟩] = some r ∧ segsOKb r.segs = true) ∧
    (CleanPids [⟨1,0,2⟩, ⟨2,1,3⟩] →
      ∃ r, run_rr [⟨1,0,2⟩, ⟨2,1,3⟩] 2 = RROut.ok r ∧ segsOKb r.segs = true) :=
  c4_segment_invariants [⟨1,0,2⟩, ⟨2,1,3⟩] 2 (by unfold ValidInput; decide) (by decide)

/-- C5: for every valid input (timeline within `INT_MAX` for SRTF), the
non-preemptive drivers give `End − Start = burst` exactly and the
preemptive drivers give `End − Start ≥ burst` for every process. -/
theorem c5_span_vs_burst (pr : List Proc) (quantum : Int) (hv : ValidInput pr)
    (hq : 1 ≤ quantum) (hb : Bounded pr) :
    (∀ j, j < pr.length →
      geti (run_fcfs pr).end_ j = geti (run_fcfs pr).start j + (getP pr j).burst) ∧
    (∃ r, run_sjf pr = some r ∧ ∀ j, j < pr.length →
      geti r.end_ j = geti r.start j + (getP pr j).burst) ∧
    (∃ r, run_srtf pr = some r ∧ ∀ j, j < pr.length →
      (getP pr j).burst ≤ geti r.end_ j - geti r.start j) ∧
    (∃ r, run_rr pr quantum = RROut.ok r ∧ ∀ j, j < pr.length →
      (getP pr j).burst ≤ geti r.end_ j - geti r.start j) := by
  refine ⟨(run_fcfs_spec pr hv).1, ?_, ?_, ?_⟩
  · rcases run_sjf_spec pr hv with ⟨r, hr, hgood⟩
    exact ⟨r, hr, hgood.1⟩
  · rcases run_srtf_spec pr hv hb with ⟨r, hr, hge, _⟩
    exact ⟨r, hr, hge⟩
  · rcases run_rr_spec pr hv quantum hq with ⟨r, hr, hge, _⟩
    exact ⟨r, hr, hge⟩

/-- C5 witness at a concrete input. -/
theorem c5_witness :
    (∀ j, j < ([⟨1,0,2⟩, ⟨2,1,3⟩] : List Proc).length →
      geti (run_fcfs [⟨1,0,2⟩, ⟨2,1,3⟩]).end_ j =
        geti (run_fcfs [⟨1,0,2⟩, ⟨2,1,3⟩]).start j +
          (getP [⟨1,0,2⟩, ⟨2,1,3⟩] j).burst) ∧
    (∃ r, run_sjf [⟨1,0,2⟩, ⟨2,1,3⟩] = some r ∧
      ∀ j, j < ([⟨1,0,2⟩, ⟨2,1,3⟩] : List Proc).length →
        geti r.end_ j = geti r.start j + (getP [⟨1,0,2⟩, ⟨2,1,3⟩] j).burst) ∧
    (∃ r, run_srtf [⟨1,0,2⟩, ⟨2,1,3⟩] = some r ∧
      ∀ j, j < ([⟨1,0,2⟩, ⟨2,1,3⟩] : List Proc).length →
        (getP [⟨1,0,2⟩, ⟨2,1,3⟩] j).burst ≤ geti r.end_ j - geti r.start j) ∧
    (∃ r, run_rr [⟨1,0,2⟩, ⟨2,1,3⟩] 2 = RROut.ok r ∧
      ∀ j, j < ([⟨1,0,2⟩, ⟨2,1,3⟩] : List Proc).length →
        (getP [⟨1,0,2⟩, ⟨2,1,3⟩] j).burst ≤ geti r.end_ j - geti r.start j) :=
  c5_span_vs_burst [⟨1,0,2⟩, ⟨2,1,3⟩] 2 (by unfold ValidInput; decide) (by decide)
    (by unfold Bounded; decide)

/-- C6 (corrected): with the program's formulas `response = Start − arrival`,
`turnaround = End − arrival` and `waiting = turnaround − burst`, the frozen
identity `turnaround = response + waiting` is false (it would force
`response = burst`).  What the code guarantees is
`turnaround = waiting + burst` for every driver, and `response = waiting`
for the non-preemptive drivers. -/
theorem c6_metric_identities (pr : List Proc) (hv : ValidInput pr) :
    (∀ (end_ : List Int) (j : Nat),
      tat_of pr end_ j = wait_of pr end_ j + (getP pr j).burst) ∧
    (∀ j, j < pr.length →
      resp_of pr (run_fcfs pr).start j = wait_of pr (run_fcfs pr).end_ j) ∧
    (∃ r, run_sjf pr = some r ∧ ∀ j, j < pr.length →
      resp_of pr r.start j = wait_of pr r.end_ j) := by
  refine ⟨?_, ?_, ?_⟩
  · intro end_ j
    simp only [wait_of, tat_of]
    ring
  · intro j hj
    have h := (run_fcfs_spec pr hv).1 j hj
    unfold resp_of wait_of tat_of
    omega
  · rcases run_sjf_spec pr hv with ⟨r, hr, hgood⟩
    refine ⟨r, hr, ?_⟩
    intro j hj
    have h := hgood.1 j hj
    unfold resp_of wait_of tat_of
    omega

/-- C6 counterexample: for `{(1,5,3)}` under FCFS, turnaround is 3 but
response and waiting are both 0, so `turnaround = response + waiting`
fails. -/
theorem c6_counterexample :
    ¬ tat_of [⟨1,5,3⟩] (run_fcfs [⟨1,5,3⟩]).end_ 0 =
      resp_of [⟨1,5,3⟩] (run_fcfs [⟨1,5,3⟩]).start 0 +
        wait_of [⟨1,5,3⟩] (run_fcfs [⟨1,5,3⟩]).end_ 0 := by
  decide

/-- C6 witness at a concrete input. -/
theorem c6_witness :
    (∀ (end_ : List Int) (j : Nat),
      tat_of [⟨1,0,2⟩, ⟨2,1,3⟩] end_ j =
        wait_of [⟨1,0,2⟩, ⟨2,1,3⟩] end_ j + (getP [⟨1,0,2⟩, ⟨2,1,3⟩] j).burst) ∧
    (∀ j, j < ([⟨1,0,2⟩, ⟨2,1,3⟩] : List Proc).length →
      resp_of [⟨1,0,2⟩, ⟨2,1,3⟩] (run_fcfs [⟨1,0,2⟩, ⟨2,1,3⟩]).start j =
        wait_of [⟨1,0,2⟩, ⟨2,1,3⟩] (run_fcfs [⟨1,0,2⟩, ⟨2,1,3⟩]).end_ j) ∧
    (∃ r, run_sjf [⟨1,0,2⟩, ⟨2,1,3⟩] = some r ∧
      ∀ j, j < ([⟨1,0,2⟩, ⟨2,1,3⟩] : List Proc).length →
        resp_of [⟨1,0,2⟩, ⟨2,1,3⟩] r.start j = wait_of [⟨1,0,2⟩, ⟨2,1,3⟩] r.end_ j) :=
  c6_metric_identities [⟨1,0,2⟩, ⟨2,1,3⟩] (by unfold ValidInput; decide)

/-- C7: with a quantum at least the largest burst, the RR driver succeeds
and matches FCFS exactly: same Start array, same End array, same dispatch
order (so no process is ever preempted mid-burst). -/
theorem c7_rr_large_quantum_fcfs (pr : List Proc) (quantum : Int) (hv : ValidInput pr)
    (hQ : maxBurst pr ≤ quantum) :
    ∃ r, run_rr pr quantum = RROut.ok r ∧ r.start = (run_fcfs pr).start ∧
      r.end_ = (run_fcfs pr).end_ ∧ r.disp = (run_fcfs pr).disp := by
  have hq1 : 1 ≤ quantum := by
    have h0 : (getP pr 0) ∈ pr := getP_mem pr 0 hv.1
    have h1 := (hv.2 _ h0).2
    have h2 := burst_le_maxBurst pr _ h0
    omega
  rcases run_rr_spec pr hv quantum hq1 with ⟨r, hr, _⟩
  rcases run_rr_eq_fcfs pr hv quantum hQ r hr with ⟨e1, e2, e3⟩
  exact ⟨r, hr, e1, e2, e3⟩

/-- C7 witness at a concrete input with a large quantum. -/
theorem c7_witness :
    ∃ r, run_rr [⟨1,0,3⟩, ⟨2,1,4⟩] 5 = RROut.ok r ∧
      r.start = (run_fcfs [⟨1,0,3⟩, ⟨2,1,4⟩]).start ∧
      r.end_ = (run_fcfs [⟨1,0,3⟩, ⟨2,1,4⟩]).end_ ∧
      r.disp = (run_fcfs [⟨1,0,3⟩, ⟨2,1,4⟩]).disp :=
  c7_rr_large_quantum_fcfs [⟨1,0,3⟩, ⟨2,1,4⟩] 5 (by unfold ValidInput; decide)
    (by unfold maxBurst; decide)

/-- C8 counterexample: on the valid all-arrive-at-0 input
`{(5,0,2),(-2,0,3),(7,0,9)}` the SRTF and SJF results differ (SRTF drops
the pid −2 segment). -/
theorem c8_counterexample :
    ¬ run_srtf [⟨5,0,2⟩, ⟨-2,0,3⟩, ⟨7,0,9⟩] = run_sjf [⟨5,0,2⟩, ⟨-2,0,3⟩, ⟨7,0,9⟩] := by
  decide

/-- C8 witness at a concrete all-arrive-at-0 input. -/
theorem c8_witness :
    run_srtf [⟨1,0,2⟩, ⟨2,0,3⟩] = run_sjf [⟨1,0,2⟩, ⟨2,0,3⟩] :=
  run_srtf_eq_run_sjf [⟨1,0,2⟩, ⟨2,0,3⟩] (by unfold ValidInput; decide) (by decide)
    (by decide) (by decide) (by unfold Bounded; decide)

/-- C9: the drivers terminate and produce results on valid input — SJF and
RR on any valid input, SRTF whenever the timeline stays within `INT_MAX`
(the regime in which the C `int` arithmetic is exact); the FCFS loop is a
structurally bounded `for`. -/
theorem c9_termination (pr : List Proc) (quantum : Int) (hv : ValidInput pr)
    (hq : 1 ≤ quantum) (hb : Bounded pr) :
    (∃ r, run_sjf pr = some r) ∧ (∃ r, run_srtf pr = some r) ∧
    (∃ r, run_rr pr quantum = RROut.ok r) := by
  refine ⟨?_, ?_, ?_⟩
  · rcases run_sjf_spec pr hv with ⟨r, hr, _⟩
    exact ⟨r, hr⟩
  · rcases run_srtf_spec pr hv hb with ⟨r, hr, _⟩
    exact ⟨r, hr⟩
  · rcases run_rr_spec pr hv quantum hq with ⟨r, hr, _⟩
    exact ⟨r, hr⟩

/-- C9 witness at a concrete input. -/
theorem c9_witness :
    (∃ r, run_sjf [⟨1,0,2⟩, ⟨2,1,3⟩] = some r) ∧
    (∃ r, run_srtf [⟨1,0,2⟩, ⟨2,1,3⟩] = some r) ∧
    (∃ r, run_rr [⟨1,0,2⟩, ⟨2,1,3⟩] 2 = RROut.ok r) :=
  c9_termination [⟨1,0,2⟩, ⟨2,1,3⟩] 2 (by unfold ValidInput; decide) (by decide)
    (by unfold Bounded; decide)

/-- C10: on valid input the RR driver always returns normally: the largest
queue length ever reached (`qmax`) never exceeds the process count, no push
ever inserts an index already in the queue (`dup = false`, one outstanding
entry per incomplete process), and the overflow exit is never taken. -/
theorem c10_queue_safety (pr : List Proc) (quantum : Int) (hv : ValidInput pr)
    (hq : 1 ≤ quantum) :
    ∃ r, run_rr pr quantum = RROut.ok r ∧ r.qmax ≤ pr.length ∧ r.dup = false ∧
      run_rr pr quantum ≠ RROut.qfail := by
  rcases run_rr_spec pr hv quantum hq with ⟨r, hr, _, _, hqm, hdup⟩
  refine ⟨r, hr, hqm, hdup, ?_⟩
  rw [hr]
  intro hc
  cases hc

/-- C10 witness at a concrete input. -/
theorem c10_witness :
    ∃ r, run_rr [⟨1,0,2⟩, ⟨2,1,3⟩] 2 = RROut.ok r ∧
      r.qmax ≤ ([⟨1,0,2⟩, ⟨2,1,3⟩] : List Proc).length ∧ r.dup = false ∧
      run_rr [⟨1,0,2⟩, ⟨2,1,3⟩] 2 ≠ RROut.qfail :=
  c10_queue_safety [⟨1,0,2⟩, ⟨2,1,3⟩] 2 (by unfold ValidInput; decide) (by decide)

end Sched
